import Mathlib

/-!
# A verification development for `Directory` (src/main.cpp)

`Directory` is a separately chained hash table whose chain nodes live on the
free store and are linked through raw `next` pointers.  The embedding keeps the
pointers: the free store is a list of cells addressed by position, a pointer is
`Option Nat` (`none` for `nullptr`), and every `while` loop that follows `next`
pointers is a function taking a step budget, because on a cyclic chain the
source loop does not stop.

Conventions of the embedding

* `std::hash<std::string>` is implementation defined; it is the parameter
  `hasher : String → Nat` of every operation that hashes.
* `float loadFactor` is the fraction `num / den` that is its value.
  `calculate_threshold` truncates the exact product `capacity * loadFactor`;
  the source forms that product in single precision, which is
  `calculate_threshold_float`. The two agree while the product is exact
  (`calculate_threshold_float_eq`; for the load factor 0.75, for every
  capacity below 5592409) and differ beyond, first at `Directory(5592409)`.
* `int capacity` is a natural number (the constructor is only meaningful for a
  positive capacity); `int size` and `int threshold` are integers; the overflow
  of `capacity * 2` is not modelled.
* `new DirectoryNode *[new_capacity]` in `grow` is taken to deliver an array
  of null pointers, and every statement about `grow`, `insert` and `Reached`
  is a statement under that proviso. The source does not clear the array:
  `growFrom` and `insertFrom` take what the array holds as an argument and
  compute the threshold as the source does, and `ReachedFrom` is reachability
  by these. While the product is exact, a state of `Reached` is a state of
  `ReachedFrom` (`reachedFrom_of_reached`).
* Output to `std::cout` is not modelled, except that `display` returns the
  entries it prints, in order; `lookup` only prints what `get` returns.
* The copy constructor and the destructors are not part of the embedding;
  `delete node` in `remove` empties the cell of the node.

An outcome is `ok` (the call returned), `fault` (a null or dangling pointer was
dereferenced or an array was indexed out of bounds) or `timeout` (the step
budget ran out). "The call returns `a`" is `Returns`, "the call never returns"
is `Diverges`. The states a directory can be in are those of `Reached`: the
constructed one, and those that a call of `insert` or `remove` returned from a
reached one; a call that faults or never returns leads to no state.
-/

namespace HashDirectory

/-- The record `Entry`: a name and a phone number. -/
structure Entry where
  name : String
  phone_number : String
deriving DecidableEq, Repr

/-- The chain node `DirectoryNode`; `next` is the address of the successor. -/
structure DirectoryNode where
  key : String
  value : Entry
  hash : Nat
  next : Option Nat
deriving DecidableEq, Repr

/-- The free store: cell `a` holds the node allocated at address `a`, or
`none` once that node has been deleted. Addresses are never reused. -/
abbrev Heap := List (Option DirectoryNode)

/-- Dereference address `p`: `none` when nothing live is stored there. -/
def readNode (heap : Heap) (p : Nat) : Option DirectoryNode :=
  match heap[p]? with
  | some (some n) => some n
  | _ => none

/-- The outcome of running a piece of the source with a step budget. -/
inductive Run (α : Type) where
  | ok (a : α)
  | fault
  | timeout
deriving DecidableEq, Repr

/-- The `float loadFactor` as the fraction `num / den`. -/
structure LoadFactor where
  num : Nat
  den : Nat
deriving DecidableEq, Repr

/-- The state of a `Directory` object together with the nodes it owns. -/
structure Directory where
  heap : Heap
  table : List (Option Nat)
  capacity : Nat
  size : Int
  threshold : Int
  loadFactor : LoadFactor
deriving DecidableEq, Repr

/-- `Directory::calculate_threshold`: the exact product `capacity * loadFactor`,
truncated. The single-precision product of the source is
`calculate_threshold_float`. -/
def calculate_threshold (capacity : Nat) (loadFactor : LoadFactor) : Int :=
  ((capacity * loadFactor.num / loadFactor.den : Nat) : Int)

/-- The constructor `Directory(capacity, loadFactor)`. -/
def Directory.create (capacity : Nat) (loadFactor : LoadFactor) : Directory :=
  { heap := []
    table := List.replicate capacity none
    capacity := capacity
    size := 0
    threshold := calculate_threshold capacity loadFactor
    loadFactor := loadFactor }

/-- The default load factor `0.75`. -/
def defaultLoadFactor : LoadFactor := ⟨3, 4⟩

/-- The inner `while (node != nullptr)` loop of `Directory::grow`
(lines 84-97), started at `node` with the new bucket array `new_table`. -/
def growChain (new_capacity : Nat) :
    Nat → Heap → List (Option Nat) → Option Nat → Run (Heap × List (Option Nat))
  | _, heap, new_table, none => .ok (heap, new_table)
  | 0, _, _, some _ => .timeout
  | fuel + 1, heap, new_table, some node =>
    match readNode heap node with
    | none => .fault
    | some n =>
      match new_table[n.hash % new_capacity]? with
      | none => .fault
      | some (some head) =>
        -- node->next = new_table[new_index]; new_table[new_index] = node;
        -- node = node->next   (the pointer just written)
        growChain new_capacity fuel
          (heap.set node (some { n with next := some head }))
          (new_table.set (n.hash % new_capacity) (some node))
          (some head)
      | some none =>
        -- new_table[new_index] = node; node = node->next   (the old pointer)
        growChain new_capacity fuel heap
          (new_table.set (n.hash % new_capacity) (some node))
          n.next

/-- The outer `for (int i = 0; i < capacity; i++)` loop of `Directory::grow`:
`count` buckets remain, the next one is `table[i]`. -/
def growBuckets (fuel new_capacity : Nat) (table : List (Option Nat)) :
    Nat → Nat → Heap → List (Option Nat) → Run (Heap × List (Option Nat))
  | 0, _, heap, new_table => .ok (heap, new_table)
  | count + 1, i, heap, new_table =>
    match table[i]? with
    | none => .fault
    | some node =>
      match growChain new_capacity fuel heap new_table node with
      | .ok (heap1, new_table1) =>
        growBuckets fuel new_capacity table count (i + 1) heap1 new_table1
      | .fault => .fault
      | .timeout => .timeout

/-- `Directory::grow(new_capacity)`, the array it allocates taken as all-null
and the threshold as the exact product (`growFrom` is the call on an array
that holds anything, with the threshold of the source). -/
def grow (fuel : Nat) (d : Directory) (new_capacity : Nat) : Run Directory :=
  match growBuckets fuel new_capacity d.table d.capacity 0 d.heap
      (List.replicate new_capacity none) with
  | .ok (heap1, new_table) =>
    .ok { d with
      heap := heap1
      table := new_table
      capacity := new_capacity
      threshold := calculate_threshold new_capacity d.loadFactor }
  | .fault => .fault
  | .timeout => .timeout

/-- The search loop of `Directory::insert` (lines 149-157): `some heap1` when
a node with the key was found and its value overwritten, `none` when the chain
ended without a match. -/
def insertLoop (value : Entry) : Nat → Heap → Option Nat → Run (Option Heap)
  | _, _, none => .ok none
  | 0, _, some _ => .timeout
  | fuel + 1, heap, some node =>
    match readNode heap node with
    | none => .fault
    | some n =>
      if n.key = value.name then
        .ok (some (heap.set node (some { n with value := value })))
      else insertLoop value fuel heap n.next

/-- `Directory::insert(value)`. -/
def insert (hasher : String → Nat) (fuel : Nat) (d : Directory) (value : Entry) :
    Run Directory :=
  match d.table[hasher value.name % d.capacity]? with
  | none => .fault
  | some head =>
    match insertLoop value fuel d.heap head with
    | .fault => .fault
    | .timeout => .timeout
    | .ok (some heap1) => .ok { d with heap := heap1 }
    | .ok none =>
      let newNode : DirectoryNode :=
        { key := value.name, value := value, hash := hasher value.name, next := head }
      let d1 : Directory :=
        { d with
          heap := d.heap ++ [some newNode]
          table := d.table.set (hasher value.name % d.capacity) (some d.heap.length)
          size := d.size + 1 }
      if d1.size ≥ d1.threshold then grow fuel d1 (d1.capacity * 2) else .ok d1

/-- The search loop of `Directory::get` (lines 173-180). -/
def getLoop (key : String) : Nat → Heap → Option Nat → Run (Option Entry)
  | _, _, none => .ok none
  | 0, _, some _ => .timeout
  | fuel + 1, heap, some node =>
    match readNode heap node with
    | none => .fault
    | some n =>
      if n.key = key then .ok (some n.value) else getLoop key fuel heap n.next

/-- `Directory::get(key)`: `some entry` when present, `none` for
`std::nullopt`. -/
def get (hasher : String → Nat) (fuel : Nat) (d : Directory) (key : String) :
    Run (Option Entry) :=
  match d.table[hasher key % d.capacity]? with
  | none => .fault
  | some head => getLoop key fuel d.heap head

/-- The body of the `if (node->key == key)` branch of `Directory::remove`
(lines 206-223): splice `node` out after `prev`, delete it, decrement `size`. -/
def unlink (d : Directory) (index : Nat) (prev : Option Nat) (node : Nat)
    (n : DirectoryNode) : Run Directory :=
  match prev with
  | none =>
    .ok { d with
      table := d.table.set index n.next
      heap := d.heap.set node none
      size := d.size - 1 }
  | some q =>
    match readNode d.heap q with
    | none => .fault
    | some m =>
      .ok { d with
        heap := (d.heap.set q (some { m with next := n.next })).set node none
        size := d.size - 1 }

/-- The loop of `Directory::remove` (lines 202-227). -/
def removeLoop (key : String) (d : Directory) (index : Nat) :
    Nat → Option Nat → Option Nat → Run Directory
  | _, none, _ => .ok d
  | 0, some _, _ => .timeout
  | fuel + 1, some node, prev =>
    match readNode d.heap node with
    | none => .fault
    | some n =>
      if n.key = key then unlink d index prev node n
      else removeLoop key d index fuel n.next (some node)

/-- `Directory::remove(key)`. -/
def remove (hasher : String → Nat) (fuel : Nat) (d : Directory) (key : String) :
    Run Directory :=
  match d.table[hasher key % d.capacity]? with
  | none => .fault
  | some head => removeLoop key d (hasher key % d.capacity) fuel head none

/-- The inner loop of `Directory::display` (lines 235-239): the entries
printed while walking one chain. -/
def displayChain : Nat → Heap → Option Nat → Run (List Entry)
  | _, _, none => .ok []
  | 0, _, some _ => .timeout
  | fuel + 1, heap, some node =>
    match readNode heap node with
    | none => .fault
    | some n =>
      match displayChain fuel heap n.next with
      | .ok rest => .ok (n.value :: rest)
      | .fault => .fault
      | .timeout => .timeout

/-- The outer loop of `Directory::display`. -/
def displayBuckets (fuel : Nat) (d : Directory) : Nat → Nat → Run (List Entry)
  | 0, _ => .ok []
  | count + 1, i =>
    match d.table[i]? with
    | none => .fault
    | some node =>
      match displayChain fuel d.heap node with
      | .ok printed =>
        match displayBuckets fuel d count (i + 1) with
        | .ok rest => .ok (printed ++ rest)
        | .fault => .fault
        | .timeout => .timeout
      | .fault => .fault
      | .timeout => .timeout

/-- `Directory::display()`: the entries printed, in order. -/
def display (fuel : Nat) (d : Directory) : Run (List Entry) :=
  displayBuckets fuel d d.capacity 0

/-- `Directory::get_size()`. -/
def get_size (d : Directory) : Int := d.size

/-- A driver in the manner of `main`: the calls `insert(e)` for the entries
of a list, one after the other. -/
def insertAll (hasher : String → Nat) (fuel : Nat) : Directory → List Entry → Run Directory
  | d, [] => .ok d
  | d, e :: es =>
    match insert hasher fuel d e with
    | .ok d1 => insertAll hasher fuel d1 es
    | .fault => .fault
    | .timeout => .timeout

/-! ## Specification vocabulary -/

/-- The call `run` returns `a`: every large enough step budget yields `a`. -/
def Returns {α : Type} (run : Nat → Run α) (a : α) : Prop :=
  ∃ N, ∀ fuel, N ≤ fuel → run fuel = .ok a

/-- The call `run` never returns: every step budget is exhausted. -/
def Diverges {α : Type} (run : Nat → Run α) : Prop :=
  ∀ fuel, run fuel = .timeout

/-- `IsSeg heap p as q`: following `next` pointers from `p` visits exactly the
live nodes at the addresses `as`, in this order, and then arrives at `q`. A
bucket chain is a segment that ends at `none`. -/
def IsSeg (heap : Heap) : Option Nat → List Nat → Option Nat → Prop
  | p, [], q => p = q
  | p, a :: as, q => p = some a ∧ ∃ n, readNode heap a = some n ∧ IsSeg heap n.next as q

/-- The key and value stored at address `a`, if a live node is there. -/
def entryAt (heap : Heap) (a : Nat) : Option (String × Entry) :=
  (readNode heap a).map fun n => (n.key, n.value)

/-- The value of the first node with key `key` among the addresses `as`. -/
def lookupIn (heap : Heap) (key : String) : List Nat → Option Entry
  | [] => none
  | a :: as =>
    match entryAt heap a with
    | some (k, v) => if k = key then some v else lookupIn heap key as
    | none => none

/-- The invariants of section 3 of the specification, for a directory whose
bucket `i` holds the chain of addresses `chains[i]`: the table has `capacity`
slots; each slot heads an acyclic null-terminated chain of live nodes; no node
is in two chains; every node sits in the bucket of its hash; the cached hash
and key agree with the hash function and the value; no chain repeats a key;
`size` counts the nodes. -/
structure WellFormedWith (hasher : String → Nat) (d : Directory)
    (chains : List (List Nat)) : Prop where
  capacity_pos : 0 < d.capacity
  table_length : d.table.length = d.capacity
  chains_length : chains.length = d.capacity
  chain : ∀ i, i < d.capacity →
    ∃ head, d.table[i]? = some head ∧ IsSeg d.heap head (chains.getD i []) none
  nodup : ∀ i, (chains.getD i []).Nodup
  disjoint : ∀ i j a, i ≠ j → a ∈ chains.getD i [] → a ∉ chains.getD j []
  placed : ∀ i a n, a ∈ chains.getD i [] → readNode d.heap a = some n →
    n.hash % d.capacity = i
  cached : ∀ i a n, a ∈ chains.getD i [] → readNode d.heap a = some n →
    n.hash = hasher n.key ∧ n.key = n.value.name
  unique_keys : ∀ i, ((chains.getD i []).map fun a => (entryAt d.heap a).map Prod.fst).Nodup
  size_eq : d.size = ((chains.map List.length).sum : Nat)

/-- A well-formed directory. -/
def WellFormed (hasher : String → Nat) (d : Directory) : Prop :=
  ∃ chains, WellFormedWith hasher d chains

/-- No live node among `as` carries the key. -/
def AbsentIn (heap : Heap) (key : String) (as : List Nat) : Prop :=
  ∀ a ∈ as, ∀ n, readNode heap a = some n → n.key ≠ key

/-- The value of `prev` in the loop of `Directory::remove` once the nodes at
`as` have been passed, starting from `prev`. -/
def prevAfter (prev : Option Nat) : List Nat → Option Nat
  | [] => prev
  | a :: as => prevAfter (some a) as

/-- The state of the relocation loop of `grow` as long as no node has met an
occupied slot: the new table has `new_capacity` slots, and every occupied slot
`j` holds the address of a live node among `seen` whose hash is `j` modulo
`new_capacity`. -/
def Relocated (new_capacity : Nat) (heap : Heap) (seen : List Nat)
    (new_table : List (Option Nat)) : Prop :=
  new_table.length = new_capacity ∧
    ∀ (j q : Nat), new_table[j]? = some (some q) →
      q ∈ seen ∧ ∃ n, readNode heap q = some n ∧ n.hash % new_capacity = j

/-- Every node at the addresses `as` is the head of the slot of its hash. -/
def HeadsOf (new_capacity : Nat) (heap : Heap) (new_table : List (Option Nat))
    (as : List Nat) : Prop :=
  ∀ a ∈ as, ∃ n, readNode heap a = some n ∧
    new_table[n.hash % new_capacity]? = some (some a)

/-! ## Example directories -/

/-- The directory `Directory(2, 3.0)` after `insert` of the names `"a"`,
`"abc"`, `"abcde"` and `""`, with the string length as hash: bucket 1 holds a
chain of three nodes, bucket 0 a single node. -/
def sampleDirectory : Directory :=
  { heap := [some ⟨"a", ⟨"a", "1"⟩, 1, none⟩, some ⟨"abc", ⟨"abc", "2"⟩, 3, some 0⟩,
      some ⟨"abcde", ⟨"abcde", "3"⟩, 5, some 1⟩, some ⟨"", ⟨"", "0"⟩, 0, none⟩]
    table := [some 3, some 2]
    capacity := 2
    size := 4
    threshold := 6
    loadFactor := ⟨3, 1⟩ }

/-- The directory `Directory(1, 3.0)` after `insert` of `"a"` and `""`, with
the string length as hash: one bucket, holding both nodes. -/
def twoNodeBucket : Directory :=
  { heap := [some ⟨"a", ⟨"a", "1"⟩, 1, none⟩, some ⟨"", ⟨"", "0"⟩, 0, some 0⟩]
    table := [some 1]
    capacity := 1
    size := 2
    threshold := 3
    loadFactor := ⟨3, 1⟩ }

/-- The state in which `insert` calls `grow(8)` on a `Directory(4)` after the
names `"a"`, `"abcde"` and `"abcdefghi"` (hashes 1, 5, 9 by string length)
have been pushed: bucket 1 holds a chain of three nodes. -/
def threeNodeBucket : Directory :=
  { heap := [some ⟨"a", ⟨"a", "1"⟩, 1, none⟩, some ⟨"abcde", ⟨"abcde", "5"⟩, 5, some 0⟩,
      some ⟨"abcdefghi", ⟨"abcdefghi", "9"⟩, 9, some 1⟩]
    table := [none, some 2, none, none]
    capacity := 4
    size := 3
    threshold := 3
    loadFactor := ⟨3, 4⟩ }

/-- The directory `Directory(4, 0.5)` after `insert` of `""`, with the string
length as hash. -/
def oneNodeDirectory : Directory :=
  { heap := [some ⟨"", ⟨"", "0"⟩, 0, none⟩]
    table := [some 0, none, none, none]
    capacity := 4
    size := 1
    threshold := 2
    loadFactor := ⟨1, 2⟩ }

/-! ## Reachable states -/

/-- `Directory::insert(value)` together with the number of `grow to ...` lines
it prints, that is the number of calls of `grow` it makes (0 or 1). The
directory it returns is the one `insert` returns. -/
def insertTraced (hasher : String → Nat) (fuel : Nat) (d : Directory) (value : Entry) :
    Run (Directory × Nat) :=
  match d.table[hasher value.name % d.capacity]? with
  | none => .fault
  | some head =>
    match insertLoop value fuel d.heap head with
    | .fault => .fault
    | .timeout => .timeout
    | .ok (some heap1) => .ok ({ d with heap := heap1 }, 0)
    | .ok none =>
      let newNode : DirectoryNode :=
        { key := value.name, value := value, hash := hasher value.name, next := head }
      let d1 : Directory :=
        { d with
          heap := d.heap ++ [some newNode]
          table := d.table.set (hasher value.name % d.capacity) (some d.heap.length)
          size := d.size + 1 }
      if d1.size ≥ d1.threshold then
        match grow fuel d1 (d1.capacity * 2) with
        | .ok d2 => .ok (d2, 1)
        | .fault => .fault
        | .timeout => .timeout
      else .ok (d1, 0)

/-- `Reached hasher capacity0 loadFactor g d`: the directory constructed by
`Directory(capacity0, loadFactor)` is in state `d` after some sequence of calls
of `insert` and `remove` that all returned, and `grow` has been performed `g`
times on the way. -/
inductive Reached (hasher : String → Nat) (capacity0 : Nat) (loadFactor : LoadFactor) :
    Nat → Directory → Prop where
  | create : Reached hasher capacity0 loadFactor 0 (Directory.create capacity0 loadFactor)
  | insert {g : Nat} {d : Directory} (fuel : Nat) (value : Entry) {d1 : Directory} {k : Nat} :
      Reached hasher capacity0 loadFactor g d →
      insertTraced hasher fuel d value = .ok (d1, k) →
      Reached hasher capacity0 loadFactor (g + k) d1
  | remove {g : Nat} {d : Directory} (fuel : Nat) (key : String) {d1 : Directory} :
      Reached hasher capacity0 loadFactor g d →
      remove hasher fuel d key = .ok d1 →
      Reached hasher capacity0 loadFactor g d1

/-- Every live node of the free store caches the hash of its key and the name
of its value. -/
def CachedFields (hasher : String → Nat) (heap : Heap) : Prop :=
  ∀ a n, readNode heap a = some n → n.hash = hasher n.key ∧ n.key = n.value.name

/-- The key, value and hash stored at address `a`, if a live node is there. -/
def fieldsAt (heap : Heap) (a : Nat) : Option (String × Entry × Nat) :=
  (readNode heap a).map fun n => (n.key, n.value, n.hash)

/-- The state of `insert` after the new node has been linked in front of
`head` and `size` incremented (lines 158-161), before the growth check. -/
def pushed (hasher : String → Nat) (d : Directory) (value : Entry) (head : Option Nat) :
    Directory :=
  { d with
    heap := d.heap ++ [some
      { key := value.name, value := value, hash := hasher value.name, next := head }]
    table := d.table.set (hasher value.name % d.capacity) (some d.heap.length)
    size := d.size + 1 }

/-- The directory `Directory(4)` after `insert` of `""`, `"abcd"` and `"a"`,
with the string length as hash. The third call resized to capacity 8; the node
of `"abcd"` (address 1) sits in bucket 4 and still points to the node of `""`
(address 0), which is also the head of bucket 0. -/
def sharedTailDirectory : Directory :=
  { heap := [some ⟨"", ⟨"", "0"⟩, 0, none⟩, some ⟨"abcd", ⟨"abcd", "4"⟩, 4, some 0⟩,
      some ⟨"a", ⟨"a", "1"⟩, 1, none⟩]
    table := [some 0, some 2, none, none, some 1, none, none, none]
    capacity := 8
    size := 3
    threshold := 6
    loadFactor := ⟨3, 4⟩ }

/-! ## The relocation step as the specification words it -/

/-- The inner loop of `grow` with the `if`/`else` of lines 87-95 replaced by
the unconditional push that section 9 of the specification says both branches
amount to, `node.next := new_table[new_index]; new_table[new_index] := node`,
followed by the source's own `node = node->next`. -/
def growChainPush (new_capacity : Nat) :
    Nat → Heap → List (Option Nat) → Option Nat → Run (Heap × List (Option Nat))
  | _, heap, new_table, none => .ok (heap, new_table)
  | 0, _, _, some _ => .timeout
  | fuel + 1, heap, new_table, some node =>
    match readNode heap node with
    | none => .fault
    | some n =>
      match new_table[n.hash % new_capacity]? with
      | none => .fault
      | some head =>
        growChainPush new_capacity fuel
          (heap.set node (some { n with next := head }))
          (new_table.set (n.hash % new_capacity) (some node))
          head

/-- The inner loop of `grow` as section 4.1 of the specification describes
it: the old successor is captured, the node is pushed as the new head of
`new_table[new_index]`, and the walk continues with the captured successor. -/
def growChainRelink (new_capacity : Nat) :
    Nat → Heap → List (Option Nat) → Option Nat → Run (Heap × List (Option Nat))
  | _, heap, new_table, none => .ok (heap, new_table)
  | 0, _, _, some _ => .timeout
  | fuel + 1, heap, new_table, some node =>
    match readNode heap node with
    | none => .fault
    | some n =>
      match new_table[n.hash % new_capacity]? with
      | none => .fault
      | some head =>
        growChainRelink new_capacity fuel
          (heap.set node (some { n with next := head }))
          (new_table.set (n.hash % new_capacity) (some node))
          n.next

/-- The outer loop of `grow` around a given inner loop. -/
def growBucketsWith
    (chainLoop : Nat → Heap → List (Option Nat) → Option Nat →
      Run (Heap × List (Option Nat)))
    (fuel : Nat) (table : List (Option Nat)) :
    Nat → Nat → Heap → List (Option Nat) → Run (Heap × List (Option Nat))
  | 0, _, heap, new_table => .ok (heap, new_table)
  | count + 1, i, heap, new_table =>
    match table[i]? with
    | none => .fault
    | some node =>
      match chainLoop fuel heap new_table node with
      | .ok (heap1, new_table1) =>
        growBucketsWith chainLoop fuel table count (i + 1) heap1 new_table1
      | .fault => .fault
      | .timeout => .timeout

/-- `grow(new_capacity)` around a given inner loop. -/
def growWith
    (chainLoop : Nat → Nat → Heap → List (Option Nat) → Option Nat →
      Run (Heap × List (Option Nat)))
    (fuel : Nat) (d : Directory) (new_capacity : Nat) : Run Directory :=
  match growBucketsWith (chainLoop new_capacity) fuel d.table d.capacity 0 d.heap
      (List.replicate new_capacity none) with
  | .ok (heap1, new_table) =>
    .ok { d with
      heap := heap1
      table := new_table
      capacity := new_capacity
      threshold := calculate_threshold new_capacity d.loadFactor }
  | .fault => .fault
  | .timeout => .timeout

/-! ## Termination of `grow` -/

/-- The shape part of well-formedness: bucket `i` heads the null-terminated
chain of live nodes `chains[i]`, no chain repeats a node, and no node is in two
chains. -/
structure DisjointChains (d : Directory) (chains : List (List Nat)) : Prop where
  chain : ∀ i, i < d.capacity →
    ∃ head, d.table[i]? = some head ∧ IsSeg d.heap head (chains.getD i []) none
  nodup : ∀ i, (chains.getD i []).Nodup
  disjoint : ∀ i j a, i ≠ j → a ∈ chains.getD i [] → a ∉ chains.getD j []
  chains_length : chains.length = d.capacity

/-- The stored nodes have pairwise distinct values of `hash mod new_capacity`:
two nodes of the chains with the same value are the same node. -/
def DistinctSlots (new_capacity : Nat) (d : Directory) (chains : List (List Nat)) : Prop :=
  ∀ i j a b na nb, a ∈ chains.getD i [] → b ∈ chains.getD j [] →
    readNode d.heap a = some na → readNode d.heap b = some nb →
    na.hash % new_capacity = nb.hash % new_capacity → a = b

/-! ## An invariant of all reachable states -/

/-- What every state reached by calls that returned satisfies (the array of
every `grow` all-null), whether or not a growth has left nodes linked into
foreign chains: the capacity is positive
and the table has that many slots; the cached fields are right; no two live
nodes have the same key; and every live node is reached from the head of the
bucket of its own hash along nodes of that same bucket, itself not among
them. -/
structure Sound (hasher : String → Nat) (d : Directory) : Prop where
  capacity_pos : 0 < d.capacity
  table_length : d.table.length = d.capacity
  cached : CachedFields hasher d.heap
  keys_unique : ∀ a b na nb, readNode d.heap a = some na → readNode d.heap b = some nb →
    na.key = nb.key → a = b
  owned : ∀ a n, readNode d.heap a = some n →
    ∃ head path, d.table[n.hash % d.capacity]? = some head ∧
      IsSeg d.heap head path (some a) ∧ a ∉ path ∧
      ∀ b ∈ path, ∀ nb, readNode d.heap b = some nb →
        nb.hash % d.capacity = n.hash % d.capacity

/-- Every occupied slot `j` of the new table holds the address of a live node
whose hash is `j` modulo `new_capacity`. -/
def SlotsPlaced (new_capacity : Nat) (heap : Heap) (new_table : List (Option Nat)) : Prop :=
  new_table.length = new_capacity ∧
    ∀ (j q : Nat), new_table[j]? = some (some q) →
      ∃ n, readNode heap q = some n ∧ n.hash % new_capacity = j

/-! ## The threshold and the array of `grow` as the source has them -/

/-- The whole number nearest to `p / q`; when `p / q` lies half way between
two whole numbers, the even one. -/
def roundHalfEven (p q : Nat) : Nat :=
  if 2 * (p % q) < q then p / q
  else if q < 2 * (p % q) then p / q + 1
  else if p / q % 2 = 0 then p / q
  else p / q + 1

/-- The conversion of the `int` `n` to `float` (binary32, round to nearest,
ties to even): `n` rounded to 24 significant bits. The result is a whole
number. -/
def intToFloat (n : Nat) : Nat :=
  if n < 2 ^ 24 then n
  else roundHalfEven n (2 ^ (Nat.log2 n - 23)) * 2 ^ (Nat.log2 n - 23)

/-- The `float` nearest to `p / q`, as a fraction: `p / q` rounded to 24
significant bits, ties to even. With `e` the binary exponent of `p / q`, the
result is a whole multiple of `2 ^ (e - 23)`; for `p < q` the exponent is
`-(Nat.log2 ((q - 1) / p) + 1)`. The range of the exponent of a `float` is not
modelled. -/
def roundToFloat (p q : Nat) : Nat × Nat :=
  if p = 0 then (0, 1)
  else if q ≤ p then
    if 23 ≤ Nat.log2 (p / q) then
      (roundHalfEven p (q * 2 ^ (Nat.log2 (p / q) - 23)) * 2 ^ (Nat.log2 (p / q) - 23), 1)
    else
      (roundHalfEven (p * 2 ^ (23 - Nat.log2 (p / q))) q, 2 ^ (23 - Nat.log2 (p / q)))
  else
    (roundHalfEven (p * 2 ^ (24 + Nat.log2 ((q - 1) / p))) q,
      2 ^ (24 + Nat.log2 ((q - 1) / p)))

/-- `Directory::calculate_threshold` (lines 71-74) in the arithmetic of the
source: `capacity` is converted to `float`, multiplied by the `float`
`loadFactor` (whose value is `num / den`) in single precision, and the product
is truncated by the conversion to `int`. A product of `2 ^ 31` or more, for
which that conversion is undefined, is not modelled. -/
def calculate_threshold_float (capacity : Nat) (loadFactor : LoadFactor) : Int :=
  let product := roundToFloat (intToFloat capacity * loadFactor.num) loadFactor.den
  ((product.1 / product.2 : Nat) : Int)

/-- The constructor `Directory(capacity, loadFactor)` (lines 108-118) with the
threshold in the arithmetic of the source. -/
def Directory.createFloat (capacity : Nat) (loadFactor : LoadFactor) : Directory :=
  { heap := []
    table := List.replicate capacity none
    capacity := capacity
    size := 0
    threshold := calculate_threshold_float capacity loadFactor
    loadFactor := loadFactor }

/-- `Directory::grow(new_capacity)` (lines 76-105) when the array of
`new_capacity` pointers delivered by `new DirectoryNode *[new_capacity]`
(line 79) holds `fresh`, and with the threshold in the arithmetic of the
source. The source does not clear that array before line 87 reads it, as the
constructors clear theirs (lines 117 and 124), so what it holds is whatever the
free store held there. -/
def growFrom (fresh : List (Option Nat)) (fuel : Nat) (d : Directory) (new_capacity : Nat) :
    Run Directory :=
  match growBuckets fuel new_capacity d.table d.capacity 0 d.heap fresh with
  | .ok (heap1, new_table) =>
    .ok { d with
      heap := heap1
      table := new_table
      capacity := new_capacity
      threshold := calculate_threshold_float new_capacity d.loadFactor }
  | .fault => .fault
  | .timeout => .timeout

/-- `Directory::insert(value)` (lines 144-167) when the array that its call of
`grow`, if it makes one, allocates holds `fresh`. -/
def insertFrom (hasher : String → Nat) (fresh : List (Option Nat)) (fuel : Nat)
    (d : Directory) (value : Entry) : Run Directory :=
  match d.table[hasher value.name % d.capacity]? with
  | none => .fault
  | some head =>
    match insertLoop value fuel d.heap head with
    | .fault => .fault
    | .timeout => .timeout
    | .ok (some heap1) => .ok { d with heap := heap1 }
    | .ok none =>
      let newNode : DirectoryNode :=
        { key := value.name, value := value, hash := hasher value.name, next := head }
      let d1 : Directory :=
        { d with
          heap := d.heap ++ [some newNode]
          table := d.table.set (hasher value.name % d.capacity) (some d.heap.length)
          size := d.size + 1 }
      if d1.size ≥ d1.threshold then growFrom fresh fuel d1 (d1.capacity * 2) else .ok d1

/-- `ReachedFrom hasher capacity0 loadFactor d`: the directory constructed by
`Directory(capacity0, loadFactor)` is in state `d` after some sequence of calls
of `insert` and `remove` that all returned, whatever the arrays of
`2 * capacity` pointers held that `grow` allocated on the way. -/
inductive ReachedFrom (hasher : String → Nat) (capacity0 : Nat) (loadFactor : LoadFactor) :
    Directory → Prop where
  | create : ReachedFrom hasher capacity0 loadFactor (Directory.createFloat capacity0 loadFactor)
  | insert {d : Directory} (fresh : List (Option Nat)) (fuel : Nat) (value : Entry)
      {d1 : Directory} :
      ReachedFrom hasher capacity0 loadFactor d →
      fresh.length = d.capacity * 2 →
      insertFrom hasher fresh fuel d value = .ok d1 →
      ReachedFrom hasher capacity0 loadFactor d1
  | remove {d : Directory} (fuel : Nat) (key : String) {d1 : Directory} :
      ReachedFrom hasher capacity0 loadFactor d →
      remove hasher fuel d key = .ok d1 →
      ReachedFrom hasher capacity0 loadFactor d1

/-- The directory `Directory(2, 2.0f)` after `insert` of `"yyyyyy"`, `"xx"`,
`""`, `"q"` and `"xx"` again, with the string length as hash, when the array
that the fourth call allocated for `grow(4)` held the addresses of the nodes of
`"yyyyyy"` and `"xx"` in its slots 0 and 3. The key `"xx"` is in the nodes 1
and 4. -/
def staleArrayDirectory : Directory :=
  { heap := [some ⟨"yyyyyy", ⟨"yyyyyy", "6"⟩, 6, none⟩, some ⟨"xx", ⟨"xx", "2"⟩, 2, some 0⟩,
      some ⟨"", ⟨"", "0"⟩, 0, some 0⟩, some ⟨"q", ⟨"q", "1"⟩, 1, none⟩,
      some ⟨"xx", ⟨"xx", "9"⟩, 2, some 0⟩]
    table := [some 2, some 3, some 4, some 1]
    capacity := 4
    size := 5
    threshold := 8
    loadFactor := ⟨2, 1⟩ }

/-! ## The free store -/

theorem readNode_lt {heap : Heap} {p : Nat} {n : DirectoryNode}
    (h : readNode heap p = some n) : p < heap.length := by
  unfold readNode at h
  by_contra hlt
  rw [List.getElem?_eq_none (Nat.le_of_not_lt hlt)] at h
  simp at h

theorem readNode_set_eq {heap : Heap} {p : Nat} (c : Option DirectoryNode)
    (h : p < heap.length) : readNode (heap.set p c) p = c := by
  unfold readNode
  rw [List.getElem?_set_self h]
  cases c <;> rfl

theorem readNode_set_ne {heap : Heap} {p q : Nat} (c : Option DirectoryNode)
    (h : p ≠ q) : readNode (heap.set p c) q = readNode heap q := by
  unfold readNode
  rw [List.getElem?_set_ne h]

theorem readNode_append {heap : Heap} {p : Nat} {n : DirectoryNode}
    (c : Option DirectoryNode) (h : readNode heap p = some n) :
    readNode (heap ++ [c]) p = some n := by
  have hlt := readNode_lt h
  unfold readNode at h ⊢
  rw [List.getElem?_append_left hlt]
  exact h

theorem readNode_append_length (heap : Heap) (c : Option DirectoryNode) :
    readNode (heap ++ [c]) heap.length = c := by
  unfold readNode
  simp
  cases c <;> rfl

/-! ## Segments -/

theorem IsSeg.congr {heap heap1 : Heap} :
    ∀ {as : List Nat} {p q : Option Nat}, IsSeg heap p as q →
      (∀ a ∈ as, ∀ n, readNode heap a = some n →
        ∃ n1, readNode heap1 a = some n1 ∧ n1.next = n.next) →
      IsSeg heap1 p as q := by
  intro as
  induction as with
  | nil => intro p q h _; exact h
  | cons a as ih =>
    intro p q h hsame
    obtain ⟨hp, n, hn, hrest⟩ := h
    obtain ⟨n1, hn1, hnext⟩ := hsame a (List.mem_cons_self _ _) n hn
    refine ⟨hp, n1, hn1, ?_⟩
    rw [hnext]
    exact ih hrest fun b hb => hsame b (List.mem_cons_of_mem _ hb)

theorem IsSeg.set_of_not_mem {heap : Heap} {as : List Nat} {p q : Option Nat} {a : Nat}
    (c : Option DirectoryNode) (h : IsSeg heap p as q) (ha : a ∉ as) :
    IsSeg (heap.set a c) p as q :=
  h.congr fun b hb n hn =>
    ⟨n, by rw [readNode_set_ne c (fun hab : a = b => ha (by rw [hab]; exact hb))]; exact hn, rfl⟩

theorem IsSeg.append_store {heap : Heap} {as : List Nat} {p q : Option Nat}
    (c : Option DirectoryNode) (h : IsSeg heap p as q) :
    IsSeg (heap ++ [c]) p as q :=
  h.congr fun _ _ n hn => ⟨n, readNode_append c hn, rfl⟩

theorem IsSeg.append {heap : Heap} :
    ∀ {as bs : List Nat} {p m q : Option Nat}, IsSeg heap p as m → IsSeg heap m bs q →
      IsSeg heap p (as ++ bs) q := by
  intro as
  induction as with
  | nil => intro bs p m q h1 h2; cases h1; exact h2
  | cons a as ih =>
    intro bs p m q h1 h2
    obtain ⟨hp, n, hn, hrest⟩ := h1
    exact ⟨hp, n, hn, ih hrest h2⟩

theorem IsSeg.split {heap : Heap} :
    ∀ {as bs : List Nat} {p q : Option Nat}, IsSeg heap p (as ++ bs) q →
      ∃ m, IsSeg heap p as m ∧ IsSeg heap m bs q := by
  intro as
  induction as with
  | nil => intro bs p q h; exact ⟨p, rfl, h⟩
  | cons a as ih =>
    intro bs p q h
    obtain ⟨hp, n, hn, hrest⟩ := h
    obtain ⟨m, h1, h2⟩ := ih hrest
    exact ⟨m, ⟨hp, n, hn, h1⟩, h2⟩

theorem IsSeg.live {heap : Heap} :
    ∀ {as : List Nat} {p q : Option Nat}, IsSeg heap p as q → ∀ a ∈ as,
      ∃ n, readNode heap a = some n := by
  intro as
  induction as with
  | nil => intro p q _ a ha; cases ha
  | cons b as ih =>
    intro p q h a ha
    obtain ⟨_, n, hn, hrest⟩ := h
    rcases List.mem_cons.mp ha with rfl | ha
    · exact ⟨n, hn⟩
    · exact ih hrest a ha

theorem IsSeg.deterministic {heap : Heap} :
    ∀ {as bs : List Nat} {p : Option Nat}, IsSeg heap p as none → IsSeg heap p bs none →
      as = bs := by
  intro as
  induction as with
  | nil =>
    intro bs p h1 h2
    cases h1
    cases bs with
    | nil => rfl
    | cons b bs => exact absurd h2.1 (by simp)
  | cons a as ih =>
    intro bs p h1 h2
    obtain ⟨rfl, n, hn, hrest⟩ := h1
    cases bs with
    | nil => exact absurd h2 (by simp [IsSeg])
    | cons b bs =>
      obtain ⟨hb, m, hm, hrest2⟩ := h2
      cases hb
      rw [hn] at hm
      cases hm
      rw [ih hrest hrest2]

/-! ## Lookup along a chain -/

theorem lookupIn_congr {heap heap1 : Heap} (key : String) :
    ∀ {as : List Nat}, (∀ a ∈ as, entryAt heap1 a = entryAt heap a) →
      lookupIn heap1 key as = lookupIn heap key as := by
  intro as
  induction as with
  | nil => intro _; rfl
  | cons a as ih =>
    intro h
    simp only [lookupIn, h a (List.mem_cons_self _ _),
      ih fun b hb => h b (List.mem_cons_of_mem _ hb)]

theorem lookupIn_skip {heap : Heap} {key : String} :
    ∀ {as bs : List Nat}, (∀ a ∈ as, ∃ n, readNode heap a = some n) →
      AbsentIn heap key as → lookupIn heap key (as ++ bs) = lookupIn heap key bs := by
  intro as
  induction as with
  | nil => intro bs _ _; rfl
  | cons a as ih =>
    intro bs hlive habs
    obtain ⟨n, hn⟩ := hlive a (List.mem_cons_self _ _)
    have hne := habs a (List.mem_cons_self _ _) n hn
    simp only [List.cons_append, lookupIn, entryAt, hn, Option.map_some', if_neg hne]
    exact ih (fun b hb => hlive b (List.mem_cons_of_mem _ hb))
      fun b hb => habs b (List.mem_cons_of_mem _ hb)

theorem lookupIn_absent {heap : Heap} {key : String} {as : List Nat}
    (hlive : ∀ a ∈ as, ∃ n, readNode heap a = some n) (habs : AbsentIn heap key as) :
    lookupIn heap key as = none := by
  have := @lookupIn_skip heap key as [] hlive habs
  simpa [lookupIn] using this

theorem lookupIn_first {heap : Heap} {key : String} :
    ∀ {as : List Nat}, (∀ a ∈ as, ∃ n, readNode heap a = some n) →
      ∀ {e : Entry}, lookupIn heap key as = some e →
      ∃ r1 a r2 n, as = r1 ++ a :: r2 ∧ AbsentIn heap key r1 ∧
        readNode heap a = some n ∧ n.key = key ∧ n.value = e := by
  intro as
  induction as with
  | nil => intro _ e h; simp [lookupIn] at h
  | cons a as ih =>
    intro hlive e h
    obtain ⟨n, hn⟩ := hlive a (List.mem_cons_self _ _)
    by_cases hk : n.key = key
    · simp only [lookupIn, entryAt, hn, Option.map_some', if_pos hk] at h
      exact ⟨[], a, as, n, rfl, (fun _ hb => by cases hb), hn, hk, Option.some.inj h⟩
    · simp only [lookupIn, entryAt, hn, Option.map_some', if_neg hk] at h
      obtain ⟨r1, b, r2, m, has, habs, hm, hmk, hme⟩ :=
        ih (fun b hb => hlive b (List.mem_cons_of_mem _ hb)) h
      refine ⟨a :: r1, b, r2, m, by rw [has]; rfl, ?_, hm, hmk, hme⟩
      intro c hc nc hnc
      rcases List.mem_cons.mp hc with rfl | hc
      · rw [hn] at hnc; cases hnc; exact hk
      · exact habs c hc nc hnc

theorem lookupIn_none {heap : Heap} {key : String} :
    ∀ {as : List Nat}, (∀ a ∈ as, ∃ n, readNode heap a = some n) →
      lookupIn heap key as = none → AbsentIn heap key as := by
  intro as
  induction as with
  | nil => intro _ _ a ha; cases ha
  | cons a as ih =>
    intro hlive h
    obtain ⟨n, hn⟩ := hlive a (List.mem_cons_self _ _)
    by_cases hk : n.key = key
    · simp [lookupIn, entryAt, hn, hk] at h
    · simp only [lookupIn, entryAt, hn, Option.map_some', if_neg hk] at h
      intro c hc nc hnc
      rcases List.mem_cons.mp hc with rfl | hc
      · rw [hn] at hnc; cases hnc; exact hk
      · exact ih (fun b hb => hlive b (List.mem_cons_of_mem _ hb)) h c hc nc hnc

theorem lookupIn_drop {heap : Heap} {key : String} {a : Nat} {n : DirectoryNode}
    (ha : readNode heap a = some n) (hk : n.key ≠ key) (r2 : List Nat) :
    ∀ r1 : List Nat, lookupIn heap key (r1 ++ a :: r2) = lookupIn heap key (r1 ++ r2) := by
  intro r1
  induction r1 with
  | nil => simp only [List.nil_append, lookupIn, entryAt, ha, Option.map_some', if_neg hk]
  | cons b r1 ih =>
    show lookupIn heap key (b :: (r1 ++ a :: r2)) = lookupIn heap key (b :: (r1 ++ r2))
    simp only [lookupIn, ih]

/-! ## The search loop of `get` -/

theorem getLoop_eq_lookupIn {heap : Heap} (key : String) :
    ∀ {as : List Nat} {p : Option Nat} {fuel : Nat}, IsSeg heap p as none →
      as.length ≤ fuel → getLoop key fuel heap p = .ok (lookupIn heap key as) := by
  intro as
  induction as with
  | nil =>
    intro p fuel h _
    cases h
    cases fuel <;> rfl
  | cons a as ih =>
    intro p fuel h hfuel
    obtain ⟨rfl, n, hn, hrest⟩ := h
    obtain ⟨fuel, rfl⟩ : ∃ k, fuel = k + 1 := ⟨fuel - 1, by simp at hfuel; omega⟩
    simp only [getLoop, lookupIn, entryAt, hn, Option.map_some']
    by_cases hk : n.key = key
    · simp only [if_pos hk]
    · simp only [if_neg hk]
      exact ih hrest (by simpa using hfuel)

theorem Returns.unique {α : Type} {run : Nat → Run α} {a b : α}
    (ha : Returns run a) (hb : Returns run b) : a = b := by
  obtain ⟨N, hN⟩ := ha
  obtain ⟨M, hM⟩ := hb
  have h1 := hN (max N M) (Nat.le_max_left _ _)
  have h2 := hM (max N M) (Nat.le_max_right _ _)
  rw [h1] at h2
  exact Run.ok.inj h2

theorem get_of_chain (hasher : String → Nat) (d : Directory) (key : String)
    {head : Option Nat} {as : List Nat}
    (hhead : d.table[hasher key % d.capacity]? = some head)
    (hseg : IsSeg d.heap head as none) :
    Returns (fun fuel => get hasher fuel d key) (lookupIn d.heap key as) := by
  refine ⟨as.length, fun fuel hfuel => ?_⟩
  simp only [get, hhead]
  exact getLoop_eq_lookupIn key hseg hfuel

theorem get_wellFormed {hasher : String → Nat} {d : Directory} {chains : List (List Nat)}
    (hwf : WellFormedWith hasher d chains) (key : String) :
    Returns (fun fuel => get hasher fuel d key)
      (lookupIn d.heap key (chains.getD (hasher key % d.capacity) [])) := by
  obtain ⟨head, hhead, hseg⟩ := hwf.chain _ (Nat.mod_lt _ hwf.capacity_pos)
  exact get_of_chain hasher d key hhead hseg

/-! ## The relocation loop of `grow` -/

theorem growChain_pingpong (new_capacity : Nat) :
    ∀ (fuel : Nat) (heap : Heap) (new_table : List (Option Nat)) (p q : Nat)
      (np nq : DirectoryNode),
      readNode heap p = some np → readNode heap q = some nq → p ≠ q →
      np.hash % new_capacity = nq.hash % new_capacity →
      new_table[np.hash % new_capacity]? = some (some q) →
      growChain new_capacity fuel heap new_table (some p) = .timeout := by
  intro fuel
  induction fuel with
  | zero => intros; rfl
  | succ fuel ih =>
    intro heap new_table p q np nq hp hq hpq hidx hnt
    have hlt : np.hash % new_capacity < new_table.length := by
      by_contra hlt
      rw [List.getElem?_eq_none (Nat.le_of_not_lt hlt)] at hnt
      simp at hnt
    simp only [growChain, hp, hnt]
    apply ih _ _ q p nq { np with next := some q }
    · rw [readNode_set_ne _ hpq]; exact hq
    · exact readNode_set_eq _ (readNode_lt hp)
    · exact fun h => hpq h.symm
    · exact hidx.symm
    · rw [← hidx, List.getElem?_set_self hlt]

theorem growChain_timeout_of_step {new_capacity : Nat} {heap : Heap}
    {new_table : List (Option Nat)} {p : Nat} {n : DirectoryNode}
    (hp : readNode heap p = some n)
    (hnt : new_table[n.hash % new_capacity]? = some none)
    (hrest : ∀ fuel, growChain new_capacity fuel heap
      (new_table.set (n.hash % new_capacity) (some p)) n.next = .timeout) :
    ∀ fuel, growChain new_capacity fuel heap new_table (some p) = .timeout := by
  intro fuel
  cases fuel with
  | zero => rfl
  | succ fuel => simp only [growChain, hp, hnt]; exact hrest fuel

theorem growBuckets_timeout_head {fuel new_capacity : Nat} {table : List (Option Nat)}
    {count i : Nat} {heap : Heap} {new_table : List (Option Nat)} {node : Option Nat}
    (hi : table[i]? = some node)
    (h : growChain new_capacity fuel heap new_table node = .timeout) :
    growBuckets fuel new_capacity table (count + 1) i heap new_table = .timeout := by
  simp only [growBuckets, hi, h]

theorem replicate_none_getElem? {n i : Nat} (h : i < n) :
    (List.replicate n (none : Option Nat))[i]? = some none := by
  simp [List.getElem?_replicate, h]

theorem growBuckets_ok_head {fuel new_capacity : Nat} {table : List (Option Nat)}
    {count i : Nat} {heap heap1 : Heap} {new_table nt1 : List (Option Nat)}
    {node : Option Nat} (hi : table[i]? = some node)
    (h : growChain new_capacity fuel heap new_table node = .ok (heap1, nt1)) :
    growBuckets fuel new_capacity table (count + 1) i heap new_table =
      growBuckets fuel new_capacity table count (i + 1) heap1 nt1 := by
  simp only [growBuckets, hi, h]

theorem grow_timeout_of_buckets {fuel new_capacity : Nat} {d : Directory}
    (h : growBuckets fuel new_capacity d.table d.capacity 0 d.heap
      (List.replicate new_capacity none) = .timeout) :
    grow fuel d new_capacity = .timeout := by
  unfold grow
  rw [h]

theorem growBuckets_skip {fuel new_capacity : Nat} {table : List (Option Nat)}
    {heap : Heap} {new_table : List (Option Nat)} :
    ∀ (count i : Nat), (∀ j, i ≤ j → j < i + count → table[j]? = some none) →
      ∀ rest, growBuckets fuel new_capacity table (count + rest) i heap new_table =
        growBuckets fuel new_capacity table rest (i + count) heap new_table := by
  intro count
  induction count with
  | zero => intro i _ rest; simp
  | succ count ih =>
    intro i hempty rest
    have hi := hempty i (Nat.le_refl _) (by omega)
    have hgc : growChain new_capacity fuel heap new_table none = .ok (heap, new_table) := by
      cases fuel <;> rfl
    rw [show count + 1 + rest = (count + rest) + 1 by omega]
    simp only [growBuckets, hi, hgc]
    rw [ih (i + 1) (fun j h1 h2 => hempty j (by omega) (by omega)) rest,
      Nat.add_right_comm i 1 count, Nat.add_assoc i count 1]

theorem growBuckets_single {fuel new_capacity capacity idx : Nat} {n : DirectoryNode}
    (hidx : idx < capacity) (hcap : 0 < new_capacity) (hnext : n.next = none) :
    growBuckets (fuel + 1) new_capacity ((List.replicate capacity none).set idx (some 0))
        capacity 0 [some n] (List.replicate new_capacity none) =
      .ok ([some n], (List.replicate new_capacity none).set (n.hash % new_capacity) (some 0)) := by
  have hlen : idx < (List.replicate capacity (none : Option Nat)).length := by simpa using hidx
  obtain ⟨rest, rfl⟩ : ∃ r, capacity = idx + (r + 1) := ⟨capacity - idx - 1, by omega⟩
  rw [growBuckets_skip idx 0 (fun j _ hj => by
    rw [List.getElem?_set_ne (by omega)]
    exact replicate_none_getElem? (by omega))]
  have hstep : growChain new_capacity (fuel + 1) [some n] (List.replicate new_capacity none)
      (some 0) = .ok ([some n],
        (List.replicate new_capacity none).set (n.hash % new_capacity) (some 0)) := by
    have hr : readNode [some n] 0 = some n := rfl
    simp only [growChain, hr, replicate_none_getElem? (Nat.mod_lt n.hash hcap), hnext]
  simp only [growBuckets, Nat.zero_add, List.getElem?_set_self hlen, hstep]
  have := @growBuckets_skip (fuel + 1) new_capacity
    ((List.replicate (idx + (rest + 1)) none).set idx (some 0)) [some n]
    ((List.replicate new_capacity none).set (n.hash % new_capacity) (some 0))
    rest (idx + 1) (fun j hj _ => by
      rw [List.getElem?_set_ne (by omega)]
      exact replicate_none_getElem? (by omega)) 0
  simp only [Nat.add_zero] at this
  rw [this]
  rfl

theorem insert_create (hasher : String → Nat) {capacity : Nat} (loadFactor : LoadFactor)
    (v : Entry) (hcap : 0 < capacity) :
    ∃ d1, Returns (fun fuel => insert hasher fuel (Directory.create capacity loadFactor) v) d1 ∧
      d1.heap = [some ⟨v.name, v, hasher v.name, none⟩] ∧
      d1.table[hasher v.name % d1.capacity]? = some (some 0) ∧ d1.size = 1 := by
  have hidx := Nat.mod_lt (hasher v.name) hcap
  have hhead : (Directory.create capacity loadFactor).table[hasher v.name % capacity]? =
      some none := replicate_none_getElem? hidx
  have hloop : ∀ fuel, insertLoop v fuel [] none = .ok none := fun fuel => by
    cases fuel <;> rfl
  by_cases hgrow : (1 : Int) ≥ calculate_threshold capacity loadFactor
  · refine ⟨{ heap := [some ⟨v.name, v, hasher v.name, none⟩]
              table := (List.replicate (capacity * 2) none).set
                (hasher v.name % (capacity * 2)) (some 0)
              capacity := capacity * 2
              size := 1
              threshold := calculate_threshold (capacity * 2) loadFactor
              loadFactor := loadFactor }, ⟨1, fun fuel hfuel => ?_⟩, rfl, ?_, rfl⟩
    · obtain ⟨fuel, rfl⟩ : ∃ k, fuel = k + 1 := ⟨fuel - 1, by omega⟩
      simp only [insert, Directory.create, hhead, hloop, List.nil_append, List.length_nil,
        Int.zero_add, ge_iff_le] at hhead ⊢
      rw [if_pos hgrow]
      simp only [grow]
      rw [growBuckets_single (n := ⟨v.name, v, hasher v.name, none⟩) hidx (by omega) rfl]
    · show ((List.replicate (capacity * 2) none).set _ _)[hasher v.name % (capacity * 2)]? = _
      rw [List.getElem?_set_self (by simpa using Nat.mod_lt _ (by omega))]
  · refine ⟨{ heap := [some ⟨v.name, v, hasher v.name, none⟩]
              table := (List.replicate capacity none).set (hasher v.name % capacity) (some 0)
              capacity := capacity
              size := 1
              threshold := calculate_threshold capacity loadFactor
              loadFactor := loadFactor }, ⟨0, fun fuel _ => ?_⟩, rfl, ?_, rfl⟩
    · simp only [insert, Directory.create, hhead, hloop, List.nil_append, List.length_nil,
        Int.zero_add, ge_iff_le] at hhead ⊢
      rw [if_neg hgrow]
    · show ((List.replicate capacity none).set _ _)[hasher v.name % capacity]? = _
      rw [List.getElem?_set_self (by simpa using hidx)]

theorem growChain_timeout_or_heads {new_capacity : Nat} {heap : Heap}
    (hcap : 0 < new_capacity) :
    ∀ (as : List Nat) (p : Option Nat) (seen : List Nat) (new_table : List (Option Nat))
      (fuel : Nat), IsSeg heap p as none → (∀ a ∈ as, a ∉ seen) → as.Nodup →
      Relocated new_capacity heap seen new_table →
      growChain new_capacity fuel heap new_table p = .timeout ∨
        ∃ nt1, growChain new_capacity fuel heap new_table p = .ok (heap, nt1) ∧
          Relocated new_capacity heap (seen ++ as) nt1 ∧
          (∀ (j q : Nat), new_table[j]? = some (some q) → nt1[j]? = some (some q)) ∧
          HeadsOf new_capacity heap nt1 as := by
  intro as
  induction as with
  | nil =>
    intro p seen nt fuel hseg _ _ hrel
    cases hseg
    refine Or.inr ⟨nt, by cases fuel <;> rfl, by simpa using hrel, fun _ _ h => h, ?_⟩
    intro a ha
    cases ha
  | cons a as ih =>
    intro p seen nt fuel hseg hfresh hnd hrel
    obtain ⟨rfl, n, hn, hrest⟩ := hseg
    have ha_seen : a ∉ seen := hfresh a (List.mem_cons_self _ _)
    have ha_as : a ∉ as := (List.nodup_cons.mp hnd).1
    cases fuel with
    | zero => exact Or.inl rfl
    | succ fuel =>
      cases hslot : nt[n.hash % new_capacity]? with
      | none =>
        exfalso
        have hlt : n.hash % new_capacity < nt.length := by
          rw [hrel.1]
          exact Nat.mod_lt _ hcap
        rw [List.getElem?_eq_getElem hlt] at hslot
        cases hslot
      | some slot =>
        have hlt : n.hash % new_capacity < nt.length := by
          by_contra hlt
          rw [List.getElem?_eq_none (Nat.le_of_not_lt hlt)] at hslot
          cases hslot
        cases slot with
        | some q =>
          obtain ⟨hq_seen, nq, hnq, hidx⟩ := hrel.2 _ q hslot
          left
          exact growChain_pingpong new_capacity (fuel + 1) heap nt a q n nq hn hnq
            (fun h => ha_seen (h ▸ hq_seen)) hidx.symm hslot
        | none =>
          have hrel1 : Relocated new_capacity heap (seen ++ [a])
              (nt.set (n.hash % new_capacity) (some a)) := by
            refine ⟨by rw [List.length_set]; exact hrel.1, ?_⟩
            intro j q hj
            by_cases hji : j = n.hash % new_capacity
            · subst hji
              rw [List.getElem?_set_self hlt] at hj
              cases hj
              exact ⟨by simp, n, hn, rfl⟩
            · rw [List.getElem?_set_ne (Ne.symm hji)] at hj
              obtain ⟨h1, h2⟩ := hrel.2 j q hj
              exact ⟨List.mem_append_left _ h1, h2⟩
          have hfresh1 : ∀ b ∈ as, b ∉ seen ++ [a] := by
            intro b hb hmem
            rcases List.mem_append.mp hmem with h | h
            · exact hfresh b (List.mem_cons_of_mem _ hb) h
            · rw [List.mem_singleton] at h
              exact ha_as (h ▸ hb)
          have hstep : growChain new_capacity (fuel + 1) heap nt (some a) =
              growChain new_capacity fuel heap
                (nt.set (n.hash % new_capacity) (some a)) n.next := by
            simp only [growChain, hn, hslot]
          rw [hstep]
          rcases ih n.next (seen ++ [a]) _ fuel hrest hfresh1 (List.nodup_cons.mp hnd).2 hrel1
            with h | ⟨nt1, hok, hrel2, hmono, hheads⟩
          · exact Or.inl h
          · have hkeep : nt1[n.hash % new_capacity]? = some (some a) :=
              hmono _ a (List.getElem?_set_self hlt)
            refine Or.inr ⟨nt1, hok, by simpa using hrel2, ?_, ?_⟩
            · intro j q hj
              apply hmono
              rw [List.getElem?_set_ne]
              · exact hj
              · intro h
                rw [h, hj] at hslot
                cases hslot
            · intro b hb
              rcases List.mem_cons.mp hb with rfl | hb
              · exact ⟨n, hn, hkeep⟩
              · exact hheads b hb

theorem HeadsOf.mono {new_capacity : Nat} {heap : Heap} {nt nt1 : List (Option Nat)}
    {as : List Nat} (h : HeadsOf new_capacity heap nt as)
    (hmono : ∀ (j q : Nat), nt[j]? = some (some q) → nt1[j]? = some (some q)) :
    HeadsOf new_capacity heap nt1 as := by
  intro a ha
  obtain ⟨n, hn, hslot⟩ := h a ha
  exact ⟨n, hn, hmono _ _ hslot⟩

theorem growBuckets_timeout_or_heads {hasher : String → Nat} {d : Directory}
    {chains : List (List Nat)} (hwf : WellFormedWith hasher d chains)
    {new_capacity : Nat} (hcap : 0 < new_capacity) (fuel : Nat) :
    ∀ (count i : Nat) (seen : List Nat) (nt : List (Option Nat)),
      i + count ≤ d.capacity → Relocated new_capacity d.heap seen nt →
      (∀ q ∈ seen, ∃ k, k < i ∧ q ∈ chains.getD k []) →
      growBuckets fuel new_capacity d.table count i d.heap nt = .timeout ∨
        ∃ nt1 seen1, growBuckets fuel new_capacity d.table count i d.heap nt =
            .ok (d.heap, nt1) ∧
          Relocated new_capacity d.heap seen1 nt1 ∧
          (∀ (j q : Nat), nt[j]? = some (some q) → nt1[j]? = some (some q)) ∧
          (∀ k, i ≤ k → k < i + count → HeadsOf new_capacity d.heap nt1 (chains.getD k [])) := by
  intro count
  induction count with
  | zero =>
    intro i seen nt _ hrel _
    exact Or.inr ⟨nt, seen, rfl, hrel, fun _ _ h => h, fun k h1 h2 => by omega⟩
  | succ count ih =>
    intro i seen nt hi hrel hseen
    obtain ⟨head, hhead, hseg⟩ := hwf.chain i (by omega)
    have hfresh : ∀ a ∈ chains.getD i [], a ∉ seen := by
      intro a ha hmem
      obtain ⟨k, hk, hak⟩ := hseen a hmem
      exact hwf.disjoint k i a (by omega) hak ha
    rcases growChain_timeout_or_heads hcap _ head seen nt fuel hseg hfresh (hwf.nodup i) hrel
      with h | ⟨nt1, hok, hrel1, hmono1, hheads1⟩
    · exact Or.inl (growBuckets_timeout_head hhead h)
    · rw [growBuckets_ok_head hhead hok]
      have hseen1 : ∀ q ∈ seen ++ chains.getD i [], ∃ k, k < i + 1 ∧ q ∈ chains.getD k [] := by
        intro q hq
        rcases List.mem_append.mp hq with hq | hq
        · obtain ⟨k, hk, hqk⟩ := hseen q hq
          exact ⟨k, by omega, hqk⟩
        · exact ⟨i, by omega, hq⟩
      rcases ih (i + 1) _ nt1 (by omega) hrel1 hseen1
        with h | ⟨nt2, seen2, hok2, hrel2, hmono2, hheads2⟩
      · exact Or.inl h
      · refine Or.inr ⟨nt2, seen2, hok2, hrel2, fun j q h => hmono2 j q (hmono1 j q h), ?_⟩
        intro k hk1 hk2
        by_cases hki : k = i
        · subst hki
          exact hheads1.mono hmono2
        · exact hheads2 k (by omega) (by omega)

theorem grow_timeout_or_heads {hasher : String → Nat} {d : Directory}
    {chains : List (List Nat)} (hwf : WellFormedWith hasher d chains)
    {new_capacity : Nat} (hcap : 0 < new_capacity) (fuel : Nat) :
    grow fuel d new_capacity = .timeout ∨
      ∃ d1, grow fuel d new_capacity = .ok d1 ∧ d1.heap = d.heap ∧
        d1.capacity = new_capacity ∧ get_size d1 = get_size d ∧
        ∀ k, k < d.capacity → HeadsOf new_capacity d.heap d1.table (chains.getD k []) := by
  have hrel : Relocated new_capacity d.heap [] (List.replicate new_capacity none) := by
    refine ⟨by simp, ?_⟩
    intro j q hj
    rw [List.getElem?_replicate] at hj
    split at hj <;> cases hj
  rcases growBuckets_timeout_or_heads hwf hcap fuel d.capacity 0 [] _ (by omega) hrel
    (fun q hq => by cases hq) with h | ⟨nt1, seen1, hok, _, _, hheads⟩
  · exact Or.inl (grow_timeout_of_buckets h)
  · refine Or.inr ⟨{ d with
      heap := d.heap
      table := nt1
      capacity := new_capacity
      threshold := calculate_threshold new_capacity d.loadFactor },
      by simp only [grow, hok], rfl, rfl, rfl, ?_⟩
    intro k hk
    exact hheads k (Nat.zero_le _) (by omega)

theorem mod_double {h c i : Nat} (hi : h % c = i) :
    h % (2 * c) = i ∨ h % (2 * c) = i + c := by
  rcases Nat.eq_zero_or_pos c with rfl | hc
  · left; simpa using hi
  · have hlt : h % (2 * c) < 2 * c := Nat.mod_lt _ (by omega)
    have hmod : h % (2 * c) % c = i := by
      rw [Nat.mod_mul_left_mod]; exact hi
    by_cases hr : h % (2 * c) < c
    · left
      rw [Nat.mod_eq_of_lt hr] at hmod
      exact hmod
    · right
      rw [Nat.mod_eq_sub_mod (Nat.le_of_not_lt hr), Nat.mod_eq_of_lt (by omega)] at hmod
      omega

/-! ## `insert` -/

theorem insert_timeout_of_grow (head : Option Nat) {hasher : String → Nat} {fuel : Nat}
    {d : Directory} {value : Entry}
    (hhead : d.table[hasher value.name % d.capacity]? = some head)
    (hloop : insertLoop value fuel d.heap head = .timeout ∨
      insertLoop value fuel d.heap head = .ok none)
    (hsize : d.size + 1 ≥ d.threshold)
    (hgrow : grow fuel
      { d with
        heap := d.heap ++ [some
          { key := value.name, value := value, hash := hasher value.name, next := head }]
        table := d.table.set (hasher value.name % d.capacity) (some d.heap.length)
        size := d.size + 1 } (d.capacity * 2) = .timeout) :
    insert hasher fuel d value = .timeout := by
  unfold insert
  rw [hhead]
  rcases hloop with h | h
  · simp only [h]
  · simp only [h]
    rw [if_pos hsize]
    exact hgrow

theorem insertLoop_found {value : Entry} {heap : Heap} {a : Nat} {n : DirectoryNode}
    (ha : readNode heap a = some n) (hk : n.key = value.name) :
    ∀ {r1 : List Nat} {p : Option Nat} {fuel : Nat}, IsSeg heap p r1 (some a) →
      AbsentIn heap value.name r1 → r1.length + 1 ≤ fuel →
      insertLoop value fuel heap p =
        .ok (some (heap.set a (some { n with value := value }))) := by
  intro r1
  induction r1 with
  | nil =>
    intro p fuel h _ hfuel
    cases h
    obtain ⟨fuel, rfl⟩ : ∃ k, fuel = k + 1 := ⟨fuel - 1, by simp at hfuel; omega⟩
    simp only [insertLoop, ha, if_pos hk]
  | cons b r1 ih =>
    intro p fuel h habs hfuel
    obtain ⟨rfl, nb, hnb, hrest⟩ := h
    obtain ⟨fuel, rfl⟩ : ∃ k, fuel = k + 1 := ⟨fuel - 1, by simp at hfuel; omega⟩
    have hne := habs b (List.mem_cons_self _ _) nb hnb
    simp only [insertLoop, hnb, if_neg hne]
    exact ih hrest (fun c hc => habs c (List.mem_cons_of_mem _ hc)) (by simpa using hfuel)

theorem insertLoop_absent {value : Entry} {heap : Heap} :
    ∀ {as : List Nat} {p : Option Nat} {fuel : Nat}, IsSeg heap p as none →
      AbsentIn heap value.name as → as.length ≤ fuel →
      insertLoop value fuel heap p = .ok none := by
  intro as
  induction as with
  | nil =>
    intro p fuel h _ _
    cases h
    cases fuel <;> rfl
  | cons b as ih =>
    intro p fuel h habs hfuel
    obtain ⟨rfl, nb, hnb, hrest⟩ := h
    obtain ⟨fuel, rfl⟩ : ∃ k, fuel = k + 1 := ⟨fuel - 1, by simp at hfuel; omega⟩
    have hne := habs b (List.mem_cons_self _ _) nb hnb
    simp only [insertLoop, hnb, if_neg hne]
    exact ih hrest (fun c hc => habs c (List.mem_cons_of_mem _ hc)) (by simpa using hfuel)

theorem lookupIn_set_value {heap : Heap} {key : String} {a : Nat} {n : DirectoryNode}
    (ha : readNode heap a = some n) (hk : n.key ≠ key) (v : Entry) :
    ∀ as : List Nat, lookupIn (heap.set a (some { n with value := v })) key as =
      lookupIn heap key as := by
  intro as
  induction as with
  | nil => rfl
  | cons b as ih =>
    by_cases hba : b = a
    · subst hba
      simp only [lookupIn, entryAt, readNode_set_eq _ (readNode_lt ha), ha,
        Option.map_some', if_neg hk, ih]
    · simp only [lookupIn, entryAt, readNode_set_ne _ (Ne.symm hba), ih]

theorem lookupIn_found {heap : Heap} {key : String} {a : Nat} {n : DirectoryNode}
    {r1 : List Nat} (r2 : List Nat) (hlive : ∀ b ∈ r1, ∃ m, readNode heap b = some m)
    (habs : AbsentIn heap key r1) (ha : readNode heap a = some n) (hk : n.key = key) :
    lookupIn heap key (r1 ++ a :: r2) = some n.value := by
  rw [lookupIn_skip hlive habs]
  simp only [lookupIn, entryAt, ha, Option.map_some', if_pos hk]

theorem insert_existing_effect {hasher : String → Nat} {d : Directory}
    {chains : List (List Nat)} (hwf : WellFormedWith hasher d chains) {value : Entry}
    {r1 r2 : List Nat} {a : Nat} {n : DirectoryNode}
    (hchain : chains.getD (hasher value.name % d.capacity) [] = r1 ++ a :: r2)
    (habs : AbsentIn d.heap value.name r1) (ha : readNode d.heap a = some n)
    (hk : n.key = value.name) :
    Returns (fun fuel => insert hasher fuel d value)
        { d with heap := d.heap.set a (some { n with value := value }) } ∧
      (∀ k1, k1 ≠ value.name →
        Returns (fun fuel => get hasher fuel
            { d with heap := d.heap.set a (some { n with value := value }) } k1)
          (lookupIn d.heap k1 (chains.getD (hasher k1 % d.capacity) []))) ∧
      Returns (fun fuel => get hasher fuel
          { d with heap := d.heap.set a (some { n with value := value }) } value.name)
        (some value) := by
  have hidx := Nat.mod_lt (hasher value.name) hwf.capacity_pos
  obtain ⟨head, hhead, hseg⟩ := hwf.chain _ hidx
  have hseg0 := hseg
  rw [hchain] at hseg
  obtain ⟨m, hseg1, hseg2⟩ := hseg.split
  have hm : m = some a := hseg2.1
  subst hm
  have hnext : ∀ j, j < d.capacity → ∃ hd, d.table[j]? = some hd ∧
      IsSeg (d.heap.set a (some { n with value := value })) hd (chains.getD j []) none := by
    intro j hj
    obtain ⟨hd, hhd, hsegj⟩ := hwf.chain j hj
    refine ⟨hd, hhd, hsegj.congr ?_⟩
    intro b _ nb hnb
    by_cases hba : b = a
    · subst hba
      rw [ha] at hnb
      cases hnb
      exact ⟨_, readNode_set_eq _ (readNode_lt ha), rfl⟩
    · exact ⟨nb, by rw [readNode_set_ne _ (Ne.symm hba)]; exact hnb, rfl⟩
  refine ⟨⟨r1.length + 1, fun fuel hfuel => ?_⟩, fun k1 hk1 => ?_, ?_⟩
  · simp only [insert, hhead]
    rw [insertLoop_found ha hk hseg1 habs hfuel]
  · obtain ⟨hd, hhd, hsegj⟩ := hnext _ (Nat.mod_lt (hasher k1) hwf.capacity_pos)
    have h := get_of_chain hasher
      { d with heap := d.heap.set a (some { n with value := value }) } k1 hhd hsegj
    rw [show ({ d with heap := d.heap.set a (some { n with value := value }) } :
      Directory).heap = d.heap.set a (some { n with value := value }) from rfl,
      lookupIn_set_value ha (by rw [hk]; exact Ne.symm hk1)] at h
    exact h
  · obtain ⟨hd, hhd, hsegj⟩ := hnext _ hidx
    have h := get_of_chain hasher
      { d with heap := d.heap.set a (some { n with value := value }) } value.name hhd hsegj
    have hnd := hwf.nodup (hasher value.name % d.capacity)
    rw [hchain] at hnd
    have har1 : a ∉ r1 := fun h1 => (List.nodup_append.mp hnd).2.2 h1 (List.mem_cons_self _ _)
    rw [show ({ d with heap := d.heap.set a (some { n with value := value }) } :
      Directory).heap = d.heap.set a (some { n with value := value }) from rfl, hchain,
      lookupIn_found (n := { n with value := value }) r2] at h
    · exact h
    · intro b hb
      obtain ⟨nb, hnb⟩ := hseg1.live b hb
      exact ⟨nb, by
        rw [readNode_set_ne _ (fun hab : a = b => har1 (by rw [hab]; exact hb))]; exact hnb⟩
    · intro b hb nb hnb
      rw [readNode_set_ne _ (fun hab : a = b => har1 (by rw [hab]; exact hb))] at hnb
      exact habs b hb nb hnb
    · exact readNode_set_eq _ (readNode_lt ha)
    · exact hk

/-! ## `remove` -/

theorem prevAfter_concat (prev : Option Nat) (as : List Nat) (q : Nat) :
    prevAfter prev (as ++ [q]) = some q := by
  induction as generalizing prev with
  | nil => rfl
  | cons a as ih => exact ih (some a)

theorem removeLoop_found {key : String} {d : Directory} {index a : Nat}
    {n : DirectoryNode} (ha : readNode d.heap a = some n) (hk : n.key = key) :
    ∀ {r1 : List Nat} {p prev : Option Nat} {fuel : Nat}, IsSeg d.heap p r1 (some a) →
      AbsentIn d.heap key r1 → r1.length + 1 ≤ fuel →
      removeLoop key d index fuel p prev = unlink d index (prevAfter prev r1) a n := by
  intro r1
  induction r1 with
  | nil =>
    intro p prev fuel h _ hfuel
    cases h
    obtain ⟨fuel, rfl⟩ : ∃ k, fuel = k + 1 := ⟨fuel - 1, by simp at hfuel; omega⟩
    simp only [removeLoop, ha, if_pos hk, prevAfter]
  | cons b r1 ih =>
    intro p prev fuel h habs hfuel
    obtain ⟨rfl, nb, hnb, hrest⟩ := h
    obtain ⟨fuel, rfl⟩ : ∃ k, fuel = k + 1 := ⟨fuel - 1, by simp at hfuel; omega⟩
    have hne := habs b (List.mem_cons_self _ _) nb hnb
    simp only [removeLoop, hnb, if_neg hne, prevAfter]
    exact ih hrest (fun c hc => habs c (List.mem_cons_of_mem _ hc)) (by simpa using hfuel)

theorem removeLoop_absent {key : String} {d : Directory} {index : Nat} :
    ∀ {as : List Nat} {p prev : Option Nat} {fuel : Nat}, IsSeg d.heap p as none →
      AbsentIn d.heap key as → as.length ≤ fuel →
      removeLoop key d index fuel p prev = .ok d := by
  intro as
  induction as with
  | nil =>
    intro p prev fuel h _ _
    cases h
    cases fuel <;> rfl
  | cons b as ih =>
    intro p prev fuel h habs hfuel
    obtain ⟨rfl, nb, hnb, hrest⟩ := h
    obtain ⟨fuel, rfl⟩ : ∃ k, fuel = k + 1 := ⟨fuel - 1, by simp at hfuel; omega⟩
    have hne := habs b (List.mem_cons_self _ _) nb hnb
    simp only [removeLoop, hnb, if_neg hne]
    exact ih hrest (fun c hc => habs c (List.mem_cons_of_mem _ hc)) (by simpa using hfuel)

theorem entryAt_set_ne {heap : Heap} {p q : Nat} (c : Option DirectoryNode) (h : p ≠ q) :
    entryAt (heap.set p c) q = entryAt heap q := by
  unfold entryAt
  rw [readNode_set_ne c h]

theorem unlink_chain {hasher : String → Nat} {d : Directory} {chains : List (List Nat)}
    (hwf : WellFormedWith hasher d chains) {idx a : Nat} {r1 r2 : List Nat}
    {n : DirectoryNode} (hidx : idx < d.capacity)
    (hchain : chains.getD idx [] = r1 ++ a :: r2) (ha : readNode d.heap a = some n) :
    ∃ d1, unlink d idx (prevAfter none r1) a n = .ok d1 ∧
      d1.capacity = d.capacity ∧ d1.threshold = d.threshold ∧ d1.size = d.size - 1 ∧
      (∀ j, j < d.capacity → ∃ head, d1.table[j]? = some head ∧
        IsSeg d1.heap head (if j = idx then r1 ++ r2 else chains.getD j []) none) ∧
      (∀ b, b ≠ a → entryAt d1.heap b = entryAt d.heap b) := by
  obtain ⟨head, hhead, hseg⟩ := hwf.chain idx hidx
  rw [hchain] at hseg
  have hnd := hwf.nodup idx
  rw [hchain] at hnd
  have hother : ∀ j, j ≠ idx → ∀ b, b ∈ r1 ++ a :: r2 → b ∉ chains.getD j [] := by
    intro j hj b hb
    exact hwf.disjoint idx j b (fun h => hj h.symm) (by rw [hchain]; exact hb)
  have hidx' : idx < d.table.length := by rw [hwf.table_length]; exact hidx
  rcases List.eq_nil_or_concat r1 with rfl | ⟨r0, q, rfl⟩
  · -- the node is the head of its chain
    obtain ⟨hh, n0, hn0, hrest⟩ := hseg
    rw [ha] at hn0
    cases hn0
    have har2 : a ∉ r2 := (List.nodup_cons.mp hnd).1
    refine ⟨_, rfl, rfl, rfl, rfl, ?_, fun b hb => entryAt_set_ne _ (Ne.symm hb)⟩
    intro j hj
    by_cases hji : j = idx
    · subst hji
      refine ⟨n.next, ?_, ?_⟩
      · show (d.table.set j n.next)[j]? = some n.next
        rw [List.getElem?_set_self hidx']
      · rw [if_pos rfl]
        exact hrest.set_of_not_mem none har2
    · obtain ⟨hd, hhd, hsegj⟩ := hwf.chain j hj
      refine ⟨hd, ?_, ?_⟩
      · show (d.table.set idx n.next)[j]? = some hd
        rw [List.getElem?_set_ne (Ne.symm hji)]
        exact hhd
      · rw [if_neg hji]
        exact hsegj.set_of_not_mem none (hother j hji a (by simp))
  · -- the node follows the node at `q`
    simp only [List.concat_eq_append] at hseg hnd hother ⊢
    rw [prevAfter_concat]
    obtain ⟨m1, hseg1, hseg2⟩ := hseg.split
    obtain ⟨m0, hseg0, hsegq⟩ := hseg1.split
    obtain ⟨rfl, mq, hmq, hqa⟩ := hsegq
    obtain ⟨hm1, n0, hn0, hrest⟩ := hseg2
    rw [ha] at hn0
    cases hn0
    have hqa' : mq.next = some a := by rw [← hm1]; exact hqa
    have hnd' : (r0 ++ q :: a :: r2).Nodup := by simpa using hnd
    have hqa_ne : q ≠ a := by
      intro h
      subst h
      have := (List.nodup_append.mp hnd').2.1
      simp at this
    have hr0 : q ∉ r0 ∧ a ∉ r0 := by
      have := (List.nodup_append.mp hnd').2.2
      constructor
      · intro h; exact this h (by simp)
      · intro h; exact this h (by simp)
    have hr2 : q ∉ r2 ∧ a ∉ r2 := by
      have h1 := (List.nodup_append.mp hnd').2.1
      simp only [List.nodup_cons, List.mem_cons, not_or] at h1
      exact ⟨h1.1.2, h1.2.1⟩
    simp only [unlink, hmq]
    refine ⟨_, rfl, rfl, rfl, rfl, ?_, ?_⟩
    · intro j hj
      by_cases hji : j = idx
      · subst hji
        refine ⟨head, hhead, ?_⟩
        rw [if_pos rfl]
        rw [List.append_assoc]
        refine @IsSeg.append _ r0 _ _ (some q) _ ?_ ?_
        · exact ((hseg0.set_of_not_mem _ hr0.1).set_of_not_mem _ hr0.2)
        · show IsSeg _ (some q) (q :: r2) none
          refine ⟨rfl, { mq with next := n.next }, ?_, ?_⟩
          · show readNode ((d.heap.set q _).set a none) q = _
            rw [readNode_set_ne _ (Ne.symm hqa_ne), readNode_set_eq _ (readNode_lt hmq)]
          · exact ((hrest.set_of_not_mem _ hr2.1).set_of_not_mem _ hr2.2)
      · obtain ⟨hd, hhd, hsegj⟩ := hwf.chain j hj
        refine ⟨hd, hhd, ?_⟩
        rw [if_neg hji]
        exact (hsegj.set_of_not_mem _ (hother j hji q (by simp))).set_of_not_mem _
          (hother j hji a (by simp))
    · intro b hb
      show entryAt ((d.heap.set q _).set a none) b = _
      rw [entryAt_set_ne _ (Ne.symm hb)]
      by_cases hbq : b = q
      · subst hbq
        unfold entryAt
        rw [readNode_set_eq _ (readNode_lt hmq), hmq]
        rfl
      · exact entryAt_set_ne _ (Ne.symm hbq)

theorem remove_present_effect {hasher : String → Nat} {d : Directory}
    {chains : List (List Nat)} (hwf : WellFormedWith hasher d chains) {key : String}
    {r1 r2 : List Nat} {a : Nat} {n : DirectoryNode}
    (hchain : chains.getD (hasher key % d.capacity) [] = r1 ++ a :: r2)
    (habs : AbsentIn d.heap key r1) (ha : readNode d.heap a = some n) (hk : n.key = key) :
    ∃ d1, Returns (fun fuel => remove hasher fuel d key) d1 ∧
      d1.capacity = d.capacity ∧ d1.threshold = d.threshold ∧ d1.size = d.size - 1 ∧
      ∀ key1, Returns (fun fuel => get hasher fuel d1 key1)
        (lookupIn d.heap key1
          (if hasher key1 % d.capacity = hasher key % d.capacity then r1 ++ r2
           else chains.getD (hasher key1 % d.capacity) [])) := by
  have hidx := Nat.mod_lt (hasher key) hwf.capacity_pos
  obtain ⟨d1, hd1, hcap, hthr, hsize, hchains, hentries⟩ := unlink_chain hwf hidx hchain ha
  obtain ⟨head, hhead, hseg⟩ := hwf.chain _ hidx
  rw [hchain] at hseg
  obtain ⟨m, hseg1, hseg2⟩ := hseg.split
  have hm : m = some a := hseg2.1
  subst hm
  refine ⟨d1, ⟨r1.length + 1, fun fuel hfuel => ?_⟩, hcap, hthr, hsize, fun key1 => ?_⟩
  · simp only [remove, hhead]
    rw [removeLoop_found ha hk hseg1 habs hfuel]
    exact hd1
  · obtain ⟨hd, hhd, hsegd⟩ := hchains _ (Nat.mod_lt (hasher key1) hwf.capacity_pos)
    have hget := get_of_chain hasher d1 key1 (by rw [hcap]; exact hhd) hsegd
    have hcongr : lookupIn d1.heap key1
        (if hasher key1 % d.capacity = hasher key % d.capacity then r1 ++ r2
         else chains.getD (hasher key1 % d.capacity) []) =
        lookupIn d.heap key1
          (if hasher key1 % d.capacity = hasher key % d.capacity then r1 ++ r2
           else chains.getD (hasher key1 % d.capacity) []) := by
      apply lookupIn_congr
      intro b hb
      apply hentries
      rintro rfl
      by_cases hji : hasher key1 % d.capacity = hasher key % d.capacity
      · rw [if_pos hji] at hb
        have hnd := hwf.nodup (hasher key % d.capacity)
        rw [hchain] at hnd
        have h1 := List.nodup_append.mp hnd
        rcases List.mem_append.mp hb with hb | hb
        · exact h1.2.2 hb (List.mem_cons_self _ _)
        · exact (List.nodup_cons.mp h1.2.1).1 hb
      · rw [if_neg hji] at hb
        exact hwf.disjoint _ _ b hji hb (by rw [hchain]; simp)
    rw [hcongr] at hget
    exact hget

theorem absentIn_after {hasher : String → Nat} {d : Directory} {chains : List (List Nat)}
    (hwf : WellFormedWith hasher d chains) {i : Nat} {key : String}
    {r1 r2 : List Nat} {a : Nat} {n : DirectoryNode}
    (hchain : chains.getD i [] = r1 ++ a :: r2)
    (ha : readNode d.heap a = some n) (hk : n.key = key) :
    AbsentIn d.heap key r2 := by
  intro b hb nb hnb hbk
  have hu := hwf.unique_keys i
  rw [hchain, List.map_append, List.map_cons] at hu
  have h2 := (List.nodup_cons.mp (List.nodup_append.mp hu).2.1).1
  apply h2
  refine List.mem_map.mpr ⟨b, hb, ?_⟩
  simp only [entryAt, ha, hnb, Option.map_some', hk, hbk]

/-! ## The example directories -/

theorem sampleDirectory_reached :
    Returns (fun fuel => insertAll String.length fuel (Directory.create 2 ⟨3, 1⟩)
      [⟨"a", "1"⟩, ⟨"abc", "2"⟩, ⟨"abcde", "3"⟩, ⟨"", "0"⟩]) sampleDirectory := by
  have h0 : "".length = 0 := rfl
  have h1 : "a".length = 1 := rfl
  have h3 : "abc".length = 3 := rfl
  have h5 : "abcde".length = 5 := rfl
  refine ⟨2, fun fuel hfuel => ?_⟩
  obtain ⟨k, rfl⟩ := Nat.exists_eq_add_of_le hfuel
  simp [h0, h1, h3, h5, insertAll, insert, Directory.create, insertLoop, readNode,
    calculate_threshold, sampleDirectory, Nat.add_comm 2 k]

theorem twoNodeBucket_reached :
    Returns (fun fuel => insertAll String.length fuel (Directory.create 1 ⟨3, 1⟩)
      [⟨"a", "1"⟩, ⟨"", "0"⟩]) twoNodeBucket := by
  have h0 : "".length = 0 := rfl
  have h1 : "a".length = 1 := rfl
  refine ⟨1, fun fuel hfuel => ?_⟩
  obtain ⟨k, rfl⟩ := Nat.exists_eq_add_of_le hfuel
  simp [h0, h1, insertAll, insert, Directory.create, insertLoop, readNode,
    calculate_threshold, twoNodeBucket, Nat.add_comm 1 k]

theorem oneNodeDirectory_reached :
    Returns (fun fuel => insertAll String.length fuel (Directory.create 4 ⟨1, 2⟩)
      [⟨"", "0"⟩]) oneNodeDirectory := by
  have h0 : "".length = 0 := rfl
  refine ⟨0, fun fuel _ => ?_⟩
  cases fuel <;>
    simp [h0, insertAll, insert, Directory.create, insertLoop, calculate_threshold,
      oneNodeDirectory]

theorem sampleDirectory_wellFormed : WellFormed String.length sampleDirectory := by
  refine ⟨[[3], [2, 1, 0]], ?_⟩
  constructor
  · decide
  · rfl
  · rfl
  · intro i hi
    have hi : i < 2 := hi
    interval_cases i
    · exact ⟨some 3, rfl, by simp [IsSeg, sampleDirectory, readNode]⟩
    · exact ⟨some 2, rfl, by simp [IsSeg, sampleDirectory, readNode]⟩
  · intro i
    rcases i with _ | _ | i <;> simp
  · intro i j a hij hi
    rcases i with _ | _ | i <;> rcases j with _ | _ | j <;> simp at hi hij ⊢ <;> omega
  · intro i a n hi hn
    rcases i with _ | _ | i <;> simp at hi
    · subst hi; simp [sampleDirectory, readNode] at hn; subst hn; rfl
    · rcases hi with rfl | rfl | rfl <;> simp [sampleDirectory, readNode] at hn <;> subst hn <;> rfl
  · intro i a n hi hn
    rcases i with _ | _ | i <;> simp at hi
    · subst hi; simp [sampleDirectory, readNode] at hn; subst hn; exact ⟨rfl, rfl⟩
    · rcases hi with rfl | rfl | rfl <;> simp [sampleDirectory, readNode] at hn <;> subst hn <;>
        exact ⟨rfl, rfl⟩
  · intro i
    rcases i with _ | _ | i <;> simp [entryAt, sampleDirectory, readNode]
  · rfl

theorem sampleDirectory_get_abc :
    Returns (fun fuel => get String.length fuel sampleDirectory "abc") (some ⟨"abc", "2"⟩) := by
  have h3 : "abc".length = 3 := rfl
  refine ⟨2, fun fuel hfuel => ?_⟩
  obtain ⟨k, rfl⟩ := Nat.exists_eq_add_of_le hfuel
  simp [h3, get, getLoop, sampleDirectory, readNode, Nat.add_comm 2 k]

theorem twoNodeBucket_wellFormed : WellFormed String.length twoNodeBucket := by
  refine ⟨[[1, 0]], ?_⟩
  constructor
  · decide
  · rfl
  · rfl
  · intro i hi
    have hi : i < 1 := hi
    interval_cases i
    exact ⟨some 1, rfl, by simp [IsSeg, twoNodeBucket, readNode]⟩
  · intro i
    rcases i with _ | i <;> simp
  · intro i j a hij hi
    rcases i with _ | i <;> rcases j with _ | j <;> simp at hi hij ⊢
  · intro i a n hi hn
    rcases i with _ | i <;> simp at hi
    rcases hi with rfl | rfl <;> simp [twoNodeBucket, readNode] at hn <;> subst hn <;> rfl
  · intro i a n hi hn
    rcases i with _ | i <;> simp at hi
    rcases hi with rfl | rfl <;> simp [twoNodeBucket, readNode] at hn <;> subst hn <;>
      exact ⟨rfl, rfl⟩
  · intro i
    rcases i with _ | i <;> simp [entryAt, twoNodeBucket, readNode]
  · rfl

theorem threeNodeBucket_wellFormed : WellFormed String.length threeNodeBucket := by
  refine ⟨[[], [2, 1, 0], [], []], ?_⟩
  constructor
  · decide
  · rfl
  · rfl
  · intro i hi
    have hi : i < 4 := hi
    interval_cases i
    · exact ⟨none, rfl, rfl⟩
    · exact ⟨some 2, rfl, by simp [IsSeg, threeNodeBucket, readNode]⟩
    · exact ⟨none, rfl, rfl⟩
    · exact ⟨none, rfl, rfl⟩
  · intro i
    rcases i with _ | _ | _ | _ | i <;> simp
  · intro i j a hij hi
    rcases i with _ | _ | _ | _ | i <;> simp at hi
    rcases j with _ | _ | _ | _ | j <;> simp at hij ⊢
  · intro i a n hi hn
    rcases i with _ | _ | _ | _ | i <;> simp at hi
    rcases hi with rfl | rfl | rfl <;> simp [threeNodeBucket, readNode] at hn <;> subst hn <;>
      rfl
  · intro i a n hi hn
    rcases i with _ | _ | _ | _ | i <;> simp at hi
    rcases hi with rfl | rfl | rfl <;> simp [threeNodeBucket, readNode] at hn <;> subst hn <;>
      exact ⟨rfl, rfl⟩
  · intro i
    rcases i with _ | _ | _ | _ | i <;> simp [entryAt, threeNodeBucket, readNode]
  · rfl

theorem oneNodeDirectory_wellFormed : WellFormed String.length oneNodeDirectory := by
  refine ⟨[[0], [], [], []], ?_⟩
  constructor
  · decide
  · rfl
  · rfl
  · intro i hi
    have hi : i < 4 := hi
    interval_cases i
    · exact ⟨some 0, rfl, by simp [IsSeg, oneNodeDirectory, readNode]⟩
    · exact ⟨none, rfl, rfl⟩
    · exact ⟨none, rfl, rfl⟩
    · exact ⟨none, rfl, rfl⟩
  · intro i
    rcases i with _ | _ | _ | _ | i <;> simp
  · intro i j a hij hi
    rcases i with _ | _ | _ | _ | i <;> simp at hi
    rcases j with _ | _ | _ | _ | j <;> simp at hij ⊢
  · intro i a n hi hn
    rcases i with _ | _ | _ | _ | i <;> simp at hi
    subst hi; simp [oneNodeDirectory, readNode] at hn; subst hn; rfl
  · intro i a n hi hn
    rcases i with _ | _ | _ | _ | i <;> simp at hi
    subst hi; simp [oneNodeDirectory, readNode] at hn; subst hn; exact ⟨rfl, rfl⟩
  · intro i
    rcases i with _ | _ | _ | _ | i <;> simp [entryAt, oneNodeDirectory, readNode]
  · rfl

/-! ## The claims -/

/-- Claim C1, evaluated where it fails. Whatever the hash function: after
`Directory(1, 3.0)` has taken `insert` of `"a"` and of `"b"` (both calls
return), the call `insert` of `"c"` never returns. It pushes the third node,
reaches the threshold 3 and calls `grow(2)`; three nodes meet two slots, so one
node finds its slot occupied and the relocation loop then alternates between
the two nodes of that slot for ever. No `get` after the sequence is reached. -/
theorem insert_diverges_full_bucket (hasher : String → Nat) :
    ∃ d, Returns (fun fuel => insertAll hasher fuel (Directory.create 1 ⟨3, 1⟩)
          [⟨"a", "1"⟩, ⟨"b", "2"⟩]) d ∧
      Diverges (fun fuel => insert hasher fuel d ⟨"c", "3"⟩) := by
  refine ⟨{ heap := [some ⟨"a", ⟨"a", "1"⟩, hasher "a", none⟩,
                    some ⟨"b", ⟨"b", "2"⟩, hasher "b", some 0⟩]
            table := [some 1], capacity := 1, size := 2, threshold := 3,
            loadFactor := ⟨3, 1⟩ }, ⟨1, ?_⟩, ?_⟩
  · intro fuel hfuel
    obtain ⟨k, rfl⟩ := Nat.exists_eq_add_of_le hfuel
    simp [insertAll, insert, Directory.create, insertLoop, readNode, calculate_threshold,
      Nat.mod_one, Nat.add_comm 1 k]
  · intro fuel
    have hc2 : hasher "c" % 2 < 2 := Nat.mod_lt _ (by decide)
    have hb2 : hasher "b" % 2 < 2 := Nat.mod_lt _ (by decide)
    have ha2 : hasher "a" % 2 < 2 := Nat.mod_lt _ (by decide)
    apply insert_timeout_of_grow (some 1)
    · simp [Nat.mod_one]
    · rcases fuel with _ | _ | fuel <;> simp [insertLoop, readNode]
    · show (2 : Int) + 1 ≥ 3
      decide
    · simp only [grow, Nat.mod_one]
      rw [@growBuckets_timeout_head _ _ _ _ _ _ _ (some 2) (by simp)]
      refine growChain_timeout_of_step (n := ⟨"c", ⟨"c", "3"⟩, hasher "c", some 1⟩)
        (by simp [readNode]) (replicate_none_getElem? hc2) ?_ fuel
      by_cases hbc : hasher "b" % 2 = hasher "c" % 2
      · intro fuel
        refine growChain_pingpong 2 fuel _ _ 1 2 ⟨"b", ⟨"b", "2"⟩, hasher "b", some 0⟩
          ⟨"c", ⟨"c", "3"⟩, hasher "c", some 1⟩ (by simp [readNode]) (by simp [readNode])
          (by decide) hbc ?_
        simp only [hbc]
        rw [List.getElem?_set_self (by simpa using hc2)]
      · have hnt1 : ((List.replicate (1 * 2) (none : Option Nat)).set (hasher "c" % 2)
            (some 2))[hasher "b" % 2]? = some none := by
          rw [List.getElem?_set_ne (fun h => hbc h.symm)]
          exact replicate_none_getElem? hb2
        refine growChain_timeout_of_step (n := ⟨"b", ⟨"b", "2"⟩, hasher "b", some 0⟩)
          (by simp [readNode]) hnt1 ?_
        intro fuel
        have hab : hasher "a" % 2 = hasher "b" % 2 ∨ hasher "a" % 2 = hasher "c" % 2 := by
          omega
        rcases hab with hab | hac
        · refine growChain_pingpong 2 fuel _ _ 0 1 ⟨"a", ⟨"a", "1"⟩, hasher "a", none⟩
            ⟨"b", ⟨"b", "2"⟩, hasher "b", some 0⟩ (by simp [readNode]) (by simp [readNode])
            (by decide) hab ?_
          simp only [hab]
          rw [List.getElem?_set_self (by simpa using hb2)]
        · refine growChain_pingpong 2 fuel _ _ 0 2 ⟨"a", ⟨"a", "1"⟩, hasher "a", none⟩
            ⟨"c", ⟨"c", "3"⟩, hasher "c", some 1⟩ (by simp [readNode]) (by simp [readNode])
            (by decide) hac ?_
          simp only [hac]
          rw [List.getElem?_set_ne hbc, List.getElem?_set_self (by simpa using hc2)]

/-- Claim C2, evaluated where it fails. With the string length as hash,
`Directory(2)` takes `insert` of `""` (which resizes to capacity 4) and of
`"a"`; the `insert` of the third distinct name `"b"`, which triggers the second
resize, never returns, because `"a"` and `"b"` meet in slot 1 of the new
table. -/
theorem second_resize_diverges :
    ∃ d, Returns (fun fuel => insertAll String.length fuel
          (Directory.create 2 defaultLoadFactor) [⟨"", "0"⟩, ⟨"a", "1"⟩]) d ∧
      d.capacity = 4 ∧
      Diverges (fun fuel => insert String.length fuel d ⟨"b", "2"⟩) := by
  refine ⟨{ heap := [some ⟨"", ⟨"", "0"⟩, 0, none⟩, some ⟨"a", ⟨"a", "1"⟩, 1, none⟩]
            table := [some 0, some 1, none, none], capacity := 4, size := 2,
            threshold := 3, loadFactor := ⟨3, 4⟩ }, ?_⟩
  have h0 : "".length = 0 := rfl
  have ha : "a".length = 1 := rfl
  have hb : "b".length = 1 := rfl
  refine ⟨?_, rfl, ?_⟩
  · refine ⟨1, ?_⟩
    intro fuel hfuel
    obtain ⟨k, rfl⟩ := Nat.exists_eq_add_of_le hfuel
    simp [h0, ha, insertAll, insert, Directory.create, insertLoop, readNode, calculate_threshold,
      defaultLoadFactor, Nat.add_comm 1 k, grow, growBuckets, growChain]
  · intro fuel
    apply insert_timeout_of_grow (some 1)
    · simp [hb]
    · rcases fuel with _ | _ | fuel <;> simp [insertLoop, readNode]
    · show (2 : Int) + 1 ≥ 3
      decide
    · have hstep : ∀ fuel, growChain 8 fuel
          [some ⟨"", ⟨"", "0"⟩, 0, none⟩, some ⟨"a", ⟨"a", "1"⟩, 1, none⟩,
            some ⟨"b", ⟨"b", "2"⟩, 1, some 1⟩]
          [some 0, none, none, none, none, none, none, none] (some 2) = .timeout := by
        refine growChain_timeout_of_step (n := ⟨"b", ⟨"b", "2"⟩, 1, some 1⟩)
          (by rfl) (by rfl) ?_
        intro fuel
        exact growChain_pingpong 8 fuel _ _ 1 2 ⟨"a", ⟨"a", "1"⟩, 1, none⟩
          ⟨"b", ⟨"b", "2"⟩, 1, some 1⟩ (by rfl) (by rfl) (by decide) (by rfl) (by rfl)
      apply grow_timeout_of_buckets
      show growBuckets fuel 8 [some 0, some 2, none, none] (3 + 1) 0
        [some ⟨"", ⟨"", "0"⟩, 0, none⟩, some ⟨"a", ⟨"a", "1"⟩, 1, none⟩,
          some ⟨"b", ⟨"b", "2"⟩, 1, some 1⟩] (List.replicate 8 none) = Run.timeout
      rcases fuel with _ | fuel
      · exact growBuckets_timeout_head (by rfl) (by rfl)
      · have hfirst : growChain 8 (fuel + 1)
            [some ⟨"", ⟨"", "0"⟩, 0, none⟩, some ⟨"a", ⟨"a", "1"⟩, 1, none⟩,
              some ⟨"b", ⟨"b", "2"⟩, 1, some 1⟩] (List.replicate 8 none) (some 0) =
            .ok ([some ⟨"", ⟨"", "0"⟩, 0, none⟩, some ⟨"a", ⟨"a", "1"⟩, 1, none⟩,
              some ⟨"b", ⟨"b", "2"⟩, 1, some 1⟩],
              [some 0, none, none, none, none, none, none, none]) := by
          simp [growChain, readNode]
        rw [growBuckets_ok_head (by rfl) hfirst]
        exact growBuckets_timeout_head (by rfl) (hstep (fuel + 1))

/-- Claim C3, evaluated where it fails. `twoNodeBucket` is well formed and
`grow(2)` returns on it with `size` unchanged, but the node at address 0 is
afterwards reachable from both buckets: the chain of bucket 0 is `1, 0` and the
chain of bucket 1 is `0`, three nodes counted with multiplicity where two were
stored. The relocated head keeps its old `next` pointer. -/
theorem grow_links_node_into_two_chains :
    WellFormed String.length twoNodeBucket ∧
      ∃ d1, Returns (fun fuel => grow fuel twoNodeBucket 2) d1 ∧
        get_size d1 = get_size twoNodeBucket ∧
        d1.table = [some 1, some 0] ∧
        IsSeg d1.heap (some 1) [1, 0] none ∧ IsSeg d1.heap (some 0) [0] none := by
  refine ⟨twoNodeBucket_wellFormed,
    { twoNodeBucket with table := [some 1, some 0], capacity := 2, threshold := 6 },
    ⟨2, fun fuel hfuel => ?_⟩, rfl, rfl, ?_, ?_⟩
  · obtain ⟨k, rfl⟩ := Nat.exists_eq_add_of_le hfuel
    simp [grow, growBuckets, growChain, twoNodeBucket, readNode, calculate_threshold,
      Nat.add_comm 2 k]
  · simp [IsSeg, twoNodeBucket, readNode]
  · simp [IsSeg, twoNodeBucket, readNode]

/-- Claim C4 fails on every input it speaks of. In a well-formed directory in
which bucket `i` heads a chain `as` of three or more nodes, the resize
`grow(2 * capacity)` never returns: the three hashes agree modulo `capacity`,
so two of them agree modulo `2 * capacity`, and the second of the two nodes to
be relocated finds its slot occupied. -/
theorem grow_diverges_on_three_node_chain (hasher : String → Nat) (d : Directory)
    (i : Nat) (head : Option Nat) (as : List Nat) (hwf : WellFormed hasher d)
    (hhead : d.table[i]? = some head) (hchain : IsSeg d.heap head as none)
    (hlen : 3 ≤ as.length) :
    Diverges (fun fuel => grow fuel d (2 * d.capacity)) := by
  obtain ⟨chains, hwf⟩ := hwf
  have hi : i < d.capacity := by
    by_contra h
    rw [List.getElem?_eq_none (by rw [hwf.table_length]; omega)] at hhead
    cases hhead
  obtain ⟨head1, hhead1, hseg1⟩ := hwf.chain i hi
  rw [hhead] at hhead1
  cases hhead1
  have has : chains.getD i [] = as := hseg1.deterministic hchain
  intro fuel
  rcases @grow_timeout_or_heads hasher d chains hwf (2 * d.capacity)
    (by have := hwf.capacity_pos; omega) fuel with h | ⟨d1, _, _, _, _, hheads⟩
  · exact h
  · exfalso
    have hh := hheads i hi
    have hnd := hwf.nodup i
    have hplaced := hwf.placed i
    rw [has] at hh hnd hplaced
    obtain ⟨a1, a2, a3, rest, rfl⟩ : ∃ a1 a2 a3 rest, as = a1 :: a2 :: a3 :: rest := by
      match as, hlen with
      | a1 :: a2 :: a3 :: rest, _ => exact ⟨a1, a2, a3, rest, rfl⟩
    obtain ⟨n1, hn1, hs1⟩ := hh a1 (by simp)
    obtain ⟨n2, hn2, hs2⟩ := hh a2 (by simp)
    obtain ⟨n3, hn3, hs3⟩ := hh a3 (by simp)
    have hp1 := mod_double (hplaced a1 n1 (by simp) hn1)
    have hp2 := mod_double (hplaced a2 n2 (by simp) hn2)
    have hp3 := mod_double (hplaced a3 n3 (by simp) hn3)
    simp only [List.nodup_cons, List.mem_cons, not_or] at hnd
    have h12 : n1.hash % (2 * d.capacity) ≠ n2.hash % (2 * d.capacity) := by
      intro h
      rw [h, hs2] at hs1
      exact hnd.1.1 (Option.some.inj (Option.some.inj hs1)).symm
    have h13 : n1.hash % (2 * d.capacity) ≠ n3.hash % (2 * d.capacity) := by
      intro h
      rw [h, hs3] at hs1
      exact hnd.1.2.1 (Option.some.inj (Option.some.inj hs1)).symm
    have h23 : n2.hash % (2 * d.capacity) ≠ n3.hash % (2 * d.capacity) := by
      intro h
      rw [h, hs3] at hs2
      exact hnd.2.1.1 (Option.some.inj (Option.some.inj hs2)).symm
    omega

/-- Claim C4 at `threeNodeBucket`, whose bucket 1 holds the chain `2, 1, 0`:
the hypotheses hold there and `grow(8)` never returns. -/
theorem grow_diverges_on_three_node_chain_witness :
    WellFormed String.length threeNodeBucket ∧
      threeNodeBucket.table[1]? = some (some 2) ∧
      IsSeg threeNodeBucket.heap (some 2) [2, 1, 0] none ∧ 3 ≤ [2, 1, 0].length ∧
      Diverges (fun fuel => grow fuel threeNodeBucket (2 * threeNodeBucket.capacity)) :=
  ⟨threeNodeBucket_wellFormed, rfl, by simp [IsSeg, threeNodeBucket, readNode], by decide,
    grow_diverges_on_three_node_chain String.length threeNodeBucket 1 (some 2) [2, 1, 0]
      threeNodeBucket_wellFormed rfl (by simp [IsSeg, threeNodeBucket, readNode]) (by decide)⟩

/-- Claim C5. In a well-formed directory in which `get(k)` returns an entry,
`remove(k)` returns, after it `get(k)` returns absent, and `get_size()` is
exactly one less than before. -/
theorem remove_then_get_absent (hasher : String → Nat) (d : Directory) (k : String)
    (e : Entry) (hwf : WellFormed hasher d)
    (hpresent : Returns (fun fuel => get hasher fuel d k) (some e)) :
    ∃ d1, Returns (fun fuel => remove hasher fuel d k) d1 ∧
      Returns (fun fuel => get hasher fuel d1 k) none ∧
      get_size d1 = get_size d - 1 := by
  obtain ⟨chains, hwf⟩ := hwf
  have hidx := Nat.mod_lt (hasher k) hwf.capacity_pos
  obtain ⟨head, hhead, hseg⟩ := hwf.chain _ hidx
  have hlook := (get_wellFormed hwf k).unique hpresent
  obtain ⟨r1, a, r2, n, hchain, habs, ha, hk, _⟩ := lookupIn_first hseg.live hlook
  obtain ⟨d1, hrem, _, _, hsize, hget⟩ := remove_present_effect hwf hchain habs ha hk
  refine ⟨d1, hrem, ?_, hsize⟩
  have h := hget k
  rw [if_pos rfl] at h
  have hnone : lookupIn d.heap k (r1 ++ r2) = none := by
    apply lookupIn_absent
    · intro b hb
      apply hseg.live b
      rw [hchain]
      rcases List.mem_append.mp hb with hb | hb
      · exact List.mem_append_left _ hb
      · exact List.mem_append_right _ (List.mem_cons_of_mem _ hb)
    · intro b hb
      rcases List.mem_append.mp hb with hb | hb
      · exact habs b hb
      · exact absentIn_after hwf hchain ha hk b hb
  rw [hnone] at h
  exact h

/-- Claim C5 at `sampleDirectory` and the key `"abc"`, the middle node of a
chain of three. -/
theorem remove_then_get_absent_witness :
    WellFormed String.length sampleDirectory ∧
      Returns (fun fuel => get String.length fuel sampleDirectory "abc")
        (some ⟨"abc", "2"⟩) ∧
      ∃ d1, Returns (fun fuel => remove String.length fuel sampleDirectory "abc") d1 ∧
        Returns (fun fuel => get String.length fuel d1 "abc") none ∧
        get_size d1 = get_size sampleDirectory - 1 :=
  ⟨sampleDirectory_wellFormed, sampleDirectory_get_abc,
    remove_then_get_absent String.length sampleDirectory "abc" ⟨"abc", "2"⟩
      sampleDirectory_wellFormed sampleDirectory_get_abc⟩

/-- Claim C6. In a well-formed directory and for keys `k ≠ k1`, `remove(k)`
returns, `get(k1)` returns the same result after it as before (whether or not
`k` is present, wherever the node of `k` sits in its chain, and whether or not
`k1` shares that chain), and `capacity` and `threshold` are unchanged. -/
theorem remove_keeps_other_keys (hasher : String → Nat) (d : Directory) (k k1 : String)
    (hwf : WellFormed hasher d) (hne : k ≠ k1) :
    ∃ d1, Returns (fun fuel => remove hasher fuel d k) d1 ∧
      (∃ r, Returns (fun fuel => get hasher fuel d k1) r ∧
        Returns (fun fuel => get hasher fuel d1 k1) r) ∧
      d1.capacity = d.capacity ∧ d1.threshold = d.threshold := by
  obtain ⟨chains, hwf⟩ := hwf
  have hidx := Nat.mod_lt (hasher k) hwf.capacity_pos
  obtain ⟨head, hhead, hseg⟩ := hwf.chain _ hidx
  cases hlook : lookupIn d.heap k (chains.getD (hasher k % d.capacity) []) with
  | none =>
    have habs := lookupIn_none hseg.live hlook
    refine ⟨d, ⟨(chains.getD (hasher k % d.capacity) []).length, fun fuel hfuel => ?_⟩,
      ⟨_, get_wellFormed hwf k1, get_wellFormed hwf k1⟩, rfl, rfl⟩
    simp only [remove, hhead]
    exact removeLoop_absent hseg habs hfuel
  | some e =>
    obtain ⟨r1, a, r2, n, hchain, habs, ha, hk, _⟩ := lookupIn_first hseg.live hlook
    obtain ⟨d1, hrem, hcap, hthr, _, hget⟩ := remove_present_effect hwf hchain habs ha hk
    refine ⟨d1, hrem, ⟨_, get_wellFormed hwf k1, ?_⟩, hcap, hthr⟩
    have h := hget k1
    by_cases hji : hasher k1 % d.capacity = hasher k % d.capacity
    · rw [if_pos hji] at h
      rw [hji, hchain, lookupIn_drop ha (by rw [hk]; exact hne)]
      exact h
    · rw [if_neg hji] at h
      exact h

/-- Claim C6 at `sampleDirectory`: removing `"abc"`, the middle node of the
chain of bucket 1, leaves `get("a")`, the tail of the same chain, as it was. -/
theorem remove_keeps_other_keys_witness :
    WellFormed String.length sampleDirectory ∧ "abc" ≠ "a" ∧
      ∃ d1, Returns (fun fuel => remove String.length fuel sampleDirectory "abc") d1 ∧
        (∃ r, Returns (fun fuel => get String.length fuel sampleDirectory "a") r ∧
          Returns (fun fuel => get String.length fuel d1 "a") r) ∧
        d1.capacity = sampleDirectory.capacity ∧ d1.threshold = sampleDirectory.threshold :=
  ⟨sampleDirectory_wellFormed, by decide,
    remove_keeps_other_keys String.length sampleDirectory "abc" "a"
      sampleDirectory_wellFormed (by decide)⟩

/-- Claim C7. First part: in a well-formed directory in which `get` finds the
name of `value`, `insert(value)` returns and leaves `get_size()`, `capacity`
and `threshold` unchanged, whatever `size` and `threshold` are; `get(k1)` is
unchanged for every other key `k1`, and `get` of the name returns `value`.
Second part: in a directory constructed with a positive capacity, inserting two
entries of the same name leaves `get_size() = 1` and `get` of the name returns
the second entry. -/
theorem insert_existing_updates (hasher : String → Nat) :
    (∀ (d : Directory) (value e : Entry), WellFormed hasher d →
      Returns (fun fuel => get hasher fuel d value.name) (some e) →
      ∃ d1, Returns (fun fuel => insert hasher fuel d value) d1 ∧
        get_size d1 = get_size d ∧ d1.capacity = d.capacity ∧ d1.threshold = d.threshold ∧
        (∀ k1, k1 ≠ value.name →
          ∃ r, Returns (fun fuel => get hasher fuel d k1) r ∧
            Returns (fun fuel => get hasher fuel d1 k1) r) ∧
        Returns (fun fuel => get hasher fuel d1 value.name) (some value)) ∧
    (∀ (capacity : Nat) (loadFactor : LoadFactor) (v1 v2 : Entry), 0 < capacity →
      v1.name = v2.name →
      ∃ d1 d2, Returns (fun fuel =>
          insert hasher fuel (Directory.create capacity loadFactor) v1) d1 ∧
        Returns (fun fuel => insert hasher fuel d1 v2) d2 ∧
        get_size d2 = 1 ∧
        Returns (fun fuel => get hasher fuel d2 v2.name) (some v2)) := by
  constructor
  · intro d value e hwf hpresent
    obtain ⟨chains, hwf⟩ := hwf
    obtain ⟨head, hhead, hseg⟩ := hwf.chain _ (Nat.mod_lt (hasher value.name) hwf.capacity_pos)
    have hlook := (get_wellFormed hwf value.name).unique hpresent
    obtain ⟨r1, a, r2, n, hchain, habs, ha, hk, _⟩ := lookupIn_first hseg.live hlook
    obtain ⟨hins, hothers, hself⟩ := insert_existing_effect hwf hchain habs ha hk
    exact ⟨_, hins, rfl, rfl, rfl,
      fun k1 hk1 => ⟨_, get_wellFormed hwf k1, hothers k1 hk1⟩, hself⟩
  · intro capacity loadFactor v1 v2 hcap hname
    obtain ⟨d1, hd1, hheap, htable, hsize⟩ := insert_create hasher loadFactor v1 hcap
    rw [hname] at hheap htable
    have hread : readNode d1.heap 0 = some ⟨v2.name, v1, hasher v2.name, none⟩ := by
      rw [hheap]; rfl
    refine ⟨d1, { d1 with heap := d1.heap.set 0 (some ⟨v2.name, v2, hasher v2.name, none⟩) },
      hd1, ⟨1, fun fuel hfuel => ?_⟩, hsize, ⟨1, fun fuel hfuel => ?_⟩⟩
    · obtain ⟨fuel, rfl⟩ : ∃ k, fuel = k + 1 := ⟨fuel - 1, by omega⟩
      simp only [insert, htable, insertLoop, hread, if_true]
    · obtain ⟨fuel, rfl⟩ : ∃ k, fuel = k + 1 := ⟨fuel - 1, by omega⟩
      simp only [get, htable, getLoop, readNode_set_eq _ (readNode_lt hread), if_true]

/-- Claim C7 at `sampleDirectory` with a new phone number for `"abc"`, and at
`Directory(8)` with two entries named `"John Snow"`. -/
theorem insert_existing_updates_witness :
    (∃ d1, Returns (fun fuel => insert String.length fuel sampleDirectory ⟨"abc", "9"⟩) d1 ∧
        get_size d1 = get_size sampleDirectory ∧ d1.capacity = sampleDirectory.capacity ∧
        d1.threshold = sampleDirectory.threshold ∧
        (∀ k1, k1 ≠ "abc" →
          ∃ r, Returns (fun fuel => get String.length fuel sampleDirectory k1) r ∧
            Returns (fun fuel => get String.length fuel d1 k1) r) ∧
        Returns (fun fuel => get String.length fuel d1 "abc") (some ⟨"abc", "9"⟩)) ∧
      ∃ d1 d2, Returns (fun fuel => insert String.length fuel
            (Directory.create 8 defaultLoadFactor) ⟨"John Snow", "+485327095"⟩) d1 ∧
        Returns (fun fuel => insert String.length fuel d1 ⟨"John Snow", "+1"⟩) d2 ∧
        get_size d2 = 1 ∧
        Returns (fun fuel => get String.length fuel d2 "John Snow")
          (some ⟨"John Snow", "+1"⟩) :=
  ⟨(insert_existing_updates String.length).1 sampleDirectory ⟨"abc", "9"⟩ ⟨"abc", "2"⟩
      sampleDirectory_wellFormed sampleDirectory_get_abc,
    (insert_existing_updates String.length).2 8 defaultLoadFactor
      ⟨"John Snow", "+485327095"⟩ ⟨"John Snow", "+1"⟩ (by decide) rfl⟩

/-- Claim C8, evaluated where it fails. With the string length as hash,
`Directory(4)` takes `insert` of `""`, `"abcd"` and `"a"`; the third call
resizes to capacity 8, and `display()` then prints the entry of `""` twice:
once from its own bucket 0 and once as the successor of `"abcd"` in bucket
4. -/
theorem display_prints_shared_node_twice :
    ∃ d, Returns (fun fuel => insertAll String.length fuel
          (Directory.create 4 defaultLoadFactor)
          [⟨"", "0"⟩, ⟨"abcd", "4"⟩, ⟨"a", "1"⟩]) d ∧
      Returns (fun fuel => display fuel d)
        [⟨"", "0"⟩, ⟨"a", "1"⟩, ⟨"abcd", "4"⟩, ⟨"", "0"⟩] := by
  have h0 : "".length = 0 := rfl
  have h4 : "abcd".length = 4 := rfl
  have h1 : "a".length = 1 := rfl
  refine ⟨{ heap := [some ⟨"", ⟨"", "0"⟩, 0, none⟩, some ⟨"abcd", ⟨"abcd", "4"⟩, 4, some 0⟩,
                    some ⟨"a", ⟨"a", "1"⟩, 1, none⟩]
            table := [some 0, some 2, none, none, some 1, none, none, none]
            capacity := 8, size := 3, threshold := 6, loadFactor := ⟨3, 4⟩ },
    ⟨2, fun fuel hfuel => ?_⟩, ⟨2, fun fuel hfuel => ?_⟩⟩
  · obtain ⟨k, rfl⟩ := Nat.exists_eq_add_of_le hfuel
    simp [h0, h4, h1, insertAll, insert, Directory.create, insertLoop, readNode,
      calculate_threshold, defaultLoadFactor, Nat.add_comm 2 k, grow, growBuckets, growChain]
  · obtain ⟨k, rfl⟩ := Nat.exists_eq_add_of_le hfuel
    simp [display, displayBuckets, displayChain, readNode, Nat.add_comm 2 k]

/-- Claim C9, evaluated where it fails. `oneNodeDirectory` is well formed, the
key `"abcdefgh"` is not present, and the new size 2 reaches the threshold 2;
the call `insert` of that key never returns, so `capacity` never becomes
`2 * 4`: the new node and the old one meet in slot 0 of the new table. -/
theorem insert_new_key_diverges_at_threshold :
    WellFormed String.length oneNodeDirectory ∧
      Returns (fun fuel => get String.length fuel oneNodeDirectory "abcdefgh") none ∧
      get_size oneNodeDirectory + 1 ≥ oneNodeDirectory.threshold ∧
      Diverges (fun fuel =>
        insert String.length fuel oneNodeDirectory ⟨"abcdefgh", "8"⟩) := by
  have h8 : "abcdefgh".length = 8 := rfl
  refine ⟨oneNodeDirectory_wellFormed, ⟨1, fun fuel hfuel => ?_⟩, by decide, fun fuel => ?_⟩
  · obtain ⟨k, rfl⟩ := Nat.exists_eq_add_of_le hfuel
    simp [h8, get, getLoop, oneNodeDirectory, readNode, Nat.add_comm 1 k]
  · apply insert_timeout_of_grow (some 0)
    · rfl
    · rcases fuel with _ | fuel <;> simp [insertLoop, readNode, oneNodeDirectory]
    · decide
    · have hchain : growChain 8 fuel
          [some ⟨"", ⟨"", "0"⟩, 0, none⟩, some ⟨"abcdefgh", ⟨"abcdefgh", "8"⟩, 8, some 0⟩]
          (List.replicate 8 none) (some 1) = .timeout := by
        refine growChain_timeout_of_step (n := ⟨"abcdefgh", ⟨"abcdefgh", "8"⟩, 8, some 0⟩)
          (by rfl) (by rfl) ?_ fuel
        intro fuel
        exact growChain_pingpong 8 fuel _ _ 0 1 ⟨"", ⟨"", "0"⟩, 0, none⟩
          ⟨"abcdefgh", ⟨"abcdefgh", "8"⟩, 8, some 0⟩ (by rfl) (by rfl) (by decide) (by rfl)
          (by rfl)
      have hbuckets := @growBuckets_timeout_head fuel 8 [some 1, none, none, none] 3 0 _ _
        (some 1) (by rfl) hchain
      exact grow_timeout_of_buckets hbuckets

/-- Claim C10, evaluated where it fails. `Directory(8)` has threshold 6. With
the string length as hash and the six names `"a"` to `"f"`, the first five
calls of `insert` return with capacity 8 and size 5, and the sixth, which
triggers the resize, never returns: all six nodes go to slot 1 of the new
table. -/
theorem scenario_sixth_insert_diverges :
    (Directory.create 8 defaultLoadFactor).threshold = 6 ∧
      ∃ d5, Returns (fun fuel => insertAll String.length fuel
            (Directory.create 8 defaultLoadFactor)
            [⟨"a", "1"⟩, ⟨"b", "2"⟩, ⟨"c", "3"⟩, ⟨"d", "4"⟩, ⟨"e", "5"⟩]) d5 ∧
        d5.capacity = 8 ∧ get_size d5 = 5 ∧
        Diverges (fun fuel => insert String.length fuel d5 ⟨"f", "6"⟩) := by
  have ha : "a".length = 1 := rfl
  have hb : "b".length = 1 := rfl
  have hc : "c".length = 1 := rfl
  have hd : "d".length = 1 := rfl
  have he : "e".length = 1 := rfl
  have hf : "f".length = 1 := rfl
  refine ⟨by decide,
    { heap := [some ⟨"a", ⟨"a", "1"⟩, 1, none⟩, some ⟨"b", ⟨"b", "2"⟩, 1, some 0⟩,
        some ⟨"c", ⟨"c", "3"⟩, 1, some 1⟩, some ⟨"d", ⟨"d", "4"⟩, 1, some 2⟩,
        some ⟨"e", ⟨"e", "5"⟩, 1, some 3⟩]
      table := [none, some 4, none, none, none, none, none, none]
      capacity := 8, size := 5, threshold := 6, loadFactor := ⟨3, 4⟩ },
    ⟨4, fun fuel hfuel => ?_⟩, rfl, rfl, fun fuel => ?_⟩
  · obtain ⟨k, rfl⟩ := Nat.exists_eq_add_of_le hfuel
    simp [ha, hb, hc, hd, he, insertAll, insert, Directory.create, insertLoop, readNode,
      calculate_threshold, defaultLoadFactor, Nat.add_comm 4 k]
  · apply insert_timeout_of_grow (some 4)
    · rfl
    · rcases fuel with _ | _ | _ | _ | _ | fuel <;> simp [insertLoop, readNode]
    · decide
    · have hchain : growChain 16 fuel
          [some ⟨"a", ⟨"a", "1"⟩, 1, none⟩, some ⟨"b", ⟨"b", "2"⟩, 1, some 0⟩,
            some ⟨"c", ⟨"c", "3"⟩, 1, some 1⟩, some ⟨"d", ⟨"d", "4"⟩, 1, some 2⟩,
            some ⟨"e", ⟨"e", "5"⟩, 1, some 3⟩, some ⟨"f", ⟨"f", "6"⟩, 1, some 4⟩]
          (List.replicate 16 none) (some 5) = .timeout := by
        refine growChain_timeout_of_step (n := ⟨"f", ⟨"f", "6"⟩, 1, some 4⟩)
          (by rfl) (by rfl) ?_ fuel
        intro fuel
        exact growChain_pingpong 16 fuel _ _ 4 5 ⟨"e", ⟨"e", "5"⟩, 1, some 3⟩
          ⟨"f", ⟨"f", "6"⟩, 1, some 4⟩ (by rfl) (by rfl) (by decide) (by rfl) (by rfl)
      have hbuckets := @growBuckets_timeout_head fuel 16
        [none, some 5, none, none, none, none, none, none] 6 1 _ _ (some 5) (by rfl) hchain
      apply grow_timeout_of_buckets
      show growBuckets fuel 16 [none, some 5, none, none, none, none, none, none] (1 + 7) 0
        _ (List.replicate 16 none) = Run.timeout
      rw [growBuckets_skip 1 0 (fun j h1 h2 => by
        have : j = 0 := by omega
        subst this
        rfl) 7]
      exact hbuckets

/-! ## What a call that returned has done -/

theorem insert_eq_insertTraced (hasher : String → Nat) (fuel : Nat) (d : Directory)
    (value : Entry) :
    insert hasher fuel d value =
      match insertTraced hasher fuel d value with
      | .ok (d1, _) => .ok d1
      | .fault => .fault
      | .timeout => .timeout := by
  unfold insert insertTraced
  cases d.table[hasher value.name % d.capacity]? with
  | none => rfl
  | some head =>
    simp only
    cases insertLoop value fuel d.heap head with
    | fault => rfl
    | timeout => rfl
    | ok r =>
      cases r with
      | some heap1 => rfl
      | none =>
        simp only
        split
        · cases grow fuel _ _ <;> rfl
        · rfl

theorem insert_of_insertTraced {hasher : String → Nat} {fuel : Nat} {d d1 : Directory}
    {value : Entry} {k : Nat} (h : insertTraced hasher fuel d value = .ok (d1, k)) :
    insert hasher fuel d value = .ok d1 := by
  rw [insert_eq_insertTraced, h]

theorem insertTraced_of_insert {hasher : String → Nat} {fuel : Nat} {d d1 : Directory}
    {value : Entry} (h : insert hasher fuel d value = .ok d1) :
    ∃ k, insertTraced hasher fuel d value = .ok (d1, k) := by
  rw [insert_eq_insertTraced] at h
  cases ht : insertTraced hasher fuel d value with
  | fault => rw [ht] at h; cases h
  | timeout => rw [ht] at h; cases h
  | ok r =>
    obtain ⟨d2, k⟩ := r
    rw [ht] at h
    cases h
    exact ⟨k, rfl⟩

theorem insertLoop_inv {value : Entry} {heap : Heap} :
    ∀ {fuel : Nat} {p : Option Nat} {r : Option Heap},
      insertLoop value fuel heap p = .ok r →
      (r = none ∧ ∃ as, IsSeg heap p as none ∧ AbsentIn heap value.name as) ∨
      ∃ r1 a n, IsSeg heap p r1 (some a) ∧ AbsentIn heap value.name r1 ∧
        readNode heap a = some n ∧ n.key = value.name ∧
        r = some (heap.set a (some { n with value := value })) := by
  intro fuel
  induction fuel with
  | zero =>
    intro p r h
    cases p with
    | none =>
      simp only [insertLoop] at h
      cases h
      exact Or.inl ⟨rfl, [], rfl, fun _ ha => by cases ha⟩
    | some a => simp [insertLoop] at h
  | succ fuel ih =>
    intro p r h
    cases p with
    | none =>
      simp only [insertLoop] at h
      cases h
      exact Or.inl ⟨rfl, [], rfl, fun _ ha => by cases ha⟩
    | some a =>
      simp only [insertLoop] at h
      cases hn : readNode heap a with
      | none => rw [hn] at h; cases h
      | some n =>
        rw [hn] at h
        simp only at h
        by_cases hk : n.key = value.name
        · rw [if_pos hk] at h
          cases h
          exact Or.inr ⟨[], a, n, rfl, (fun _ hb => by cases hb), hn, hk, rfl⟩
        · rw [if_neg hk] at h
          have habs : ∀ as, AbsentIn heap value.name as → AbsentIn heap value.name (a :: as) := by
            intro as has b hb nb hnb
            rcases List.mem_cons.mp hb with rfl | hb
            · rw [hn] at hnb; cases hnb; exact hk
            · exact has b hb nb hnb
          rcases ih h with ⟨hr, as, hseg, has⟩ | ⟨r1, b, m, hseg, has, hm, hmk, hr⟩
          · exact Or.inl ⟨hr, a :: as, ⟨rfl, n, hn, hseg⟩, habs as has⟩
          · exact Or.inr ⟨a :: r1, b, m, ⟨rfl, n, hn, hseg⟩, habs r1 has, hm, hmk, hr⟩

theorem removeLoop_inv {key : String} {d : Directory} {index : Nat} :
    ∀ {fuel : Nat} {p prev : Option Nat} {d1 : Directory},
      removeLoop key d index fuel p prev = .ok d1 →
      (d1 = d ∧ ∃ as, IsSeg d.heap p as none ∧ AbsentIn d.heap key as) ∨
      ∃ r1 a n, IsSeg d.heap p r1 (some a) ∧ AbsentIn d.heap key r1 ∧
        readNode d.heap a = some n ∧ n.key = key ∧
        unlink d index (prevAfter prev r1) a n = .ok d1 := by
  intro fuel
  induction fuel with
  | zero =>
    intro p prev d1 h
    cases p with
    | none =>
      simp only [removeLoop] at h
      cases h
      exact Or.inl ⟨rfl, [], rfl, fun _ ha => by cases ha⟩
    | some a => simp [removeLoop] at h
  | succ fuel ih =>
    intro p prev d1 h
    cases p with
    | none =>
      simp only [removeLoop] at h
      cases h
      exact Or.inl ⟨rfl, [], rfl, fun _ ha => by cases ha⟩
    | some a =>
      simp only [removeLoop] at h
      cases hn : readNode d.heap a with
      | none => rw [hn] at h; cases h
      | some n =>
        rw [hn] at h
        simp only at h
        by_cases hk : n.key = key
        · rw [if_pos hk] at h
          exact Or.inr ⟨[], a, n, rfl, (fun _ hb => by cases hb), hn, hk, h⟩
        · rw [if_neg hk] at h
          have habs : ∀ as, AbsentIn d.heap key as → AbsentIn d.heap key (a :: as) := by
            intro as has b hb nb hnb
            rcases List.mem_cons.mp hb with rfl | hb
            · rw [hn] at hnb; cases hnb; exact hk
            · exact has b hb nb hnb
          rcases ih h with ⟨hr, as, hseg, has⟩ | ⟨r1, b, m, hseg, has, hm, hmk, hr⟩
          · exact Or.inl ⟨hr, a :: as, ⟨rfl, n, hn, hseg⟩, habs as has⟩
          · exact Or.inr ⟨a :: r1, b, m, ⟨rfl, n, hn, hseg⟩, habs r1 has, hm, hmk, hr⟩

theorem insertTraced_inv {hasher : String → Nat} {fuel : Nat} {d d1 : Directory}
    {value : Entry} {k : Nat} (h : insertTraced hasher fuel d value = .ok (d1, k)) :
    ∃ head, d.table[hasher value.name % d.capacity]? = some head ∧
      ((∃ heap1, insertLoop value fuel d.heap head = .ok (some heap1) ∧
          d1 = { d with heap := heap1 } ∧ k = 0) ∨
        (insertLoop value fuel d.heap head = .ok none ∧ ¬ d.size + 1 ≥ d.threshold ∧
          d1 = pushed hasher d value head ∧ k = 0) ∨
        (insertLoop value fuel d.heap head = .ok none ∧ d.size + 1 ≥ d.threshold ∧
          grow fuel (pushed hasher d value head) (d.capacity * 2) = .ok d1 ∧ k = 1)) := by
  unfold insertTraced at h
  cases hhead : d.table[hasher value.name % d.capacity]? with
  | none => rw [hhead] at h; cases h
  | some head =>
    rw [hhead] at h
    simp only at h
    refine ⟨head, rfl, ?_⟩
    cases hloop : insertLoop value fuel d.heap head with
    | fault => rw [hloop] at h; cases h
    | timeout => rw [hloop] at h; cases h
    | ok r =>
      rw [hloop] at h
      cases r with
      | some heap1 =>
        simp only at h
        cases h
        exact Or.inl ⟨heap1, rfl, rfl, rfl⟩
      | none =>
        simp only at h
        by_cases hsize : d.size + 1 ≥ d.threshold
        · rw [if_pos hsize] at h
          cases hgrow : grow fuel (pushed hasher d value head) (d.capacity * 2) with
          | fault => simp only [pushed] at hgrow; rw [hgrow] at h; cases h
          | timeout => simp only [pushed] at hgrow; rw [hgrow] at h; cases h
          | ok d2 =>
            simp only [pushed] at hgrow
            rw [hgrow] at h
            cases h
            exact Or.inr (Or.inr ⟨rfl, hsize, rfl, rfl⟩)
        · rw [if_neg hsize] at h
          cases h
          exact Or.inr (Or.inl ⟨rfl, hsize, rfl, rfl⟩)

theorem remove_inv {hasher : String → Nat} {fuel : Nat} {d d1 : Directory} {key : String}
    (h : remove hasher fuel d key = .ok d1) :
    ∃ head, d.table[hasher key % d.capacity]? = some head ∧
      ((d1 = d ∧ ∃ as, IsSeg d.heap head as none ∧ AbsentIn d.heap key as) ∨
        ∃ r1 a n, IsSeg d.heap head r1 (some a) ∧ AbsentIn d.heap key r1 ∧
          readNode d.heap a = some n ∧ n.key = key ∧
          unlink d (hasher key % d.capacity) (prevAfter none r1) a n = .ok d1) := by
  unfold remove at h
  cases hhead : d.table[hasher key % d.capacity]? with
  | none => rw [hhead] at h; cases h
  | some head =>
    rw [hhead] at h
    exact ⟨head, rfl, removeLoop_inv h⟩

theorem fieldsAt_set_ne {heap : Heap} {p q : Nat} (c : Option DirectoryNode) (h : p ≠ q) :
    fieldsAt (heap.set p c) q = fieldsAt heap q := by
  unfold fieldsAt
  rw [readNode_set_ne c h]

theorem fieldsAt_set_next {heap : Heap} {p : Nat} {n : DirectoryNode}
    (hn : readNode heap p = some n) (next : Option Nat) (q : Nat) :
    fieldsAt (heap.set p (some { n with next := next })) q = fieldsAt heap q := by
  by_cases hpq : p = q
  · subst hpq
    unfold fieldsAt
    rw [readNode_set_eq _ (readNode_lt hn), hn]
    rfl
  · exact fieldsAt_set_ne _ hpq

theorem cachedFields_of_fieldsAt {hasher : String → Nat} {heap heap1 : Heap}
    (h : ∀ a, fieldsAt heap1 a = fieldsAt heap a ∨ readNode heap1 a = none)
    (hc : CachedFields hasher heap) : CachedFields hasher heap1 := by
  intro a n1 hn1
  rcases h a with hf | hnone
  · unfold fieldsAt at hf
    rw [hn1] at hf
    cases hn : readNode heap a with
    | none => rw [hn] at hf; cases hf
    | some n =>
      rw [hn] at hf
      simp only [Option.map_some', Option.some.injEq, Prod.mk.injEq] at hf
      obtain ⟨h1, h2, h3⟩ := hf
      have := hc a n hn
      rw [h1, h2, h3]
      exact this
  · rw [hnone] at hn1
    cases hn1

theorem growChain_fields {new_capacity : Nat} :
    ∀ {fuel : Nat} {heap heap1 : Heap} {nt nt1 : List (Option Nat)} {p : Option Nat},
      growChain new_capacity fuel heap nt p = .ok (heap1, nt1) →
      (∀ a, fieldsAt heap1 a = fieldsAt heap a) ∧ nt1.length = nt.length := by
  intro fuel
  induction fuel with
  | zero =>
    intro heap heap1 nt nt1 p h
    cases p with
    | none =>
      simp only [growChain] at h
      cases h
      exact ⟨fun _ => rfl, rfl⟩
    | some a => simp [growChain] at h
  | succ fuel ih =>
    intro heap heap1 nt nt1 p h
    cases p with
    | none =>
      simp only [growChain] at h
      cases h
      exact ⟨fun _ => rfl, rfl⟩
    | some a =>
      simp only [growChain] at h
      cases hn : readNode heap a with
      | none => rw [hn] at h; cases h
      | some n =>
        rw [hn] at h
        simp only at h
        cases hslot : nt[n.hash % new_capacity]? with
        | none => rw [hslot] at h; cases h
        | some slot =>
          rw [hslot] at h
          cases slot with
          | some q =>
            simp only at h
            obtain ⟨h1, h2⟩ := ih h
            refine ⟨fun b => ?_, by rw [h2, List.length_set]⟩
            rw [h1 b, fieldsAt_set_next hn]
          | none =>
            simp only at h
            obtain ⟨h1, h2⟩ := ih h
            exact ⟨h1, by rw [h2, List.length_set]⟩

theorem growBuckets_fields {fuel new_capacity : Nat} {table : List (Option Nat)} :
    ∀ {count i : Nat} {heap heap1 : Heap} {nt nt1 : List (Option Nat)},
      growBuckets fuel new_capacity table count i heap nt = .ok (heap1, nt1) →
      (∀ a, fieldsAt heap1 a = fieldsAt heap a) ∧ nt1.length = nt.length := by
  intro count
  induction count with
  | zero =>
    intro i heap heap1 nt nt1 h
    simp only [growBuckets] at h
    cases h
    exact ⟨fun _ => rfl, rfl⟩
  | succ count ih =>
    intro i heap heap1 nt nt1 h
    simp only [growBuckets] at h
    cases hi : table[i]? with
    | none => rw [hi] at h; cases h
    | some node =>
      rw [hi] at h
      simp only at h
      cases hc : growChain new_capacity fuel heap nt node with
      | fault => rw [hc] at h; cases h
      | timeout => rw [hc] at h; cases h
      | ok r =>
        obtain ⟨heap2, nt2⟩ := r
        rw [hc] at h
        simp only at h
        obtain ⟨h1, h2⟩ := growChain_fields hc
        obtain ⟨h3, h4⟩ := ih h
        exact ⟨fun a => by rw [h3 a, h1 a], by rw [h4, h2]⟩

theorem grow_inv {fuel new_capacity : Nat} {d d1 : Directory}
    (h : grow fuel d new_capacity = .ok d1) :
    ∃ heap1 nt1, growBuckets fuel new_capacity d.table d.capacity 0 d.heap
        (List.replicate new_capacity none) = .ok (heap1, nt1) ∧
      d1 = { d with
        heap := heap1
        table := nt1
        capacity := new_capacity
        threshold := calculate_threshold new_capacity d.loadFactor } := by
  unfold grow at h
  cases hb : growBuckets fuel new_capacity d.table d.capacity 0 d.heap
      (List.replicate new_capacity none) with
  | fault => rw [hb] at h; cases h
  | timeout => rw [hb] at h; cases h
  | ok r =>
    obtain ⟨heap1, nt1⟩ := r
    rw [hb] at h
    cases h
    exact ⟨heap1, nt1, rfl, rfl⟩

theorem grow_basic {fuel new_capacity : Nat} {d d1 : Directory}
    (h : grow fuel d new_capacity = .ok d1) :
    d1.capacity = new_capacity ∧ d1.loadFactor = d.loadFactor ∧ d1.size = d.size ∧
      d1.threshold = calculate_threshold new_capacity d.loadFactor ∧
      d1.table.length = new_capacity ∧ ∀ a, fieldsAt d1.heap a = fieldsAt d.heap a := by
  obtain ⟨heap1, nt1, hb, rfl⟩ := grow_inv h
  obtain ⟨h1, h2⟩ := growBuckets_fields hb
  exact ⟨rfl, rfl, rfl, rfl, by simpa using h2, h1⟩

theorem unlink_basic {d d1 : Directory} {index a : Nat} {prev : Option Nat}
    {n : DirectoryNode} (h : unlink d index prev a n = .ok d1) :
    d1.capacity = d.capacity ∧ d1.loadFactor = d.loadFactor ∧ d1.size = d.size - 1 ∧
      d1.threshold = d.threshold ∧ d1.table.length = d.table.length ∧
      ∀ b, b ≠ a → fieldsAt d1.heap b = fieldsAt d.heap b := by
  unfold unlink at h
  cases prev with
  | none =>
    simp only at h
    cases h
    exact ⟨rfl, rfl, rfl, rfl, by simp, fun b hb => fieldsAt_set_ne _ (Ne.symm hb)⟩
  | some q =>
    simp only at h
    cases hq : readNode d.heap q with
    | none => rw [hq] at h; cases h
    | some m =>
      rw [hq] at h
      cases h
      refine ⟨rfl, rfl, rfl, rfl, rfl, fun b hb => ?_⟩
      show fieldsAt ((d.heap.set q _).set a none) b = _
      rw [fieldsAt_set_ne _ (Ne.symm hb), fieldsAt_set_next hq]

theorem remove_basic {hasher : String → Nat} {fuel : Nat} {d d1 : Directory} {key : String}
    (h : remove hasher fuel d key = .ok d1) :
    d1.capacity = d.capacity ∧ d1.loadFactor = d.loadFactor ∧
      (d1.size = d.size ∨ d1.size = d.size - 1) ∧ d1.threshold = d.threshold ∧
      d1.table.length = d.table.length ∧
      ∀ b, fieldsAt d1.heap b = fieldsAt d.heap b ∨ readNode d1.heap b = none := by
  obtain ⟨head, _, hcase⟩ := remove_inv h
  rcases hcase with ⟨rfl, _⟩ | ⟨r1, a, n, _, _, ha, _, hun⟩
  · exact ⟨rfl, rfl, Or.inl rfl, rfl, rfl, fun _ => Or.inl rfl⟩
  · obtain ⟨h1, h2, h3, h4, h5, h6⟩ := unlink_basic hun
    refine ⟨h1, h2, Or.inr h3, h4, h5, fun b => ?_⟩
    by_cases hb : b = a
    · subst hb
      right
      unfold unlink at hun
      cases hprev : prevAfter none r1 with
      | none =>
        rw [hprev] at hun
        cases hun
        exact readNode_set_eq none (readNode_lt ha)
      | some q =>
        rw [hprev] at hun
        simp only at hun
        cases hq : readNode d.heap q with
        | none => rw [hq] at hun; cases hun
        | some m =>
          rw [hq] at hun
          cases hun
          exact readNode_set_eq none (by rw [List.length_set]; exact readNode_lt ha)
    · exact Or.inl (h6 b hb)

theorem readNode_append_lt {heap : Heap} {a : Nat} (c : Option DirectoryNode)
    (h : a < heap.length) : readNode (heap ++ [c]) a = readNode heap a := by
  unfold readNode
  rw [List.getElem?_append_left h]

theorem readNode_append_gt {heap : Heap} {a : Nat} (c : Option DirectoryNode)
    (h : heap.length < a) : readNode (heap ++ [c]) a = none := by
  unfold readNode
  rw [List.getElem?_eq_none (by simp; omega)]

theorem cachedFields_push {hasher : String → Nat} {heap : Heap} (value : Entry)
    (head : Option Nat) (hc : CachedFields hasher heap) :
    CachedFields hasher (heap ++ [some
      { key := value.name, value := value, hash := hasher value.name, next := head }]) := by
  intro a n hn
  rcases Nat.lt_trichotomy a heap.length with hlt | heq | hgt
  · rw [readNode_append_lt _ hlt] at hn
    exact hc a n hn
  · subst heq
    rw [readNode_append_length] at hn
    cases hn
    exact ⟨rfl, rfl⟩
  · rw [readNode_append_gt _ hgt] at hn
    cases hn

theorem cachedFields_update {hasher : String → Nat} {heap : Heap} {a : Nat}
    {n : DirectoryNode} {value : Entry} (hn : readNode heap a = some n)
    (hk : n.key = value.name) (hc : CachedFields hasher heap) :
    CachedFields hasher (heap.set a (some { n with value := value })) := by
  intro b m hm
  by_cases hab : a = b
  · subst hab
    rw [readNode_set_eq _ (readNode_lt hn)] at hm
    cases hm
    exact ⟨(hc a n hn).1, hk⟩
  · rw [readNode_set_ne _ hab] at hm
    exact hc b m hm

theorem insertTraced_basic {hasher : String → Nat} {fuel : Nat} {d d1 : Directory}
    {value : Entry} {k : Nat} (h : insertTraced hasher fuel d value = .ok (d1, k)) :
    d1.loadFactor = d.loadFactor ∧ d1.capacity = d.capacity * 2 ^ k ∧
      ((k = 0 ∧ d1.threshold = d.threshold ∧ d1.table.length = d.table.length ∧
          (d1.size = d.size ∨ (d1.size = d.size + 1 ∧ d1.size < d.threshold))) ∨
        (k = 1 ∧ d1.threshold = calculate_threshold (d.capacity * 2) d.loadFactor ∧
          d1.table.length = d.capacity * 2 ∧ d1.size = d.size + 1 ∧
          d.threshold ≤ d1.size)) ∧
      (CachedFields hasher d.heap → CachedFields hasher d1.heap) := by
  obtain ⟨head, _, hcase⟩ := insertTraced_inv h
  rcases hcase with ⟨heap1, hloop, rfl, rfl⟩ | ⟨_, hsize, rfl, rfl⟩ | ⟨_, hsize, hgrow, rfl⟩
  · refine ⟨rfl, by simp, Or.inl ⟨rfl, rfl, rfl, Or.inl rfl⟩, fun hc => ?_⟩
    rcases insertLoop_inv hloop with ⟨hr, _⟩ | ⟨r1, a, n, _, _, hn, hk, hr⟩
    · cases hr
    · cases hr
      exact cachedFields_update hn hk hc
  · refine ⟨rfl, by simp [pushed], Or.inl ⟨rfl, rfl, by simp [pushed], Or.inr ⟨rfl, ?_⟩⟩,
      fun hc => cachedFields_push value head hc⟩
    show d.size + 1 < d.threshold
    omega
  · obtain ⟨h1, h2, h3, h4, h5, h6⟩ := grow_basic hgrow
    refine ⟨h2, by rw [h1]; simp, Or.inr ⟨rfl, h4, h5, h3, ?_⟩, fun hc => ?_⟩
    · rw [h3]
      exact hsize
    · exact cachedFields_of_fieldsAt (fun a => Or.inl (h6 a)) (cachedFields_push value head hc)

theorem reached_basic {hasher : String → Nat} {capacity0 : Nat} {loadFactor : LoadFactor}
    {g : Nat} {d : Directory} (h : Reached hasher capacity0 loadFactor g d) :
    d.loadFactor = loadFactor ∧ d.capacity = capacity0 * 2 ^ g ∧
      d.threshold = calculate_threshold d.capacity loadFactor ∧
      d.table.length = d.capacity ∧ CachedFields hasher d.heap := by
  induction h with
  | create =>
    refine ⟨rfl, by simp [Directory.create], rfl, by simp [Directory.create], ?_⟩
    intro a n hn
    simp [Directory.create, readNode] at hn
  | insert fuel value _ hstep ih =>
    obtain ⟨ih1, ih2, ih3, ih4, ih5⟩ := ih
    obtain ⟨h1, h2, h3, h4⟩ := insertTraced_basic hstep
    refine ⟨by rw [h1, ih1], by rw [h2, ih2, pow_add, Nat.mul_assoc], ?_, ?_, h4 ih5⟩
    · rcases h3 with ⟨rfl, hthr, _, _⟩ | ⟨rfl, hthr, _, _⟩
      · rw [hthr, ih3, h2]; simp
      · rw [hthr, h2, ih1]; simp
    · rcases h3 with ⟨rfl, _, hlen, _⟩ | ⟨rfl, _, hlen, _⟩
      · rw [hlen, ih4, h2]; simp
      · rw [hlen, h2]; simp
  | remove fuel key _ hstep ih =>
    obtain ⟨ih1, ih2, ih3, ih4, ih5⟩ := ih
    obtain ⟨h1, h2, _, h4, h5, h6⟩ := remove_basic hstep
    exact ⟨by rw [h2, ih1], by rw [h1, ih2], by rw [h4, h1, ih3], by rw [h5, h1, ih4],
      cachedFields_of_fieldsAt h6 ih5⟩

theorem default_threshold_lt_double {capacity : Nat} (h : 2 ≤ capacity) :
    calculate_threshold capacity defaultLoadFactor <
      calculate_threshold (capacity * 2) defaultLoadFactor := by
  unfold calculate_threshold defaultLoadFactor
  simp only
  have : capacity * 3 / 4 < capacity * 2 * 3 / 4 := by omega
  exact_mod_cast this

theorem reached_size_lt_threshold {hasher : String → Nat} {capacity0 g : Nat}
    {d : Directory} (hcap : 2 ≤ capacity0)
    (h : Reached hasher capacity0 defaultLoadFactor g d) : d.size < d.threshold := by
  induction h with
  | create =>
    show (0 : Int) < calculate_threshold capacity0 defaultLoadFactor
    unfold calculate_threshold defaultLoadFactor
    simp only
    have : 0 < capacity0 * 3 / 4 := by omega
    exact_mod_cast this
  | @insert g0 d0 fuel value d1 k hd hstep ih =>
    obtain ⟨hlf, hc, hthr, _, _⟩ := reached_basic hd
    obtain ⟨_, _, h3, _⟩ := insertTraced_basic hstep
    rcases h3 with ⟨_, hthr1, _, hsize⟩ | ⟨_, hthr1, _, hsize, _⟩
    · rcases hsize with hs | ⟨_, hs⟩
      · rw [hs, hthr1]; exact ih
      · rw [hthr1]; exact hs
    · have hcap2 : 2 ≤ capacity0 * 2 ^ g0 := le_trans hcap (Nat.le_mul_of_pos_right _ (by positivity))
      rw [← hc] at hcap2
      have := default_threshold_lt_double hcap2
      rw [hthr1, hsize, hlf]
      rw [hthr] at ih
      omega
  | remove fuel key hd hstep ih =>
    obtain ⟨_, _, hsize, hthr, _, _⟩ := remove_basic hstep
    rw [hthr]
    rcases hsize with hs | hs <;> rw [hs] <;> omega

theorem sharedTailDirectory_reached :
    Reached String.length 4 defaultLoadFactor 1 sharedTailDirectory := by
  have h0 : "".length = 0 := rfl
  have h4 : "abcd".length = 4 := rfl
  have h1 : "a".length = 1 := rfl
  have s0 := @Reached.create String.length 4 defaultLoadFactor
  have s1 := @Reached.insert String.length 4 defaultLoadFactor 0 _ 2 ⟨"", "0"⟩
    { heap := [some ⟨"", ⟨"", "0"⟩, 0, none⟩]
      table := [some 0, none, none, none]
      capacity := 4, size := 1, threshold := 3, loadFactor := ⟨3, 4⟩ } 0 s0 (by
    simp [h0, insertTraced, Directory.create, insertLoop, calculate_threshold,
      defaultLoadFactor])
  have s2 := @Reached.insert String.length 4 defaultLoadFactor _ _ 2 ⟨"abcd", "4"⟩
    { heap := [some ⟨"", ⟨"", "0"⟩, 0, none⟩, some ⟨"abcd", ⟨"abcd", "4"⟩, 4, some 0⟩]
      table := [some 1, none, none, none]
      capacity := 4, size := 2, threshold := 3, loadFactor := ⟨3, 4⟩ } 0 s1 (by
    simp [h4, insertTraced, insertLoop, readNode])
  exact @Reached.insert String.length 4 defaultLoadFactor _ _ 2 ⟨"a", "1"⟩
    sharedTailDirectory 1 s2 (by
    simp [h1, insertTraced, insertLoop, readNode, grow, growBuckets, growChain,
      calculate_threshold, sharedTailDirectory])

/-- Claim C11. In a well-formed directory in which `get(k)` returns absent,
`remove(k)` returns the directory it was given, with the same free store, table,
size, capacity and threshold; so a second `remove(k)` does the same and
`get_size()` never changes. -/
theorem remove_absent_is_noop (hasher : String → Nat) (d : Directory) (k : String)
    (hwf : WellFormed hasher d)
    (habsent : Returns (fun fuel => get hasher fuel d k) none) :
    ∃ d1 d2, Returns (fun fuel => remove hasher fuel d k) d1 ∧
      Returns (fun fuel => remove hasher fuel d1 k) d2 ∧
      d1 = d ∧ d2 = d ∧ get_size d1 = get_size d ∧ get_size d2 = get_size d := by
  obtain ⟨chains, hwf⟩ := hwf
  obtain ⟨head, hhead, hseg⟩ := hwf.chain _ (Nat.mod_lt (hasher k) hwf.capacity_pos)
  have hlook := (get_wellFormed hwf k).unique habsent
  have habs := lookupIn_none hseg.live hlook
  have hrem : Returns (fun fuel => remove hasher fuel d k) d := by
    refine ⟨(chains.getD (hasher k % d.capacity) []).length, fun fuel hfuel => ?_⟩
    simp only [remove, hhead]
    exact removeLoop_absent hseg habs hfuel
  exact ⟨d, d, hrem, hrem, rfl, rfl, rfl, rfl⟩

/-- Claim C11 at `sampleDirectory` and the key `"zz"`, which it does not
hold. -/
theorem remove_absent_is_noop_witness :
    WellFormed String.length sampleDirectory ∧
      Returns (fun fuel => get String.length fuel sampleDirectory "zz") none ∧
      ∃ d1 d2, Returns (fun fuel => remove String.length fuel sampleDirectory "zz") d1 ∧
        Returns (fun fuel => remove String.length fuel d1 "zz") d2 ∧
        d1 = sampleDirectory ∧ d2 = sampleDirectory ∧
        get_size d1 = get_size sampleDirectory ∧ get_size d2 = get_size sampleDirectory := by
  have hget : Returns (fun fuel => get String.length fuel sampleDirectory "zz") none := by
    have h2 : "zz".length = 2 := rfl
    refine ⟨1, fun fuel hfuel => ?_⟩
    obtain ⟨k, rfl⟩ := Nat.exists_eq_add_of_le hfuel
    simp [h2, get, getLoop, sampleDirectory, readNode, Nat.add_comm 1 k]
  exact ⟨sampleDirectory_wellFormed, hget,
    remove_absent_is_noop String.length sampleDirectory "zz" sampleDirectory_wellFormed hget⟩

/-- Claim C12, evaluated where it fails. `sharedTailDirectory` is reached from
`Directory(4)` by three calls of `insert`, the last of which grew the table to
capacity 8. The chain headed at `table[4]` is `1, 0`, and the node at address
0 has hash 0, so `hash mod capacity` is 0 and not 4: `grow` stored the node of
`"abcd"` in bucket 4 and left its `next` pointer on the node of `""`. -/
theorem placement_broken_after_grow :
    Reached String.length 4 defaultLoadFactor 1 sharedTailDirectory ∧
      sharedTailDirectory.table[4]? = some (some 1) ∧
      IsSeg sharedTailDirectory.heap (some 1) [1, 0] none ∧
      ∃ n, readNode sharedTailDirectory.heap 0 = some n ∧
        n.hash % sharedTailDirectory.capacity = 0 ∧
        n.hash % sharedTailDirectory.capacity ≠ 4 :=
  ⟨sharedTailDirectory_reached, rfl, by simp [IsSeg, sharedTailDirectory, readNode],
    ⟨"", ⟨"", "0"⟩, 0, none⟩, rfl, rfl, by decide⟩

/-- Claim C13, evaluated where it fails. In the reached state
`sharedTailDirectory` `get_size()` is 3, while the chains of the eight buckets
are `0`, `2`, none, none, `1, 0`, none, none, none: four nodes are reachable
from the table when summed over the buckets. -/
theorem size_differs_from_chain_total :
    Reached String.length 4 defaultLoadFactor 1 sharedTailDirectory ∧
      get_size sharedTailDirectory = 3 ∧
      ∃ chains : List (List Nat), chains.length = sharedTailDirectory.capacity ∧
        (∀ i, i < sharedTailDirectory.capacity →
          ∃ head, sharedTailDirectory.table[i]? = some head ∧
            IsSeg sharedTailDirectory.heap head (chains.getD i []) none) ∧
        (chains.map List.length).sum = 4 := by
  refine ⟨sharedTailDirectory_reached, rfl, [[0], [2], [], [], [1, 0], [], [], []], rfl, ?_, rfl⟩
  intro i hi
  have hi : i < 8 := hi
  interval_cases i
  · exact ⟨some 0, rfl, by simp [IsSeg, sharedTailDirectory, readNode]⟩
  · exact ⟨some 2, rfl, by simp [IsSeg, sharedTailDirectory, readNode]⟩
  · exact ⟨none, rfl, rfl⟩
  · exact ⟨none, rfl, rfl⟩
  · exact ⟨some 1, rfl, by simp [IsSeg, sharedTailDirectory, readNode]⟩
  · exact ⟨none, rfl, rfl⟩
  · exact ⟨none, rfl, rfl⟩
  · exact ⟨none, rfl, rfl⟩

/-- Claim C15. In every state reached from construction by calls of `insert`
and `remove` that returned, every live node, and so every node of a chain
headed in the table, has `hash = hash_function(key)` and `key` equal to the
name of its `value`; and `insert` (of a new key or of a present one, with or
without growth), `remove` and `grow` each preserve this whenever they
return. -/
theorem cached_fields_invariant (hasher : String → Nat) :
    (∀ capacity0 loadFactor g d, Reached hasher capacity0 loadFactor g d →
      CachedFields hasher d.heap ∧
      ∀ (i : Nat) head as, d.table[i]? = some head → IsSeg d.heap head as none →
        ∀ a ∈ as, ∃ n, readNode d.heap a = some n ∧
          n.hash = hasher n.key ∧ n.key = n.value.name) ∧
    (∀ fuel d value d1, CachedFields hasher d.heap →
      insert hasher fuel d value = .ok d1 → CachedFields hasher d1.heap) ∧
    (∀ fuel d key d1, CachedFields hasher d.heap →
      remove hasher fuel d key = .ok d1 → CachedFields hasher d1.heap) ∧
    (∀ fuel d new_capacity d1, CachedFields hasher d.heap →
      grow fuel d new_capacity = .ok d1 → CachedFields hasher d1.heap) := by
  refine ⟨?_, ?_, ?_, ?_⟩
  · intro capacity0 loadFactor g d hreached
    have hc := (reached_basic hreached).2.2.2.2
    refine ⟨hc, ?_⟩
    intro i head as _ hseg a ha
    obtain ⟨n, hn⟩ := hseg.live a ha
    exact ⟨n, hn, hc a n hn⟩
  · intro fuel d value d1 hc hins
    obtain ⟨k, hk⟩ := insertTraced_of_insert hins
    exact (insertTraced_basic hk).2.2.2 hc
  · intro fuel d key d1 hc hrem
    exact cachedFields_of_fieldsAt (remove_basic hrem).2.2.2.2.2 hc
  · intro fuel d new_capacity d1 hc hgrow
    exact cachedFields_of_fieldsAt (fun a => Or.inl ((grow_basic hgrow).2.2.2.2.2 a)) hc

/-- Claim C15 at the reached state `sharedTailDirectory`. -/
theorem cached_fields_invariant_witness :
    Reached String.length 4 defaultLoadFactor 1 sharedTailDirectory ∧
      CachedFields String.length sharedTailDirectory.heap :=
  ⟨sharedTailDirectory_reached,
    ((cached_fields_invariant String.length).1 4 defaultLoadFactor 1 sharedTailDirectory
      sharedTailDirectory_reached).1⟩

/-! ## The threshold in single precision -/

theorem log2_eq_of_bounds {n k : Nat} (h1 : 2 ^ k ≤ n) (h2 : n < 2 ^ (k + 1)) :
    Nat.log2 n = k := by
  have hn : n ≠ 0 := by
    intro h
    rw [h] at h1
    exact absurd h1 (Nat.not_le.2 (Nat.two_pow_pos _))
  exact Nat.le_antisymm (Nat.lt_succ_iff.1 ((Nat.log2_lt hn).2 h2)) ((Nat.le_log2 hn).2 h1)

/-- The rounding on numbers whose `float` is well known: 16777217 and 16777219
are the first whole numbers that are not `float`s and go to their even
neighbours; 1/3, 0.7 and 0.1 go to `0x3EAAAAAB`, `0x3F333333` and
`0x3DCCCCCD`. -/
theorem roundToFloat_values :
    intToFloat 16777217 = 16777216 ∧ intToFloat 16777219 = 16777220 ∧
      roundToFloat 1 3 = (11184811, 33554432) ∧
      roundToFloat 7 10 = (11744051, 16777216) ∧
      roundToFloat 1 10 = (13421773, 134217728) := by
  have h24a : Nat.log2 16777217 = 24 := log2_eq_of_bounds (by norm_num) (by norm_num)
  have h24b : Nat.log2 16777219 = 24 := log2_eq_of_bounds (by norm_num) (by norm_num)
  have h1 : Nat.log2 2 = 1 := log2_eq_of_bounds (by norm_num) (by norm_num)
  have h0 : Nat.log2 1 = 0 := log2_eq_of_bounds (by norm_num) (by norm_num)
  have h3 : Nat.log2 9 = 3 := log2_eq_of_bounds (by norm_num) (by norm_num)
  refine ⟨?_, ?_, ?_, ?_, ?_⟩
  · unfold intToFloat
    rw [if_neg (by norm_num), h24a]
    norm_num [roundHalfEven]
  · unfold intToFloat
    rw [if_neg (by norm_num), h24b]
    norm_num [roundHalfEven]
  · norm_num [roundToFloat, h1, roundHalfEven]
  · norm_num [roundToFloat, h0, roundHalfEven]
  · norm_num [roundToFloat, h3, roundHalfEven]

theorem roundHalfEven_of_dvd {p q : Nat} (hq : 0 < q) (h : q ∣ p) :
    roundHalfEven p q = p / q := by
  unfold roundHalfEven
  rw [Nat.mod_eq_zero_of_dvd h]
  simp [hq]

/-- A fraction `p / 2 ^ j` scaled by at least `2 ^ j` is a whole number, so
rounding it changes nothing. -/
theorem roundHalfEven_shift {p j s : Nat} (h : j ≤ s) :
    roundHalfEven (p * 2 ^ s) (2 ^ j) / 2 ^ s = p / 2 ^ j := by
  obtain ⟨t, rfl⟩ := Nat.exists_eq_add_of_le h
  have hj : 0 < 2 ^ j := Nat.two_pow_pos _
  have ht : 0 < 2 ^ t := Nat.two_pow_pos _
  rw [roundHalfEven_of_dvd hj (Dvd.intro_left (p * 2 ^ t) (by rw [pow_add]; ring))]
  have h1 : p * 2 ^ (j + t) / 2 ^ j = p * 2 ^ t := by
    rw [pow_add, ← mul_assoc, mul_right_comm]
    exact Nat.mul_div_cancel _ hj
  rw [h1, pow_add]
  exact Nat.mul_div_mul_right _ _ ht

/-- A fraction `p / 2 ^ j` with `p` below `2 ^ 24` is a `float`: rounding keeps
its value, and truncating gives `p / 2 ^ j` rounded down. -/
theorem roundToFloat_exact {p j : Nat} (hp : p < 2 ^ 24) :
    (roundToFloat p (2 ^ j)).1 / (roundToFloat p (2 ^ j)).2 = p / 2 ^ j := by
  have hj : 0 < 2 ^ j := Nat.two_pow_pos _
  unfold roundToFloat
  by_cases h0 : p = 0
  · simp [h0]
  · rw [if_neg h0]
    by_cases hle : 2 ^ j ≤ p
    · rw [if_pos hle]
      have hne : p / 2 ^ j ≠ 0 := Nat.ne_of_gt (Nat.div_pos hle hj)
      have h1 : 2 ^ Nat.log2 (p / 2 ^ j) * 2 ^ j ≤ p :=
        (Nat.le_div_iff_mul_le hj).1 (Nat.log2_self_le hne)
      have h2 : Nat.log2 (p / 2 ^ j) + j < 24 := by
        rw [← pow_add] at h1
        exact (Nat.pow_lt_pow_iff_right (by decide)).1 (Nat.lt_of_le_of_lt h1 hp)
      by_cases he : 23 ≤ Nat.log2 (p / 2 ^ j)
      · have hj0 : j = 0 := by omega
        subst hj0
        have he1 : Nat.log2 (p / 2 ^ 0) = 23 := by omega
        rw [if_pos he, he1]
        simp [roundHalfEven, Nat.mod_one]
      · rw [if_neg he]
        exact roundHalfEven_shift (by omega)
    · rw [if_neg hle]
      have h1 : (2 ^ j - 1) / p < 2 ^ (Nat.log2 ((2 ^ j - 1) / p) + 1) := Nat.lt_log2_self
      have h2 : 2 ^ j - 1 < 2 ^ (Nat.log2 ((2 ^ j - 1) / p) + 1) * p :=
        (Nat.div_lt_iff_lt_mul (Nat.pos_of_ne_zero h0)).1 h1
      have h3 : 2 ^ j < 2 ^ (Nat.log2 ((2 ^ j - 1) / p) + 1 + 24) := by
        rw [pow_add]
        have h5 : 2 ^ (Nat.log2 ((2 ^ j - 1) / p) + 1) * p <
            2 ^ (Nat.log2 ((2 ^ j - 1) / p) + 1) * 2 ^ 24 :=
          Nat.mul_lt_mul_of_pos_left hp (Nat.two_pow_pos _)
        omega
      have h4 : j < Nat.log2 ((2 ^ j - 1) / p) + 1 + 24 :=
        (Nat.pow_lt_pow_iff_right (by decide)).1 h3
      exact roundHalfEven_shift (by omega)

/-- While `capacity * num` stays below `2 ^ 24`, the single-precision product
of `capacity` and the load factor `num / 2 ^ j` is exact, and the threshold of
the source is the exact product rounded down. -/
theorem calculate_threshold_float_eq {capacity num j : Nat} (h : capacity * num < 2 ^ 24) :
    calculate_threshold_float capacity ⟨num, 2 ^ j⟩ =
      calculate_threshold capacity ⟨num, 2 ^ j⟩ := by
  unfold calculate_threshold_float calculate_threshold
  simp only
  rcases Nat.eq_zero_or_pos num with h0 | h0
  · subst h0
    simp [roundToFloat]
  · have hc : capacity < 2 ^ 24 :=
      Nat.lt_of_le_of_lt (Nat.le_mul_of_pos_right _ h0) h
    have hi : intToFloat capacity = capacity := by
      unfold intToFloat
      rw [if_pos hc]
    rw [hi, roundToFloat_exact h]

/-- On an array of null pointers and while the single-precision product is
exact, `grow` is the call of the source. -/
theorem grow_eq_growFrom {fuel new_capacity num j : Nat} {d : Directory}
    (hlf : d.loadFactor = ⟨num, 2 ^ j⟩) (h : new_capacity * num < 2 ^ 24) :
    grow fuel d new_capacity =
      growFrom (List.replicate new_capacity none) fuel d new_capacity := by
  unfold grow growFrom
  rw [hlf, calculate_threshold_float_eq h]

theorem insert_eq_insertFrom {hasher : String → Nat} {fuel num j : Nat} {d : Directory}
    {value : Entry} (hlf : d.loadFactor = ⟨num, 2 ^ j⟩) (h : d.capacity * 2 * num < 2 ^ 24) :
    insert hasher fuel d value =
      insertFrom hasher (List.replicate (d.capacity * 2) none) fuel d value := by
  unfold insert insertFrom
  cases d.table[hasher value.name % d.capacity]? with
  | none => rfl
  | some head =>
    simp only
    cases insertLoop value fuel d.heap head with
    | fault => rfl
    | timeout => rfl
    | ok r =>
      cases r with
      | some heap1 => rfl
      | none =>
        simp only
        by_cases hg : d.size + 1 ≥ d.threshold
        · rw [if_pos hg, if_pos hg]
          exact grow_eq_growFrom hlf h
        · rw [if_neg hg, if_neg hg]

/-- Claim C19. For a directory constructed with capacity at least 2 and the
load factor 0.75, `size < threshold` holds in every state reached by calls of
`insert` and `remove` that returned; for the initial capacity 1 it fails in the
initial state, where `threshold` is 0. -/
theorem size_below_threshold (hasher : String → Nat) (capacity0 g : Nat) (d : Directory)
    (hcap : 2 ≤ capacity0) (h : Reached hasher capacity0 defaultLoadFactor g d) :
    get_size d < d.threshold ∧
      (Directory.create 1 defaultLoadFactor).threshold = 0 ∧
      ¬ get_size (Directory.create 1 defaultLoadFactor) <
        (Directory.create 1 defaultLoadFactor).threshold :=
  ⟨reached_size_lt_threshold hcap h, by decide, by decide⟩

/-- Claim C19 at the reached state `sharedTailDirectory`, after one growth. -/
theorem size_below_threshold_witness :
    2 ≤ 4 ∧ Reached String.length 4 defaultLoadFactor 1 sharedTailDirectory ∧
      get_size sharedTailDirectory < sharedTailDirectory.threshold :=
  ⟨by decide, sharedTailDirectory_reached,
    (size_below_threshold String.length 4 1 sharedTailDirectory (by decide)
      sharedTailDirectory_reached).1⟩

/-- Claim C20. For a directory constructed with capacity `capacity0 > 0`, in
every state reached by calls of `insert` and `remove` that returned, with `g`
the number of growths performed: `capacity = capacity0 * 2 ^ g` (overflow
apart), the capacity is positive, the table has `capacity` slots, and for every
key the index `hash mod capacity` is below `capacity` and addresses a slot of
the table. -/
theorem capacity_doubles (hasher : String → Nat) (capacity0 : Nat) (loadFactor : LoadFactor)
    (g : Nat) (d : Directory) (hcap : 0 < capacity0)
    (h : Reached hasher capacity0 loadFactor g d) :
    d.capacity = capacity0 * 2 ^ g ∧ 0 < d.capacity ∧ d.table.length = d.capacity ∧
      ∀ key, hasher key % d.capacity < d.capacity ∧
        ∃ head, d.table[hasher key % d.capacity]? = some head := by
  obtain ⟨_, h2, _, h4, _⟩ := reached_basic h
  have hpos : 0 < d.capacity := by
    rw [h2]
    positivity
  refine ⟨h2, hpos, h4, fun key => ⟨Nat.mod_lt _ hpos, ?_⟩⟩
  have hlt : hasher key % d.capacity < d.table.length := by
    rw [h4]
    exact Nat.mod_lt _ hpos
  exact ⟨d.table[hasher key % d.capacity], List.getElem?_eq_getElem hlt⟩

/-- Claim C20 at the reached state `sharedTailDirectory`: one growth, capacity
`4 * 2 ^ 1`. -/
theorem capacity_doubles_witness :
    0 < 4 ∧ Reached String.length 4 defaultLoadFactor 1 sharedTailDirectory ∧
      sharedTailDirectory.capacity = 4 * 2 ^ 1 :=
  ⟨by decide, sharedTailDirectory_reached,
    (capacity_doubles String.length 4 defaultLoadFactor 1 sharedTailDirectory (by decide)
      sharedTailDirectory_reached).1⟩

theorem growBucketsWith_growChain (new_capacity fuel : Nat) (table : List (Option Nat)) :
    ∀ (count i : Nat) (heap : Heap) (new_table : List (Option Nat)),
      growBucketsWith (growChain new_capacity) fuel table count i heap new_table =
        growBuckets fuel new_capacity table count i heap new_table := by
  intro count
  induction count with
  | zero => intros; rfl
  | succ count ih =>
    intro i heap new_table
    simp only [growBucketsWith, growBuckets]
    cases table[i]? with
    | none => rfl
    | some node =>
      simp only
      cases growChain new_capacity fuel heap new_table node with
      | fault => rfl
      | timeout => rfl
      | ok r =>
        obtain ⟨heap1, nt1⟩ := r
        exact ih (i + 1) heap1 nt1

theorem growWith_growChain (fuel : Nat) (d : Directory) (new_capacity : Nat) :
    growWith growChain fuel d new_capacity = grow fuel d new_capacity := by
  unfold growWith grow
  rw [growBucketsWith_growChain]

/-- Claim C17, evaluated where it fails. `growWith growChain` is `grow` as
written. On the well-formed `twoNodeBucket` (bucket 0 holds the chain `1, 0`)
and the new capacity 2, `grow` returns with the node at address 1 still
pointing to the node at address 0, so bucket 0 is the chain `1, 0`; with the
unconditional push in place of the `if`/`else` the node at address 1 gets
`next = nullptr`, bucket 0 is the chain `1`, and, when the loop goes on with
the pointer just written, bucket 1 stays empty. The branch taken for an empty
slot does not write `node->next`. -/
theorem grow_differs_from_unconditional_push :
    (∀ fuel d new_capacity, growWith growChain fuel d new_capacity = grow fuel d new_capacity) ∧
      WellFormed String.length twoNodeBucket ∧
      ∃ d1 d2 d3, Returns (fun fuel => grow fuel twoNodeBucket 2) d1 ∧
        Returns (fun fuel => growWith growChainPush fuel twoNodeBucket 2) d2 ∧
        Returns (fun fuel => growWith growChainRelink fuel twoNodeBucket 2) d3 ∧
        IsSeg d1.heap (d1.table.getD 0 none) [1, 0] none ∧
        IsSeg d2.heap (d2.table.getD 0 none) [1] none ∧
        IsSeg d3.heap (d3.table.getD 0 none) [1] none ∧
        d2.table = [some 1, none] ∧ d1 ≠ d2 ∧ d1 ≠ d3 := by
  refine ⟨growWith_growChain, twoNodeBucket_wellFormed,
    { twoNodeBucket with table := [some 1, some 0], capacity := 2, threshold := 6 },
    { heap := [some ⟨"a", ⟨"a", "1"⟩, 1, none⟩, some ⟨"", ⟨"", "0"⟩, 0, none⟩]
      table := [some 1, none], capacity := 2, size := 2, threshold := 6,
      loadFactor := ⟨3, 1⟩ },
    { heap := [some ⟨"a", ⟨"a", "1"⟩, 1, none⟩, some ⟨"", ⟨"", "0"⟩, 0, none⟩]
      table := [some 1, some 0], capacity := 2, size := 2, threshold := 6,
      loadFactor := ⟨3, 1⟩ },
    ⟨2, fun fuel hfuel => ?_⟩, ⟨2, fun fuel hfuel => ?_⟩, ⟨2, fun fuel hfuel => ?_⟩,
    ?_, ?_, ?_, rfl, by decide, by decide⟩
  · obtain ⟨k, rfl⟩ := Nat.exists_eq_add_of_le hfuel
    simp [grow, growBuckets, growChain, twoNodeBucket, readNode, calculate_threshold,
      Nat.add_comm 2 k]
  · obtain ⟨k, rfl⟩ := Nat.exists_eq_add_of_le hfuel
    simp [growWith, growBucketsWith, growChainPush, twoNodeBucket, readNode,
      calculate_threshold, Nat.add_comm 2 k]
  · obtain ⟨k, rfl⟩ := Nat.exists_eq_add_of_le hfuel
    simp [growWith, growBucketsWith, growChainRelink, twoNodeBucket, readNode,
      calculate_threshold, Nat.add_comm 2 k]
  · simp [IsSeg, twoNodeBucket, readNode]
  · simp [IsSeg, readNode]
  · simp [IsSeg, readNode]

/-! ## Termination of `grow` -/

theorem disjointChains_of_wellFormedWith {hasher : String → Nat} {d : Directory}
    {chains : List (List Nat)} (hwf : WellFormedWith hasher d chains) :
    DisjointChains d chains :=
  ⟨hwf.chain, hwf.nodup, hwf.disjoint, hwf.chains_length⟩

theorem growChain_returns {new_capacity : Nat} {heap : Heap} (hcap : 0 < new_capacity) :
    ∀ (as : List Nat) (p : Option Nat) (seen : List Nat) (nt : List (Option Nat)),
      IsSeg heap p as none → (∀ a ∈ as, a ∉ seen) → as.Nodup →
      Relocated new_capacity heap seen nt →
      (∀ a ∈ seen ++ as, ∀ b ∈ seen ++ as, ∀ na nb, readNode heap a = some na →
        readNode heap b = some nb → na.hash % new_capacity = nb.hash % new_capacity → a = b) →
      ∃ nt1, (∀ fuel, as.length ≤ fuel →
          growChain new_capacity fuel heap nt p = .ok (heap, nt1)) ∧
        Relocated new_capacity heap (seen ++ as) nt1 := by
  intro as
  induction as with
  | nil =>
    intro p seen nt hseg _ _ hrel _
    cases hseg
    exact ⟨nt, fun fuel _ => by cases fuel <;> rfl, by simpa using hrel⟩
  | cons a as ih =>
    intro p seen nt hseg hfresh hnd hrel hinj
    obtain ⟨rfl, n, hn, hrest⟩ := hseg
    have ha_seen : a ∉ seen := hfresh a (List.mem_cons_self _ _)
    have ha_as : a ∉ as := (List.nodup_cons.mp hnd).1
    have hlt : n.hash % new_capacity < nt.length := by
      rw [hrel.1]
      exact Nat.mod_lt _ hcap
    have hslot : nt[n.hash % new_capacity]? = some none := by
      rw [List.getElem?_eq_getElem hlt]
      cases hv : nt[n.hash % new_capacity] with
      | none => rfl
      | some q =>
        exfalso
        have hq : nt[n.hash % new_capacity]? = some (some q) := by
          rw [List.getElem?_eq_getElem hlt, hv]
        obtain ⟨hq_seen, nq, hnq, hidx⟩ := hrel.2 _ q hq
        have := hinj a (by simp) q (List.mem_append_left _ hq_seen) n nq hn hnq hidx.symm
        exact ha_seen (this ▸ hq_seen)
    have hrel1 : Relocated new_capacity heap (seen ++ [a])
        (nt.set (n.hash % new_capacity) (some a)) := by
      refine ⟨by rw [List.length_set]; exact hrel.1, ?_⟩
      intro j q hj
      by_cases hji : j = n.hash % new_capacity
      · subst hji
        rw [List.getElem?_set_self hlt] at hj
        cases hj
        exact ⟨by simp, n, hn, rfl⟩
      · rw [List.getElem?_set_ne (Ne.symm hji)] at hj
        obtain ⟨h1, h2⟩ := hrel.2 j q hj
        exact ⟨List.mem_append_left _ h1, h2⟩
    have hfresh1 : ∀ b ∈ as, b ∉ seen ++ [a] := by
      intro b hb hmem
      rcases List.mem_append.mp hmem with h | h
      · exact hfresh b (List.mem_cons_of_mem _ hb) h
      · rw [List.mem_singleton] at h
        exact ha_as (h ▸ hb)
    obtain ⟨nt1, hrun, hrel2⟩ := ih n.next (seen ++ [a]) _ hrest hfresh1
      (List.nodup_cons.mp hnd).2 hrel1 (by simpa using hinj)
    refine ⟨nt1, fun fuel hfuel => ?_, by simpa using hrel2⟩
    obtain ⟨fuel, rfl⟩ : ∃ k, fuel = k + 1 := ⟨fuel - 1, by simp at hfuel; omega⟩
    simp only [growChain, hn, hslot]
    exact hrun fuel (by simpa using hfuel)

theorem growBuckets_returns {d : Directory} {chains : List (List Nat)}
    (hdc : DisjointChains d chains) {new_capacity : Nat} (hcap : 0 < new_capacity)
    (hdist : DistinctSlots new_capacity d chains) :
    ∀ (count i : Nat) (seen : List Nat) (nt : List (Option Nat)),
      i + count ≤ d.capacity → Relocated new_capacity d.heap seen nt →
      (∀ q ∈ seen, ∃ k, k < i ∧ q ∈ chains.getD k []) →
      ∃ nt1 N, ∀ fuel, N ≤ fuel →
        growBuckets fuel new_capacity d.table count i d.heap nt = .ok (d.heap, nt1) := by
  intro count
  induction count with
  | zero =>
    intro i seen nt _ _ _
    exact ⟨nt, 0, fun _ _ => rfl⟩
  | succ count ih =>
    intro i seen nt hi hrel hseen
    obtain ⟨head, hhead, hseg⟩ := hdc.chain i (by omega)
    have hfresh : ∀ a ∈ chains.getD i [], a ∉ seen := by
      intro a ha hmem
      obtain ⟨k, hk, hak⟩ := hseen a hmem
      exact hdc.disjoint k i a (by omega) hak ha
    have hseen1 : ∀ q ∈ seen ++ chains.getD i [], ∃ k, k < i + 1 ∧ q ∈ chains.getD k [] := by
      intro q hq
      rcases List.mem_append.mp hq with hq | hq
      · obtain ⟨k, hk, hqk⟩ := hseen q hq
        exact ⟨k, by omega, hqk⟩
      · exact ⟨i, by omega, hq⟩
    have hinj : ∀ a ∈ seen ++ chains.getD i [], ∀ b ∈ seen ++ chains.getD i [], ∀ na nb,
        readNode d.heap a = some na → readNode d.heap b = some nb →
        na.hash % new_capacity = nb.hash % new_capacity → a = b := by
      intro a ha b hb na nb hna hnb hslot
      obtain ⟨ka, _, haK⟩ := hseen1 a ha
      obtain ⟨kb, _, hbK⟩ := hseen1 b hb
      exact hdist ka kb a b na nb haK hbK hna hnb hslot
    obtain ⟨nt1, hrun1, hrel1⟩ := growChain_returns hcap _ head seen nt hseg hfresh
      (hdc.nodup i) hrel hinj
    obtain ⟨nt2, N, hrun2⟩ := ih (i + 1) _ nt1 (by omega) hrel1 hseen1
    refine ⟨nt2, max (chains.getD i []).length N, fun fuel hfuel => ?_⟩
    rw [growBuckets_ok_head hhead (hrun1 fuel (le_trans (le_max_left _ _) hfuel))]
    exact hrun2 fuel (le_trans (le_max_right _ _) hfuel)

theorem growBuckets_heads_of_ok {d : Directory} {chains : List (List Nat)}
    (hdc : DisjointChains d chains) {new_capacity : Nat} (hcap : 0 < new_capacity)
    (fuel : Nat) :
    ∀ (count i : Nat) (seen : List Nat) (nt : List (Option Nat)),
      i + count ≤ d.capacity → Relocated new_capacity d.heap seen nt →
      (∀ q ∈ seen, ∃ k, k < i ∧ q ∈ chains.getD k []) →
      growBuckets fuel new_capacity d.table count i d.heap nt = .timeout ∨
        ∃ nt1 seen1, growBuckets fuel new_capacity d.table count i d.heap nt =
            .ok (d.heap, nt1) ∧
          Relocated new_capacity d.heap seen1 nt1 ∧
          (∀ (j q : Nat), nt[j]? = some (some q) → nt1[j]? = some (some q)) ∧
          (∀ k, i ≤ k → k < i + count → HeadsOf new_capacity d.heap nt1 (chains.getD k [])) := by
  intro count
  induction count with
  | zero =>
    intro i seen nt _ hrel _
    exact Or.inr ⟨nt, seen, rfl, hrel, fun _ _ h => h, fun k h1 h2 => by omega⟩
  | succ count ih =>
    intro i seen nt hi hrel hseen
    obtain ⟨head, hhead, hseg⟩ := hdc.chain i (by omega)
    have hfresh : ∀ a ∈ chains.getD i [], a ∉ seen := by
      intro a ha hmem
      obtain ⟨k, hk, hak⟩ := hseen a hmem
      exact hdc.disjoint k i a (by omega) hak ha
    rcases growChain_timeout_or_heads hcap _ head seen nt fuel hseg hfresh (hdc.nodup i) hrel
      with h | ⟨nt1, hok, hrel1, hmono1, hheads1⟩
    · exact Or.inl (growBuckets_timeout_head hhead h)
    · rw [growBuckets_ok_head hhead hok]
      have hseen1 : ∀ q ∈ seen ++ chains.getD i [], ∃ k, k < i + 1 ∧ q ∈ chains.getD k [] := by
        intro q hq
        rcases List.mem_append.mp hq with hq | hq
        · obtain ⟨k, hk, hqk⟩ := hseen q hq
          exact ⟨k, by omega, hqk⟩
        · exact ⟨i, by omega, hq⟩
      rcases ih (i + 1) _ nt1 (by omega) hrel1 hseen1
        with h | ⟨nt2, seen2, hok2, hrel2, hmono2, hheads2⟩
      · exact Or.inl h
      · refine Or.inr ⟨nt2, seen2, hok2, hrel2, fun j q h => hmono2 j q (hmono1 j q h), ?_⟩
        intro k hk1 hk2
        by_cases hki : k = i
        · subst hki
          exact hheads1.mono hmono2
        · exact hheads2 k (by omega) (by omega)

theorem relocated_replicate (new_capacity : Nat) (heap : Heap) :
    Relocated new_capacity heap [] (List.replicate new_capacity none) := by
  refine ⟨by simp, ?_⟩
  intro j q hj
  rw [List.getElem?_replicate] at hj
  split at hj <;> cases hj

theorem chains_getD_nil {chains : List (List Nat)} {i : Nat} (h : chains.length ≤ i) :
    chains.getD i [] = [] := by
  rw [List.getD_eq_getElem?_getD, List.getElem?_eq_none h]
  rfl

theorem distinctSlots_of_grow_ok {d d1 : Directory} {chains : List (List Nat)}
    (hdc : DisjointChains d chains) {new_capacity : Nat} (hcap : 0 < new_capacity)
    {fuel : Nat} (hok : grow fuel d new_capacity = .ok d1) :
    DistinctSlots new_capacity d chains := by
  obtain ⟨heap1, nt1, hb, _⟩ := grow_inv hok
  rcases growBuckets_heads_of_ok hdc hcap fuel d.capacity 0 [] _ (by omega)
    (relocated_replicate new_capacity d.heap) (fun q hq => by cases hq)
    with h | ⟨nt2, seen2, hok2, _, _, hheads⟩
  · rw [h] at hb
    cases hb
  · intro i j a b na nb ha hb1 hna hnb hslot
    have hi : i < d.capacity := by
      by_contra hge
      rw [chains_getD_nil (by rw [hdc.chains_length]; omega)] at ha
      cases ha
    have hj : j < d.capacity := by
      by_contra hge
      rw [chains_getD_nil (by rw [hdc.chains_length]; omega)] at hb1
      cases hb1
    obtain ⟨ma, hma, hsa⟩ := hheads i (Nat.zero_le _) (by omega) a ha
    obtain ⟨mb, hmb, hsb⟩ := hheads j (Nat.zero_le _) (by omega) b hb1
    rw [hna] at hma
    cases hma
    rw [hnb] at hmb
    cases hmb
    rw [hslot, hsb] at hsa
    exact (Option.some.inj (Option.some.inj hsa)).symm

theorem grow_returns_of_distinctSlots {d : Directory} {chains : List (List Nat)}
    (hdc : DisjointChains d chains) {new_capacity : Nat} (hcap : 0 < new_capacity)
    (hdist : DistinctSlots new_capacity d chains) :
    ∃ d1, Returns (fun fuel => grow fuel d new_capacity) d1 := by
  obtain ⟨nt1, N, hrun⟩ := growBuckets_returns hdc hcap hdist d.capacity 0 [] _ (by omega)
    (relocated_replicate new_capacity d.heap) (fun q hq => by cases hq)
  refine ⟨{ d with
    heap := d.heap
    table := nt1
    capacity := new_capacity
    threshold := calculate_threshold new_capacity d.loadFactor }, N, fun fuel hfuel => ?_⟩
  simp only [grow, hrun fuel hfuel]

theorem grow_timeout_of_not_distinctSlots {d : Directory} {chains : List (List Nat)}
    (hdc : DisjointChains d chains) {new_capacity : Nat} (hcap : 0 < new_capacity)
    (hdist : ¬ DistinctSlots new_capacity d chains) :
    Diverges (fun fuel => grow fuel d new_capacity) := by
  intro fuel
  rcases growBuckets_heads_of_ok hdc hcap fuel d.capacity 0 [] _ (by omega)
    (relocated_replicate new_capacity d.heap) (fun q hq => by cases hq)
    with h | ⟨nt2, seen2, hok2, _, _, _⟩
  · exact grow_timeout_of_buckets h
  · exfalso
    apply hdist
    exact @distinctSlots_of_grow_ok d
      { d with
        heap := d.heap
        table := nt2
        capacity := new_capacity
        threshold := calculate_threshold new_capacity d.loadFactor }
      chains hdc new_capacity hcap fuel (by simp only [grow, hok2])

theorem not_distinctSlots_of_long_chain {d : Directory} {chains : List (List Nat)}
    (hdc : DisjointChains d chains)
    (hplaced : ∀ i a n, a ∈ chains.getD i [] → readNode d.heap a = some n →
      n.hash % d.capacity = i)
    {i : Nat} (hlen : 3 ≤ (chains.getD i []).length) :
    ¬ DistinctSlots (2 * d.capacity) d chains := by
  intro hdist
  have hi : i < d.capacity := by
    by_contra hge
    rw [chains_getD_nil (by rw [hdc.chains_length]; omega)] at hlen
    simp at hlen
  obtain ⟨head, _, hseg⟩ := hdc.chain i hi
  have hnd := hdc.nodup i
  have hlive := hseg.live
  have hdist1 := hdist i i
  have hplaced1 := hplaced i
  generalize chains.getD i [] = as at hlen hnd hlive hdist1 hplaced1
  obtain ⟨a1, a2, a3, rest, rfl⟩ : ∃ a1 a2 a3 rest, as = a1 :: a2 :: a3 :: rest := by
    match as, hlen with
    | a1 :: a2 :: a3 :: rest, _ => exact ⟨a1, a2, a3, rest, rfl⟩
  obtain ⟨n1, hn1⟩ := hlive a1 (by simp)
  obtain ⟨n2, hn2⟩ := hlive a2 (by simp)
  obtain ⟨n3, hn3⟩ := hlive a3 (by simp)
  have hp1 := mod_double (hplaced1 a1 n1 (by simp) hn1)
  have hp2 := mod_double (hplaced1 a2 n2 (by simp) hn2)
  have hp3 := mod_double (hplaced1 a3 n3 (by simp) hn3)
  simp only [List.nodup_cons, List.mem_cons, not_or] at hnd
  have h12 : n1.hash % (2 * d.capacity) ≠ n2.hash % (2 * d.capacity) :=
    fun h => hnd.1.1 (hdist1 a1 a2 n1 n2 (by simp) (by simp) hn1 hn2 h)
  have h13 : n1.hash % (2 * d.capacity) ≠ n3.hash % (2 * d.capacity) :=
    fun h => hnd.1.2.1 (hdist1 a1 a3 n1 n3 (by simp) (by simp) hn1 hn3 h)
  have h23 : n2.hash % (2 * d.capacity) ≠ n3.hash % (2 * d.capacity) :=
    fun h => hnd.2.1.1 (hdist1 a2 a3 n2 n3 (by simp) (by simp) hn2 hn3 h)
  omega

/-- Claim C18. For a directory whose buckets head acyclic, pairwise disjoint
chains of live nodes, and a new capacity of at least 1 (the fresh array
all-empty): `grow(new_capacity)` returns if and only if the stored nodes have
pairwise distinct values of `hash mod new_capacity`, and it runs for ever if and
only if two stored nodes share such a value; when moreover every node sits in
the bucket of its hash and `new_capacity = 2 * capacity`, a chain of three or
more nodes makes two nodes share a value. -/
theorem grow_terminates_iff_distinct_slots (d : Directory) (chains : List (List Nat))
    (new_capacity : Nat) (hdc : DisjointChains d chains) (hcap : 1 ≤ new_capacity) :
    ((∃ d1, Returns (fun fuel => grow fuel d new_capacity) d1) ↔
        DistinctSlots new_capacity d chains) ∧
      (Diverges (fun fuel => grow fuel d new_capacity) ↔
        ¬ DistinctSlots new_capacity d chains) ∧
      (new_capacity = 2 * d.capacity →
        (∀ i a n, a ∈ chains.getD i [] → readNode d.heap a = some n →
          n.hash % d.capacity = i) →
        (∃ i, 3 ≤ (chains.getD i []).length) →
        ¬ DistinctSlots new_capacity d chains ∧
          Diverges (fun fuel => grow fuel d new_capacity)) := by
  refine ⟨⟨?_, grow_returns_of_distinctSlots hdc hcap⟩,
    ⟨?_, grow_timeout_of_not_distinctSlots hdc hcap⟩, ?_⟩
  · rintro ⟨d1, N, hN⟩
    exact distinctSlots_of_grow_ok hdc hcap (hN N (Nat.le_refl _))
  · intro hdiv hdist
    obtain ⟨d1, N, hN⟩ := grow_returns_of_distinctSlots hdc hcap hdist
    have h1 := hN N (Nat.le_refl _)
    have h2 := hdiv N
    simp only at h1 h2
    rw [h1] at h2
    cases h2
  · rintro rfl hplaced ⟨i, hlen⟩
    have hnot := not_distinctSlots_of_long_chain hdc hplaced hlen
    exact ⟨hnot, grow_timeout_of_not_distinctSlots hdc hcap hnot⟩

theorem twoNodeBucket_distinctSlots :
    DistinctSlots 2 twoNodeBucket [[1, 0]] := by
  intro i j a b na nb ha hb hna hnb hslot
  rcases i with _ | i <;> simp at ha
  rcases j with _ | j <;> simp at hb
  rcases ha with rfl | rfl <;> rcases hb with rfl | rfl <;>
    simp [twoNodeBucket, readNode] at hna hnb <;> subst hna <;> subst hnb <;>
    simp at hslot ⊢

/-- Claim C18 at `twoNodeBucket` and the new capacity 2: the two stored hashes
0 and 1 differ modulo 2, and `grow(2)` returns. -/
theorem grow_terminates_iff_distinct_slots_witness :
    DisjointChains twoNodeBucket [[1, 0]] ∧ 1 ≤ 2 ∧ DistinctSlots 2 twoNodeBucket [[1, 0]] ∧
      ∃ d1, Returns (fun fuel => grow fuel twoNodeBucket 2) d1 := by
  have hdc : DisjointChains twoNodeBucket [[1, 0]] := by
    obtain ⟨chains, hwf⟩ := twoNodeBucket_wellFormed
    refine ⟨?_, ?_, ?_, rfl⟩
    · intro i hi
      have hi : i < 1 := hi
      interval_cases i
      exact ⟨some 1, rfl, by simp [IsSeg, twoNodeBucket, readNode]⟩
    · intro i
      rcases i with _ | i <;> simp
    · intro i j a hij hi
      rcases i with _ | i <;> rcases j with _ | j <;> simp at hi hij ⊢
  exact ⟨hdc, by decide, twoNodeBucket_distinctSlots,
    (grow_terminates_iff_distinct_slots twoNodeBucket [[1, 0]] 2 hdc (by decide)).1.2
      twoNodeBucket_distinctSlots⟩

/-! ## Walks from one pointer -/

theorem IsSeg.prefix_of_le {heap : Heap} :
    ∀ {l1 l2 : List Nat} {p q1 q2 : Option Nat}, IsSeg heap p l1 q1 → IsSeg heap p l2 q2 →
      l1.length ≤ l2.length → ∃ rest, l2 = l1 ++ rest ∧ IsSeg heap q1 rest q2 := by
  intro l1
  induction l1 with
  | nil =>
    intro l2 p q1 q2 h1 h2 _
    cases h1
    exact ⟨l2, rfl, h2⟩
  | cons a l1 ih =>
    intro l2 p q1 q2 h1 h2 hlen
    obtain ⟨rfl, n, hn, hrest⟩ := h1
    cases l2 with
    | nil => simp at hlen
    | cons b l2 =>
      obtain ⟨hb, m, hm, hrest2⟩ := h2
      cases hb
      rw [hn] at hm
      cases hm
      obtain ⟨rest, hl, hseg⟩ := ih hrest hrest2 (by simpa using hlen)
      exact ⟨rest, by rw [hl]; rfl, hseg⟩

theorem IsSeg.nodup_of_target {heap : Heap} :
    ∀ {l : List Nat} {p q : Option Nat}, IsSeg heap p l q → (∀ a, q = some a → a ∉ l) →
      l.Nodup := by
  intro l
  induction l with
  | nil => intro _ _ _ _; exact List.nodup_nil
  | cons c l ih =>
    intro p q h hq
    obtain ⟨rfl, nc, hnc, hrest⟩ := h
    refine List.nodup_cons.mpr ⟨?_, ih hrest fun a ha hmem => hq a ha (List.mem_cons_of_mem _ hmem)⟩
    intro hc
    obtain ⟨y, z, rfl⟩ := List.append_of_mem hc
    obtain ⟨m, _, hseg2⟩ := hrest.split
    obtain ⟨_, nc1, hnc1, hz⟩ := hseg2
    rw [hnc] at hnc1
    cases hnc1
    obtain ⟨rest, hl, hloop⟩ := hz.prefix_of_le hrest (by simp; omega)
    cases rest with
    | nil =>
      have := congrArg List.length hl
      simp at this
      omega
    | cons r rest =>
      have hqr : q = some r := hloop.1
      apply hq r hqr
      apply List.mem_cons_of_mem
      rw [hl]
      simp

theorem IsSeg.nodup_chain {heap : Heap} {l : List Nat} {p : Option Nat}
    (h : IsSeg heap p l none) : l.Nodup :=
  h.nodup_of_target fun _ ha => by cases ha

theorem IsSeg.mem_chain {heap : Heap} {path as : List Nat} {p : Option Nat} {b : Nat}
    (hpath : IsSeg heap p path (some b)) (hchain : IsSeg heap p as none) :
    b ∈ as ∧ ∀ c ∈ path, c ∈ as := by
  rcases Nat.le_total path.length as.length with hle | hle
  · obtain ⟨rest, hl, hseg⟩ := hpath.prefix_of_le hchain hle
    cases rest with
    | nil => cases hseg
    | cons r rest =>
      obtain ⟨hr, _⟩ := hseg
      cases hr
      rw [hl]
      exact ⟨by simp, fun c hc => List.mem_append_left _ hc⟩
  · obtain ⟨rest, hl, hseg⟩ := hchain.prefix_of_le hpath hle
    cases rest with
    | nil => cases hseg
    | cons r rest => exact absurd hseg.1 (by simp)

/-! ## The invariant is kept by every call that returns -/

theorem sound_create (hasher : String → Nat) {capacity : Nat} (loadFactor : LoadFactor)
    (hcap : 0 < capacity) : Sound hasher (Directory.create capacity loadFactor) := by
  have hempty : ∀ a, readNode (Directory.create capacity loadFactor).heap a = none := by
    intro a
    simp [Directory.create, readNode]
  refine ⟨hcap, by simp [Directory.create], ?_, ?_, ?_⟩
  · intro a n hn
    rw [hempty] at hn
    cases hn
  · intro a b na nb hna
    rw [hempty] at hna
    cases hna
  · intro a n hn
    rw [hempty] at hn
    cases hn

theorem sound_update {hasher : String → Nat} {d : Directory} (hs : Sound hasher d)
    {a : Nat} {n : DirectoryNode} {value : Entry} (hn : readNode d.heap a = some n)
    (hk : n.key = value.name) :
    Sound hasher { d with heap := d.heap.set a (some { n with value := value }) } := by
  have hback : ∀ b nb1, readNode (d.heap.set a (some { n with value := value })) b = some nb1 →
      ∃ nb, readNode d.heap b = some nb ∧ nb1.key = nb.key ∧ nb1.hash = nb.hash := by
    intro b nb1 hb
    by_cases hab : a = b
    · subst hab
      rw [readNode_set_eq _ (readNode_lt hn)] at hb
      cases hb
      exact ⟨n, hn, rfl, rfl⟩
    · rw [readNode_set_ne _ hab] at hb
      exact ⟨nb1, hb, rfl, rfl⟩
  have hforw : ∀ b nb, readNode d.heap b = some nb →
      ∃ nb1, readNode (d.heap.set a (some { n with value := value })) b = some nb1 ∧
        nb1.next = nb.next := by
    intro b nb hb
    by_cases hab : a = b
    · subst hab
      rw [hn] at hb
      cases hb
      exact ⟨_, readNode_set_eq _ (readNode_lt hn), rfl⟩
    · exact ⟨nb, by rw [readNode_set_ne _ hab]; exact hb, rfl⟩
  refine ⟨hs.capacity_pos, hs.table_length, cachedFields_update hn hk hs.cached, ?_, ?_⟩
  · intro b c nb1 nc1 hb hc hkey
    obtain ⟨nb, hnb, hkb, _⟩ := hback b nb1 hb
    obtain ⟨nc, hnc, hkc, _⟩ := hback c nc1 hc
    exact hs.keys_unique b c nb nc hnb hnc (by rw [← hkb, ← hkc]; exact hkey)
  · intro b nb1 hb
    obtain ⟨nb, hnb, _, hhash⟩ := hback b nb1 hb
    obtain ⟨head, path, hhead, hseg, hnot, hslots⟩ := hs.owned b nb hnb
    refine ⟨head, path, by rw [hhash]; exact hhead,
      hseg.congr fun c _ nc hnc => hforw c nc hnc, hnot, ?_⟩
    intro c hc nc1 hnc1
    obtain ⟨nc, hnc, _, hhc⟩ := hback c nc1 hnc1
    rw [hhc, hhash]
    exact hslots c hc nc hnc

theorem sound_push {hasher : String → Nat} {d : Directory} (hs : Sound hasher d)
    {value : Entry} {head : Option Nat} {as : List Nat}
    (hhead : d.table[hasher value.name % d.capacity]? = some head)
    (hseg : IsSeg d.heap head as none) (habs : AbsentIn d.heap value.name as) :
    Sound hasher (pushed hasher d value head) := by
  have hidx : hasher value.name % d.capacity < d.table.length := by
    rw [hs.table_length]
    exact Nat.mod_lt _ hs.capacity_pos
  have hnew : readNode (pushed hasher d value head).heap d.heap.length =
      some ⟨value.name, value, hasher value.name, head⟩ := readNode_append_length _ _
  have hold : ∀ b nb, readNode d.heap b = some nb →
      readNode (pushed hasher d value head).heap b = some nb :=
    fun b nb hb => readNode_append _ hb
  have hback : ∀ b nb, readNode (pushed hasher d value head).heap b = some nb →
      (b = d.heap.length ∧ nb = ⟨value.name, value, hasher value.name, head⟩) ∨
        (b ≠ d.heap.length ∧ readNode d.heap b = some nb) := by
    intro b nb hb
    rcases Nat.lt_trichotomy b d.heap.length with hlt | heq | hgt
    · right
      refine ⟨by omega, ?_⟩
      rw [← hb]
      exact (readNode_append_lt _ hlt).symm
    · left
      subst heq
      rw [hnew] at hb
      exact ⟨rfl, (Option.some.inj hb).symm⟩
    · have : readNode (pushed hasher d value head).heap b = none := readNode_append_gt _ hgt
      rw [this] at hb
      cases hb
  have hfresh : ∀ b nb, readNode d.heap b = some nb → nb.key ≠ value.name := by
    intro b nb hb hkey
    obtain ⟨hd, path, hhd, hpath, _, _⟩ := hs.owned b nb hb
    rw [(hs.cached b nb hb).1, hkey, hhead] at hhd
    cases hhd
    exact habs b (hpath.mem_chain hseg).1 nb hb hkey
  refine ⟨hs.capacity_pos, by simp [pushed, hs.table_length],
    cachedFields_push value head hs.cached, ?_, ?_⟩
  · intro b c nb nc hb hc hkey
    rcases hback b nb hb with ⟨rfl, rfl⟩ | ⟨_, hb1⟩ <;>
      rcases hback c nc hc with ⟨rfl, rfl⟩ | ⟨_, hc1⟩
    · rfl
    · exact absurd hkey.symm (hfresh c nc hc1)
    · exact absurd hkey (hfresh b nb hb1)
    · exact hs.keys_unique b c nb nc hb1 hc1 hkey
  · intro b nb hb
    rcases hback b nb hb with ⟨rfl, rfl⟩ | ⟨hne, hb1⟩
    · refine ⟨some d.heap.length, [], ?_, rfl, by simp, fun c hc => by cases hc⟩
      show (d.table.set _ _)[hasher value.name % d.capacity]? = _
      rw [List.getElem?_set_self hidx]
    · obtain ⟨hd, path, hhd, hpath, hnot, hslots⟩ := hs.owned b nb hb1
      have hslots1 : ∀ c ∈ path, ∀ nc, readNode (pushed hasher d value head).heap c = some nc →
          nc.hash % d.capacity = nb.hash % d.capacity := by
        intro c hc nc hnc
        obtain ⟨mc, hmc⟩ := hpath.live c hc
        rw [hold c mc hmc] at hnc
        have hEq : mc = nc := Option.some.inj hnc
        rw [← hEq]
        exact hslots c hc mc hmc
      by_cases hslot : nb.hash % d.capacity = hasher value.name % d.capacity
      · rw [hslot, hhead] at hhd
        cases hhd
        refine ⟨some d.heap.length, d.heap.length :: path, ?_,
          ⟨rfl, _, hnew, hpath.append_store _⟩, ?_, ?_⟩
        · show (d.table.set _ _)[nb.hash % d.capacity]? = _
          rw [hslot, List.getElem?_set_self hidx]
        · intro hmem
          rcases List.mem_cons.mp hmem with h | h
          · exact hne h
          · exact hnot h
        · intro c hc nc hnc
          rcases List.mem_cons.mp hc with rfl | hc
          · rw [hnew] at hnc
            cases hnc
            exact hslot.symm
          · exact hslots1 c hc nc hnc
      · refine ⟨hd, path, ?_, hpath.append_store _, hnot, hslots1⟩
        show (d.table.set _ _)[nb.hash % d.capacity]? = _
        rw [List.getElem?_set_ne (Ne.symm hslot)]
        exact hhd

theorem IsSeg.first_unique {heap : Heap} {l1 l2 : List Nat} {p : Option Nat} {a : Nat}
    (h1 : IsSeg heap p l1 (some a)) (h2 : IsSeg heap p l2 (some a))
    (n1 : a ∉ l1) (n2 : a ∉ l2) : l1 = l2 := by
  rcases Nat.le_total l1.length l2.length with hle | hle
  · obtain ⟨rest, hl, hseg⟩ := h1.prefix_of_le h2 hle
    cases rest with
    | nil => simpa using hl.symm
    | cons r rest =>
      obtain ⟨hr, _⟩ := hseg
      cases hr
      exact absurd (by rw [hl]; simp) n2
  · obtain ⟨rest, hl, hseg⟩ := h2.prefix_of_le h1 hle
    cases rest with
    | nil => simpa using hl
    | cons r rest =>
      obtain ⟨hr, _⟩ := hseg
      cases hr
      exact absurd (by rw [hl]; simp) n1

theorem fieldsAt_eq_some {heap heap1 : Heap} {b : Nat} {nb1 : DirectoryNode}
    (hf : fieldsAt heap1 b = fieldsAt heap b) (hb : readNode heap1 b = some nb1) :
    ∃ nb, readNode heap b = some nb ∧ nb1.key = nb.key ∧ nb1.hash = nb.hash := by
  unfold fieldsAt at hf
  rw [hb] at hf
  cases hn : readNode heap b with
  | none => rw [hn] at hf; cases hf
  | some nb =>
    rw [hn] at hf
    simp only [Option.map_some', Option.some.injEq, Prod.mk.injEq] at hf
    exact ⟨nb, rfl, hf.1, hf.2.2⟩

/-- The part of `Sound` that `remove` has to re-establish, given how the new
free store and table relate to the old ones. -/
theorem sound_of_paths {hasher : String → Nat} {d d1 : Directory} (hs : Sound hasher d)
    {a : Nat} (hcap : d1.capacity = d.capacity) (hlen : d1.table.length = d.table.length)
    (hfields : ∀ b, b ≠ a → fieldsAt d1.heap b = fieldsAt d.heap b)
    (hdead : readNode d1.heap a = none)
    (hpaths : ∀ b nb, b ≠ a → readNode d.heap b = some nb →
      ∃ head path, d1.table[nb.hash % d.capacity]? = some head ∧
        IsSeg d1.heap head path (some b) ∧ b ∉ path ∧
        ∀ c ∈ path, c ≠ a ∧ ∀ nc, readNode d.heap c = some nc →
          nc.hash % d.capacity = nb.hash % d.capacity) :
    Sound hasher d1 := by
  have hback : ∀ b nb1, readNode d1.heap b = some nb1 →
      b ≠ a ∧ ∃ nb, readNode d.heap b = some nb ∧ nb1.key = nb.key ∧ nb1.hash = nb.hash := by
    intro b nb1 hb
    have hba : b ≠ a := by
      rintro rfl
      rw [hdead] at hb
      cases hb
    exact ⟨hba, fieldsAt_eq_some (hfields b hba) hb⟩
  refine ⟨by rw [hcap]; exact hs.capacity_pos, by rw [hlen, hcap]; exact hs.table_length,
    ?_, ?_, ?_⟩
  · refine cachedFields_of_fieldsAt (fun b => ?_) hs.cached
    by_cases hba : b = a
    · subst hba
      exact Or.inr hdead
    · exact Or.inl (hfields b hba)
  · intro b c nb1 nc1 hb hc hkey
    obtain ⟨_, nb, hnb, hkb, _⟩ := hback b nb1 hb
    obtain ⟨_, nc, hnc, hkc, _⟩ := hback c nc1 hc
    exact hs.keys_unique b c nb nc hnb hnc (by rw [← hkb, ← hkc]; exact hkey)
  · intro b nb1 hb
    obtain ⟨hba, nb, hnb, _, hhash⟩ := hback b nb1 hb
    obtain ⟨head, path, hhead, hseg, hnot, hslots⟩ := hpaths b nb hba hnb
    refine ⟨head, path, by rw [hcap, hhash]; exact hhead, hseg, hnot, ?_⟩
    intro c hc nc1 hnc1
    obtain ⟨_, nc, hnc, _, hhc⟩ := hback c nc1 hnc1
    rw [hcap, hhc, hhash]
    exact (hslots c hc).2 nc hnc

theorem concat_eq_append_cons_mem {r0 P : List Nat} {q x : Nat} {xs : List Nat} :
    r0 ++ [q] = P ++ x :: xs → q ∈ x :: xs := by
  induction P generalizing r0 with
  | nil =>
    intro h
    rw [List.nil_append] at h
    rw [← h]
    simp
  | cons p P ih =>
    intro h
    cases r0 with
    | nil =>
      simp only [List.nil_append, List.cons_append, List.cons.injEq] at h
      have := congrArg List.length h.2
      simp at this
      omega
    | cons r r0 =>
      simp only [List.cons_append, List.cons.injEq] at h
      exact ih h.2

theorem sound_unlink {hasher : String → Nat} {d d1 : Directory} (hs : Sound hasher d)
    {key : String} {head : Option Nat} {r1 : List Nat} {a : Nat} {n : DirectoryNode}
    (hhead : d.table[hasher key % d.capacity]? = some head)
    (hr1 : IsSeg d.heap head r1 (some a)) (habs : AbsentIn d.heap key r1)
    (ha : readNode d.heap a = some n) (hk : n.key = key)
    (hun : unlink d (hasher key % d.capacity) (prevAfter none r1) a n = .ok d1) :
    Sound hasher d1 := by
  have hslot_a : n.hash % d.capacity = hasher key % d.capacity := by
    rw [(hs.cached a n ha).1, hk]
  have ha_r1 : a ∉ r1 := fun h => habs a h n ha hk
  have hnd : r1.Nodup := hr1.nodup_of_target fun x hx => by
    cases hx
    exact ha_r1
  have hr1slots : ∀ c ∈ r1, ∀ nc, readNode d.heap c = some nc →
      nc.hash % d.capacity = hasher key % d.capacity := by
    obtain ⟨hd0, P, hPh, hP, haP, hPs⟩ := hs.owned a n ha
    rw [hslot_a, hhead] at hPh
    cases hPh
    have hEq : r1 = P := hr1.first_unique hP ha_r1 haP
    rw [hEq]
    intro c hc nc hnc
    rw [← hslot_a]
    exact hPs c hc nc hnc
  have hidx : hasher key % d.capacity < d.table.length := by
    rw [hs.table_length]
    exact Nat.mod_lt _ hs.capacity_pos
  rcases List.eq_nil_or_concat r1 with rfl | ⟨r0, q, rfl⟩
  · -- the node is the head of its bucket
    cases hr1
    simp only [prevAfter, unlink] at hun
    cases hun
    refine sound_of_paths hs (a := a) rfl (by simp)
      (fun b hb => fieldsAt_set_ne _ (Ne.symm hb)) (readNode_set_eq none (readNode_lt ha)) ?_
    intro b nb hba hnb
    obtain ⟨hd, P, hPh, hP, hbP, hPs⟩ := hs.owned b nb hnb
    have hPnd : P.Nodup := hP.nodup_of_target fun x hx => by
      cases hx
      exact hbP
    by_cases hsl : nb.hash % d.capacity = hasher key % d.capacity
    · rw [hsl, hhead] at hPh
      cases hPh
      cases P with
      | nil =>
        have : some a = some b := hP
        exact absurd (Option.some.inj this).symm hba
      | cons c P =>
        obtain ⟨hc, n0, hn0, hrest⟩ := hP
        cases hc
        rw [ha] at hn0
        cases hn0
        have haP : a ∉ P := (List.nodup_cons.mp hPnd).1
        refine ⟨n.next, P, ?_, hrest.set_of_not_mem none haP,
          fun h => hbP (List.mem_cons_of_mem _ h), ?_⟩
        · show (d.table.set _ _)[nb.hash % d.capacity]? = _
          rw [hsl, List.getElem?_set_self hidx]
        · intro c hc
          exact ⟨fun h => haP (h ▸ hc), hPs c (List.mem_cons_of_mem _ hc)⟩
    · have haP : a ∉ P := by
        intro h
        exact hsl ((hPs a h n ha).symm.trans hslot_a)
      refine ⟨hd, P, ?_, hP.set_of_not_mem none haP, hbP, ?_⟩
      · show (d.table.set _ _)[nb.hash % d.capacity]? = _
        rw [List.getElem?_set_ne (Ne.symm hsl)]
        exact hPh
      · intro c hc
        exact ⟨fun h => haP (h ▸ hc), hPs c hc⟩
  · -- the node follows the node at `q`
    simp only [List.concat_eq_append] at hr1 habs ha_r1 hnd hr1slots hun
    rw [prevAfter_concat] at hun
    obtain ⟨m0, hseg0, hsegq⟩ := hr1.split
    obtain ⟨hm0, mq, hmq, hqa⟩ := hsegq
    subst hm0
    have hqnext : mq.next = some a := hqa
    simp only [unlink, hmq] at hun
    cases hun
    have hqa_ne : q ≠ a := fun h => ha_r1 (by rw [← h]; simp)
    have ha_r0 : a ∉ r0 := fun h => ha_r1 (List.mem_append_left _ h)
    have hq_r0 : q ∉ r0 := by
      have := (List.nodup_append.mp hnd).2.2
      intro h
      exact this h (by simp)
    have hread_q : readNode ((d.heap.set q (some { mq with next := n.next })).set a none) q =
        some { mq with next := n.next } := by
      rw [readNode_set_ne _ (Ne.symm hqa_ne), readNode_set_eq _ (readNode_lt hmq)]
    refine sound_of_paths hs (a := a) rfl rfl ?_ ?_ ?_
    · intro b hb
      show fieldsAt ((d.heap.set q _).set a none) b = _
      rw [fieldsAt_set_ne _ (Ne.symm hb), fieldsAt_set_next hmq]
    · exact readNode_set_eq none (by rw [List.length_set]; exact readNode_lt ha)
    intro b nb hba hnb
    obtain ⟨hd, P, hPh, hP, hbP, hPs⟩ := hs.owned b nb hnb
    have hPnd : P.Nodup := hP.nodup_of_target fun x hx => by
      cases hx
      exact hbP
    by_cases hsl : nb.hash % d.capacity = hasher key % d.capacity
    · rw [hsl, hhead] at hPh
      cases hPh
      rcases Nat.le_total P.length (r0 ++ [q]).length with hle | hle
      · -- `b` comes before the removed node
        obtain ⟨rest, hl, hseg⟩ := hP.prefix_of_le hr1 hle
        cases rest with
        | nil =>
          have : some b = some a := hseg
          exact absurd (Option.some.inj this) hba
        | cons x rest =>
          have hq_mem : q ∈ x :: rest := concat_eq_append_cons_mem hl
          rw [hl] at hnd ha_r1
          have hqP : q ∉ P := fun h => (List.nodup_append.mp hnd).2.2 h hq_mem
          have haP : a ∉ P := fun h => ha_r1 (List.mem_append_left _ h)
          refine ⟨head, P, by rw [hsl]; exact hhead,
            (hP.set_of_not_mem _ hqP).set_of_not_mem _ haP, hbP, ?_⟩
          intro c hc
          exact ⟨fun h => haP (h ▸ hc), hPs c hc⟩
      · -- `b` comes after the removed node
        obtain ⟨rest, hl, hseg⟩ := hr1.prefix_of_le hP hle
        cases rest with
        | nil =>
          have : some a = some b := hseg
          exact absurd (Option.some.inj this).symm hba
        | cons x rest =>
          obtain ⟨hx, n0, hn0, hrest⟩ := hseg
          cases hx
          rw [ha] at hn0
          cases hn0
          subst hl
          have hnd2 := (List.nodup_append.mp hPnd).2.1
          have hdisj := (List.nodup_append.mp hPnd).2.2
          have ha_rest : a ∉ rest := (List.nodup_cons.mp hnd2).1
          have hq_rest : q ∉ rest := fun h =>
            hdisj (show q ∈ r0 ++ [q] by simp) (List.mem_cons_of_mem _ h)
          refine ⟨head, r0 ++ q :: rest, by rw [hsl]; exact hhead, ?_, ?_, ?_⟩
          · refine @IsSeg.append _ r0 _ _ (some q) _ ?_ ?_
            · exact (hseg0.set_of_not_mem _ hq_r0).set_of_not_mem _ ha_r0
            · exact ⟨rfl, _, hread_q,
                (hrest.set_of_not_mem _ hq_rest).set_of_not_mem _ ha_rest⟩
          · intro h
            apply hbP
            rcases List.mem_append.mp h with h | h
            · exact List.mem_append_left _ (List.mem_append_left _ h)
            · rcases List.mem_cons.mp h with h | h
              · exact List.mem_append_left _ (by rw [h]; simp)
              · exact List.mem_append_right _ (List.mem_cons_of_mem _ h)
          · intro c hc
            have hcP : c ∈ r0 ++ [q] ++ a :: rest := by
              rcases List.mem_append.mp hc with h | h
              · exact List.mem_append_left _ (List.mem_append_left _ h)
              · rcases List.mem_cons.mp h with h | h
                · exact List.mem_append_left _ (by rw [h]; simp)
                · exact List.mem_append_right _ (List.mem_cons_of_mem _ h)
            refine ⟨?_, hPs c hcP⟩
            rintro rfl
            rcases List.mem_append.mp hc with h | h
            · exact ha_r0 h
            · rcases List.mem_cons.mp h with h | h
              · exact hqa_ne h.symm
              · exact ha_rest h
    · have haP : a ∉ P := by
        intro h
        exact hsl ((hPs a h n ha).symm.trans hslot_a)
      have hqP : q ∉ P := by
        intro h
        exact hsl ((hPs q h mq hmq).symm.trans (hr1slots q (by simp) mq hmq))
      refine ⟨hd, P, hPh, (hP.set_of_not_mem _ hqP).set_of_not_mem _ haP, hbP, ?_⟩
      intro c hc
      exact ⟨fun h => haP (h ▸ hc), hPs c hc⟩

theorem growChain_selfloop (new_capacity : Nat) :
    ∀ (fuel : Nat) (heap : Heap) (nt : List (Option Nat)) (a : Nat) (n : DirectoryNode),
      readNode heap a = some n → nt[n.hash % new_capacity]? = some (some a) →
      growChain new_capacity fuel heap nt (some a) = .timeout := by
  intro fuel
  induction fuel with
  | zero => intros; rfl
  | succ fuel ih =>
    intro heap nt a n hn hslot
    have hlt : n.hash % new_capacity < nt.length := by
      by_contra hlt
      rw [List.getElem?_eq_none (Nat.le_of_not_lt hlt)] at hslot
      cases hslot
    simp only [growChain, hn, hslot]
    exact ih _ _ a { n with next := some a } (readNode_set_eq _ (readNode_lt hn))
      (List.getElem?_set_self hlt)

theorem growChain_ok_inv {new_capacity : Nat} :
    ∀ (fuel : Nat) (heap : Heap) (nt : List (Option Nat)) (p : Option Nat) (heap1 : Heap)
      (nt1 : List (Option Nat)),
      growChain new_capacity fuel heap nt p = .ok (heap1, nt1) →
      SlotsPlaced new_capacity heap nt →
      heap1 = heap ∧ SlotsPlaced new_capacity heap nt1 ∧
        (∀ (j q : Nat), nt[j]? = some (some q) → nt1[j]? = some (some q)) ∧
        ∀ path b nb, IsSeg heap p path (some b) → readNode heap b = some nb →
          nt1[nb.hash % new_capacity]? = some (some b) := by
  intro fuel
  induction fuel with
  | zero =>
    intro heap nt p heap1 nt1 h hsp
    cases p with
    | some a => simp [growChain] at h
    | none =>
      simp only [growChain] at h
      cases h
      refine ⟨rfl, hsp, fun _ _ h => h, ?_⟩
      intro path b nb hpath _
      cases path with
      | nil => cases hpath
      | cons c path => exact absurd hpath.1 (by simp)
  | succ fuel ih =>
    intro heap nt p heap1 nt1 h hsp
    cases p with
    | none =>
      simp only [growChain] at h
      cases h
      refine ⟨rfl, hsp, fun _ _ h => h, ?_⟩
      intro path b nb hpath _
      cases path with
      | nil => cases hpath
      | cons c path => exact absurd hpath.1 (by simp)
    | some a =>
      cases hn : readNode heap a with
      | none => simp [growChain, hn] at h
      | some n =>
        cases hslot : nt[n.hash % new_capacity]? with
        | none => simp [growChain, hn, hslot] at h
        | some slot =>
          have hlt : n.hash % new_capacity < nt.length := by
            by_contra hlt
            rw [List.getElem?_eq_none (Nat.le_of_not_lt hlt)] at hslot
            cases hslot
          cases slot with
          | some q =>
            exfalso
            obtain ⟨nq, hnq, hidx⟩ := hsp.2 _ q hslot
            by_cases haq : a = q
            · subst haq
              rw [growChain_selfloop new_capacity (fuel + 1) heap nt a n hn hslot] at h
              cases h
            · rw [growChain_pingpong new_capacity (fuel + 1) heap nt a q n nq hn hnq haq
                hidx.symm hslot] at h
              cases h
          | none =>
            simp only [growChain, hn, hslot] at h
            have hsp1 : SlotsPlaced new_capacity heap
                (nt.set (n.hash % new_capacity) (some a)) := by
              refine ⟨by rw [List.length_set]; exact hsp.1, ?_⟩
              intro j q hj
              by_cases hji : j = n.hash % new_capacity
              · subst hji
                rw [List.getElem?_set_self hlt] at hj
                cases hj
                exact ⟨n, hn, rfl⟩
              · rw [List.getElem?_set_ne (Ne.symm hji)] at hj
                exact hsp.2 j q hj
            obtain ⟨h1, h2, h3, h4⟩ := ih heap _ n.next heap1 nt1 h hsp1
            have hkeep : nt1[n.hash % new_capacity]? = some (some a) :=
              h3 _ a (List.getElem?_set_self hlt)
            refine ⟨h1, h2, ?_, ?_⟩
            · intro j q hj
              apply h3
              rw [List.getElem?_set_ne]
              · exact hj
              · intro hji
                rw [hji, hj] at hslot
                cases hslot
            · intro path b nb hpath hnb
              cases path with
              | nil =>
                have : some a = some b := hpath
                cases this
                rw [hn] at hnb
                cases hnb
                exact hkeep
              | cons c path =>
                obtain ⟨hc, n0, hn0, hrest⟩ := hpath
                cases hc
                rw [hn] at hn0
                cases hn0
                exact h4 path b nb hrest hnb

theorem growBuckets_ok_inv {fuel new_capacity : Nat} {table : List (Option Nat)} :
    ∀ (count i : Nat) (heap : Heap) (nt : List (Option Nat)) (heap1 : Heap)
      (nt1 : List (Option Nat)),
      growBuckets fuel new_capacity table count i heap nt = .ok (heap1, nt1) →
      SlotsPlaced new_capacity heap nt →
      heap1 = heap ∧ SlotsPlaced new_capacity heap nt1 ∧
        (∀ (j q : Nat), nt[j]? = some (some q) → nt1[j]? = some (some q)) ∧
        ∀ k head path b nb, i ≤ k → k < i + count → table[k]? = some head →
          IsSeg heap head path (some b) → readNode heap b = some nb →
          nt1[nb.hash % new_capacity]? = some (some b) := by
  intro count
  induction count with
  | zero =>
    intro i heap nt heap1 nt1 h hsp
    simp only [growBuckets] at h
    cases h
    exact ⟨rfl, hsp, fun _ _ h => h, fun k _ _ _ _ h1 h2 => by omega⟩
  | succ count ih =>
    intro i heap nt heap1 nt1 h hsp
    simp only [growBuckets] at h
    cases hi : table[i]? with
    | none => rw [hi] at h; cases h
    | some node =>
      rw [hi] at h
      simp only at h
      cases hc : growChain new_capacity fuel heap nt node with
      | fault => rw [hc] at h; cases h
      | timeout => rw [hc] at h; cases h
      | ok r =>
        obtain ⟨heap2, nt2⟩ := r
        rw [hc] at h
        simp only at h
        obtain ⟨h1, h2, h3, h4⟩ := growChain_ok_inv fuel heap nt node heap2 nt2 hc hsp
        subst h1
        obtain ⟨g1, g2, g3, g4⟩ := ih (i + 1) heap2 nt2 heap1 nt1 h h2
        refine ⟨g1, g2, fun j q hj => g3 j q (h3 j q hj), ?_⟩
        intro k head path b nb hk1 hk2 hhead hpath hnb
        by_cases hki : k = i
        · subst hki
          rw [hi] at hhead
          cases hhead
          exact g3 _ b (h4 path b nb hpath hnb)
        · exact g4 k head path b nb (by omega) (by omega) hhead hpath hnb

theorem sound_grow {hasher : String → Nat} {d d1 : Directory} (hs : Sound hasher d)
    {fuel new_capacity : Nat} (hcap : 0 < new_capacity)
    (hgrow : grow fuel d new_capacity = .ok d1) : Sound hasher d1 := by
  obtain ⟨heap1, nt1, hb, rfl⟩ := grow_inv hgrow
  have hsp0 : SlotsPlaced new_capacity d.heap (List.replicate new_capacity none) := by
    refine ⟨by simp, ?_⟩
    intro j q hj
    rw [List.getElem?_replicate] at hj
    split at hj <;> cases hj
  obtain ⟨h1, h2, _, h4⟩ := growBuckets_ok_inv d.capacity 0 d.heap _ heap1 nt1 hb hsp0
  subst h1
  refine ⟨hcap, h2.1, hs.cached, hs.keys_unique, ?_⟩
  intro a n hn
  obtain ⟨head, path, hhead, hpath, _, _⟩ := hs.owned a n hn
  refine ⟨some a, [], ?_, rfl, by simp, fun c hc => by cases hc⟩
  exact h4 (n.hash % d.capacity) head path a n (Nat.zero_le _)
    (by rw [Nat.zero_add]; exact Nat.mod_lt _ hs.capacity_pos) hhead hpath hn

theorem sound_of_reached {hasher : String → Nat} {capacity0 : Nat} {loadFactor : LoadFactor}
    {g : Nat} {d : Directory} (hcap : 0 < capacity0)
    (h : Reached hasher capacity0 loadFactor g d) : Sound hasher d := by
  induction h with
  | create => exact sound_create hasher loadFactor hcap
  | @insert g0 d0 fuel value d1 k _ hstep ih =>
    obtain ⟨head, hhead, hcase⟩ := insertTraced_inv hstep
    rcases hcase with ⟨heap1, hloop, rfl, _⟩ | ⟨hloop, _, rfl, _⟩ | ⟨hloop, _, hgrow, _⟩
    · rcases insertLoop_inv hloop with ⟨hr, _⟩ | ⟨r1, a, n, _, _, hn, hk, hr⟩
      · cases hr
      · cases hr
        exact sound_update ih hn hk
    · rcases insertLoop_inv hloop with ⟨_, as, hseg, habs⟩ | ⟨r1, a, n, _, _, _, _, hr⟩
      · exact sound_push ih hhead hseg habs
      · cases hr
    · rcases insertLoop_inv hloop with ⟨_, as, hseg, habs⟩ | ⟨r1, a, n, _, _, _, _, hr⟩
      · exact sound_grow (sound_push ih hhead hseg habs)
          (Nat.mul_pos ih.capacity_pos (by decide)) hgrow
      · cases hr
  | @remove g0 d0 fuel key d1 _ hstep ih =>
    obtain ⟨head, hhead, hcase⟩ := remove_inv hstep
    rcases hcase with ⟨rfl, _⟩ | ⟨r1, a, n, hr1, habs, ha, hk, hun⟩
    · exact ih
    · exact sound_unlink ih hhead hr1 habs ha hk hun

/-- Key uniqueness when the array that `grow` allocates is all-null, as `grow`
takes it. In every state reached from the construction of a directory of
positive capacity by calls of `insert` and `remove` that returned, growths
included: along every chain headed in the table the keys are pairwise distinct,
and no two live nodes of the directory have the same key at all. A call that
dereferences a deleted node has no state to speak of. On an array that is not
all-null `growFrom` can step over a node, and the key of that node can then be
stored a second time, as in `staleArrayDirectory`. -/
theorem chain_keys_distinct (hasher : String → Nat) (capacity0 : Nat)
    (loadFactor : LoadFactor) (g : Nat) (d : Directory) (hcap : 0 < capacity0)
    (h : Reached hasher capacity0 loadFactor g d) :
    (∀ (i : Nat) head as, d.table[i]? = some head → IsSeg d.heap head as none →
      (as.map fun a => (entryAt d.heap a).map Prod.fst).Nodup) ∧
    ∀ a b na nb, readNode d.heap a = some na → readNode d.heap b = some nb →
      na.key = nb.key → a = b := by
  have hs := sound_of_reached hcap h
  refine ⟨?_, hs.keys_unique⟩
  intro i head as _ hseg
  refine List.Nodup.map_on ?_ hseg.nodup_chain
  intro x hx y hy hxy
  obtain ⟨nx, hnx⟩ := hseg.live x hx
  obtain ⟨ny, hny⟩ := hseg.live y hy
  simp only [entryAt, hnx, hny, Option.map_some', Option.some.injEq] at hxy
  exact hs.keys_unique x y nx ny hnx hny hxy

/-- The theorem `chain_keys_distinct` at the reached state
`sharedTailDirectory`, after one growth: the chain `1, 0` of bucket 4 carries
the two keys `"abcd"` and `""`. -/
theorem chain_keys_distinct_witness :
    0 < 4 ∧ Reached String.length 4 defaultLoadFactor 1 sharedTailDirectory ∧
      sharedTailDirectory.table[4]? = some (some 1) ∧
      IsSeg sharedTailDirectory.heap (some 1) [1, 0] none ∧
      ([1, 0].map fun a => (entryAt sharedTailDirectory.heap a).map Prod.fst).Nodup :=
  ⟨by decide, sharedTailDirectory_reached, rfl,
    by simp [IsSeg, sharedTailDirectory, readNode],
    (chain_keys_distinct String.length 4 defaultLoadFactor 1 sharedTailDirectory (by decide)
      sharedTailDirectory_reached).1 4 (some 1) [1, 0] rfl
      (by simp [IsSeg, sharedTailDirectory, readNode])⟩

/-! ## An array of `grow` that is not all-null -/

theorem staleArrayDirectory_run :
    ∃ d1 d2 d3 d4, ∀ fuel, 3 ≤ fuel →
      insertFrom String.length (List.replicate 4 none) fuel
        (Directory.createFloat 2 ⟨2, 1⟩) ⟨"yyyyyy", "6"⟩ = .ok d1 ∧
      insertFrom String.length (List.replicate 4 none) fuel d1 ⟨"xx", "2"⟩ = .ok d2 ∧
      insertFrom String.length (List.replicate 4 none) fuel d2 ⟨"", "0"⟩ = .ok d3 ∧
      insertFrom String.length [some 0, none, none, some 1] fuel d3 ⟨"q", "1"⟩ = .ok d4 ∧
      get String.length fuel d4 "xx" = .ok none ∧
      insertFrom String.length (List.replicate 8 none) fuel d4 ⟨"xx", "9"⟩ =
        .ok staleArrayDirectory ∧
      display fuel staleArrayDirectory =
        .ok [⟨"", "0"⟩, ⟨"yyyyyy", "6"⟩, ⟨"q", "1"⟩, ⟨"xx", "9"⟩, ⟨"yyyyyy", "6"⟩,
          ⟨"xx", "2"⟩, ⟨"yyyyyy", "6"⟩] ∧
      d1.capacity = 2 ∧ d2.capacity = 2 ∧ d3.capacity = 2 ∧ d4.capacity = 4 := by
  have h6 : "yyyyyy".length = 6 := rfl
  have h2 : "xx".length = 2 := rfl
  have h0 : "".length = 0 := rfl
  have h1 : "q".length = 1 := rfl
  have t2 : calculate_threshold_float 2 ⟨2, 1⟩ = 4 :=
    @calculate_threshold_float_eq 2 2 0 (by norm_num)
  have t4 : calculate_threshold_float 4 ⟨2, 1⟩ = 8 :=
    @calculate_threshold_float_eq 4 2 0 (by norm_num)
  refine ⟨{ heap := [some ⟨"yyyyyy", ⟨"yyyyyy", "6"⟩, 6, none⟩]
            table := [some 0, none]
            capacity := 2, size := 1, threshold := 4, loadFactor := ⟨2, 1⟩ },
          { heap := [some ⟨"yyyyyy", ⟨"yyyyyy", "6"⟩, 6, none⟩,
                     some ⟨"xx", ⟨"xx", "2"⟩, 2, some 0⟩]
            table := [some 1, none]
            capacity := 2, size := 2, threshold := 4, loadFactor := ⟨2, 1⟩ },
          { heap := [some ⟨"yyyyyy", ⟨"yyyyyy", "6"⟩, 6, none⟩,
                     some ⟨"xx", ⟨"xx", "2"⟩, 2, some 0⟩,
                     some ⟨"", ⟨"", "0"⟩, 0, some 1⟩]
            table := [some 2, none]
            capacity := 2, size := 3, threshold := 4, loadFactor := ⟨2, 1⟩ },
          { heap := [some ⟨"yyyyyy", ⟨"yyyyyy", "6"⟩, 6, none⟩,
                     some ⟨"xx", ⟨"xx", "2"⟩, 2, some 0⟩,
                     some ⟨"", ⟨"", "0"⟩, 0, some 0⟩,
                     some ⟨"q", ⟨"q", "1"⟩, 1, none⟩]
            table := [some 2, some 3, some 0, some 1]
            capacity := 4, size := 4, threshold := 8, loadFactor := ⟨2, 1⟩ },
    fun fuel hfuel => ?_⟩
  obtain ⟨k, rfl⟩ := Nat.exists_eq_add_of_le hfuel
  refine ⟨?_, ?_, ?_, ?_, ?_, ?_, ?_, rfl, rfl, rfl, rfl⟩
  · simp [h6, insertFrom, Directory.createFloat, insertLoop, t2]
  · simp [h2, insertFrom, insertLoop, readNode, Nat.add_comm 3 k]
  · simp [h0, insertFrom, insertLoop, readNode, Nat.add_comm 3 k]
  · simp [h1, insertFrom, insertLoop, readNode, Nat.add_comm 3 k, growFrom, growBuckets,
      growChain, t4]
  · simp [h2, get, getLoop, readNode, Nat.add_comm 3 k]
  · simp [h2, insertFrom, insertLoop, readNode, Nat.add_comm 3 k, staleArrayDirectory]
  · simp [display, displayBuckets, displayChain, readNode, Nat.add_comm 3 k,
      staleArrayDirectory]

theorem staleArrayDirectory_reachedFrom :
    ReachedFrom String.length 2 ⟨2, 1⟩ staleArrayDirectory := by
  obtain ⟨d1, d2, d3, d4, hrun⟩ := staleArrayDirectory_run
  obtain ⟨r1, r2, r3, r4, _, r5, _, c1, c2, c3, c4⟩ := hrun 3 (Nat.le_refl 3)
  have s1 := ReachedFrom.insert (List.replicate 4 none) 3 ⟨"yyyyyy", "6"⟩
    (@ReachedFrom.create String.length 2 ⟨2, 1⟩) rfl r1
  have s2 := ReachedFrom.insert (List.replicate 4 none) 3 ⟨"xx", "2"⟩ s1 (by rw [c1]; rfl) r2
  have s3 := ReachedFrom.insert (List.replicate 4 none) 3 ⟨"", "0"⟩ s2 (by rw [c2]; rfl) r3
  have s4 := ReachedFrom.insert [some 0, none, none, some 1] 3 ⟨"q", "1"⟩ s3
    (by rw [c3]; rfl) r4
  exact ReachedFrom.insert (List.replicate 8 none) 3 ⟨"xx", "9"⟩ s4 (by rw [c4]; rfl) r5

/-- Claim C14, evaluated where it fails. With the string length as hash,
`Directory(2, 2.0f)` takes `insert` of `"yyyyyy"`, `"xx"` and `""`, which all
land in bucket 0. The fourth `insert`, of `"q"`, reaches the threshold 4 and
calls `grow(4)`; the array that `grow` allocates is not cleared, and here it
holds the addresses of the nodes of `"yyyyyy"` and `"xx"` in its slots 0 and
3. The call returns, but the relocation has stepped over the node of `"xx"`:
`get` of `"xx"` returns absent. A fifth `insert`, of `"xx"`, therefore
allocates a second node with that key. In the state reached, the two nodes
with the key `"xx"` head the chains of buckets 2 and 3, and `display()`
prints both. The arrays written for the other four calls are never
allocated. -/
theorem insert_after_stale_array_stores_key_twice :
    ∃ d1 d2 d3 d4,
      Returns (fun fuel => insertFrom String.length (List.replicate 4 none) fuel
        (Directory.createFloat 2 ⟨2, 1⟩) ⟨"yyyyyy", "6"⟩) d1 ∧
      Returns (fun fuel =>
        insertFrom String.length (List.replicate 4 none) fuel d1 ⟨"xx", "2"⟩) d2 ∧
      Returns (fun fuel =>
        insertFrom String.length (List.replicate 4 none) fuel d2 ⟨"", "0"⟩) d3 ∧
      Returns (fun fuel =>
        insertFrom String.length [some 0, none, none, some 1] fuel d3 ⟨"q", "1"⟩) d4 ∧
      Returns (fun fuel => get String.length fuel d4 "xx") none ∧
      Returns (fun fuel =>
        insertFrom String.length (List.replicate 8 none) fuel d4 ⟨"xx", "9"⟩)
        staleArrayDirectory ∧
      ReachedFrom String.length 2 ⟨2, 1⟩ staleArrayDirectory ∧
      staleArrayDirectory.table[2]? = some (some 4) ∧
      IsSeg staleArrayDirectory.heap (some 4) [4, 0] none ∧
      staleArrayDirectory.table[3]? = some (some 1) ∧
      IsSeg staleArrayDirectory.heap (some 1) [1, 0] none ∧
      entryAt staleArrayDirectory.heap 4 = some ("xx", ⟨"xx", "9"⟩) ∧
      entryAt staleArrayDirectory.heap 1 = some ("xx", ⟨"xx", "2"⟩) ∧
      Returns (fun fuel => display fuel staleArrayDirectory)
        [⟨"", "0"⟩, ⟨"yyyyyy", "6"⟩, ⟨"q", "1"⟩, ⟨"xx", "9"⟩, ⟨"yyyyyy", "6"⟩,
          ⟨"xx", "2"⟩, ⟨"yyyyyy", "6"⟩] := by
  obtain ⟨d1, d2, d3, d4, hrun⟩ := staleArrayDirectory_run
  exact ⟨d1, d2, d3, d4,
    ⟨3, fun fuel hfuel => (hrun fuel hfuel).1⟩,
    ⟨3, fun fuel hfuel => (hrun fuel hfuel).2.1⟩,
    ⟨3, fun fuel hfuel => (hrun fuel hfuel).2.2.1⟩,
    ⟨3, fun fuel hfuel => (hrun fuel hfuel).2.2.2.1⟩,
    ⟨3, fun fuel hfuel => (hrun fuel hfuel).2.2.2.2.1⟩,
    ⟨3, fun fuel hfuel => (hrun fuel hfuel).2.2.2.2.2.1⟩,
    staleArrayDirectory_reachedFrom, rfl, by simp [IsSeg, readNode, staleArrayDirectory], rfl,
    by simp [IsSeg, readNode, staleArrayDirectory], rfl, rfl,
    ⟨3, fun fuel hfuel => (hrun fuel hfuel).2.2.2.2.2.2.1⟩⟩

end HashDirectory
